import Mathlib

/-!
# Task manager: dependency-aware priority scheduler

A shallow embedding of `t.cpp` (the menu-driven task manager) and proofs about it.

Modelling conventions.

* `std::map<string, V>` is an association list kept in key order (`SMap V`); `find`,
  `operator[]` and assignment are `SMap.find`, `SMap.touch`/`SMap.get` and `SMap.assign`.
  Keys are compared as `std::string` does, character by character (`strLt`). Assignment
  replaces the entry of a key that is present and inserts a new key at its place, so a
  map built from the empty one stays in key order without repeated keys; the lemmas on
  lookups hold for every list of entries.
* `std::set<string>` (`visited`, `recStack`) is a list; only membership is ever observed.
* `int` is `Int`: a count would have to pass `2^31` to wrap, so overflow is left out.
* `std::priority_queue<Task, vector<Task>, Compare>` is the list of queued tasks in
  push order; `top` is a greatest element under `Compare`. The standard leaves open which
  of several equivalent greatest elements is on top; the model takes the one pushed first.
* Console parsing is outside the embedding: `addTask` receives the name, the two integers
  and the list of dependency tokens (`none` is the empty list); `loadTasksFromJson`
  receives the parsed array, or nothing when `json::parse` throws.
* The recursion of `hasCycle` and the `while` loop of `executeTasks` are driven by a fuel
  argument that `executeTasks` computes from the state; running out of fuel is `none`.
* JSON is modelled by its values (`Json`: integers, strings, arrays, objects), as far as
  `Task::toJson` builds them and `Task::fromJson` reads them; an exception of `at` or of
  a conversion is `none`. The text of a payload and its passage through the console are
  outside the embedding.
-/

namespace TaskManager

/-! ## Tasks and the comparator -/

/-- A task record (`struct Task`). -/
structure Task where
  name : String
  priority : Int
  deadline : Int
  dependencies : List String
deriving DecidableEq, Repr

/-- The value-initialised task that `taskMap[key]` inserts for a missing key. -/
def Task.blank : Task := ⟨"", 0, 0, []⟩

/-- Comparator of the priority queue (`struct Compare` of `t.cpp`): `Compare a b` says that
`a` comes out after `b`. -/
def Compare (a b : Task) : Bool :=
  if a.deadline = b.deadline then decide (a.priority < b.priority)
  else decide (a.deadline > b.deadline)

/-- Lexicographic comparison of two character-code sequences. -/
def lexLt : List Nat → List Nat → Bool
  | _, [] => false
  | [], _ :: _ => true
  | x :: xs, y :: ys => decide (x < y) || (decide (x = y) && lexLt xs ys)

/-- Order of `std::string`: lexicographic on the characters. -/
def strLt (a b : String) : Bool :=
  lexLt (a.data.map Char.toNat) (b.data.map Char.toNat)

/-! ## Ordered maps -/

/-- An ordered map from names to `V`, as the list of its entries. -/
abbrev SMap (V : Type) := List (String × V)

/-- Lookup (`m.find(k)`): the value stored under `k`, if any. -/
def SMap.find {V : Type} : SMap V → String → Option V
  | [], _ => none
  | (k', v) :: m, k => if k' = k then some v else SMap.find m k

/-- Insertion of a key that the map does not hold, at its place in key order. -/
def SMap.insertNew {V : Type} : SMap V → String → V → SMap V
  | [], k, v => [(k, v)]
  | (k', v') :: m, k, v =>
    if strLt k k' then (k, v) :: (k', v') :: m else (k', v') :: SMap.insertNew m k v

/-- Replacement of the value stored under a key that the map holds. -/
def SMap.replace {V : Type} : SMap V → String → V → SMap V
  | [], _, _ => []
  | (k', v') :: m, k, v =>
    if k' = k then (k, v) :: m else (k', v') :: SMap.replace m k v

/-- Assignment (`m[k] = v`): replaces the entry of `k`, or inserts it at its place. -/
def SMap.assign {V : Type} (m : SMap V) (k : String) (v : V) : SMap V :=
  match SMap.find m k with
  | some _ => SMap.replace m k v
  | none => SMap.insertNew m k v

/-- Value read through `m[k]`: the stored value, or the default `d` of a fresh entry. -/
def SMap.get {V : Type} (m : SMap V) (k : String) (d : V) : V :=
  (SMap.find m k).getD d

/-- Effect of `m[k]` on the map: a missing key is inserted with the default `d`. -/
def SMap.touch {V : Type} (m : SMap V) (k : String) (d : V) : SMap V :=
  match SMap.find m k with
  | some _ => m
  | none => SMap.assign m k d

/-- The keys of a map, in iteration order. -/
def SMap.keys {V : Type} (m : SMap V) : List String := m.map Prod.fst

/-- Increment (`inDegree[k]++`). -/
def incr (inDegree : SMap Int) (k : String) : SMap Int :=
  SMap.assign inDegree k (SMap.get inDegree k 0 + 1)

/-- Decrement (`--inDegree[k]`). -/
def decr (inDegree : SMap Int) (k : String) : SMap Int :=
  SMap.assign inDegree k (SMap.get inDegree k 0 - 1)

/-- Append (`adjList[k].push_back(x)`). -/
def pushBack (adjList : SMap (List String)) (k x : String) : SMap (List String) :=
  SMap.assign adjList k (SMap.get adjList k [] ++ [x])

/-! ## The registry and its graph indices -/

/-- The three containers of `main`. -/
structure State where
  taskMap : SMap Task
  inDegree : SMap Int
  adjList : SMap (List String)
deriving DecidableEq, Repr

/-- The state at program start. -/
def State.empty : State := ⟨[], [], []⟩

/-- What `addTask` reports. -/
inductive AddOutcome where
  | duplicateName
  | added (skipped : List String)
deriving DecidableEq, Repr

/-- Local variables of the dependency loop of `addTask`. -/
structure AddLoop where
  dependencies : List String
  inDegree : SMap Int
  adjList : SMap (List String)
  skipped : List String
deriving DecidableEq, Repr

/-- One round of the `while (getline(ss, dep, ','))` loop of `addTask`. -/
def addDepStep (taskMap : SMap Task) (name : String) (st : AddLoop) (dep : String) : AddLoop :=
  match SMap.find taskMap dep with
  | none => { st with skipped := st.skipped ++ [dep] }
  | some _ =>
    { dependencies := st.dependencies ++ [dep]
      inDegree := incr st.inDegree name
      adjList := pushBack st.adjList dep name
      skipped := st.skipped }

/-- Menu entry 1 (`addTask`). -/
def addTask (s : State) (name : String) (priority deadline : Int) (deps : List String) :
    State × AddOutcome :=
  match SMap.find s.taskMap name with
  | some _ => (s, AddOutcome.duplicateName)
  | none =>
    let st := deps.foldl (addDepStep s.taskMap name) ⟨[], s.inDegree, s.adjList, []⟩
    let task : Task := ⟨name, priority, deadline, st.dependencies⟩
    let inDegree :=
      match SMap.find st.inDegree name with
      | some _ => st.inDegree
      | none => SMap.assign st.inDegree name 0
    (⟨SMap.assign s.taskMap name task, inDegree, st.adjList⟩, AddOutcome.added st.skipped)

/-- One round of the inner loop of `loadTasksFromJson`, for the dependency `dep` of the
record named `name`. -/
def loadDepStep (name : String) (acc : SMap Int × SMap (List String)) (dep : String) :
    SMap Int × SMap (List String) :=
  (incr acc.1 name, pushBack acc.2 dep name)

/-- One round of the outer loop of `loadTasksFromJson`. -/
def loadRecord (s : State) (newTask : Task) : State :=
  let taskMap := SMap.assign s.taskMap newTask.name newTask
  let inDegree :=
    if newTask.dependencies.isEmpty then SMap.assign s.inDegree newTask.name 0 else s.inDegree
  let acc := newTask.dependencies.foldl (loadDepStep newTask.name) (inDegree, s.adjList)
  ⟨taskMap, acc.1, acc.2⟩

/-- What `loadTasksFromJson` reports. -/
inductive LoadOutcome where
  | parseError
  | loaded
deriving DecidableEq, Repr

/-- Menu entry 4 (`loadTasksFromJson`): `jArray` is the parsed payload, `none` when
`json::parse` throws. -/
def loadTasksFromJson (s : State) (jArray : Option (List Task)) : State × LoadOutcome :=
  match jArray with
  | none => (s, LoadOutcome.parseError)
  | some records => (records.foldl loadRecord State.empty, LoadOutcome.loaded)

/-! ## Cycle detection -/

/-- The containers `hasCycle` works on. -/
structure DfsState where
  adjList : SMap (List String)
  visited : List String
  recStack : List String
deriving DecidableEq, Repr

/-- The `for` loop of `hasCycle` over the neighbours, with the recursive call `call`. -/
def probeNeighbors (call : String → DfsState → Option (Bool × DfsState)) :
    List String → DfsState → Option (Bool × DfsState)
  | [], st => some (false, st)
  | n :: ns, st =>
    if n ∈ st.visited then
      if n ∈ st.recStack then some (true, st) else probeNeighbors call ns st
    else
      match call n st with
      | none => none
      | some (true, st1) => some (true, st1)
      | some (false, st1) =>
        if n ∈ st1.recStack then some (true, st1) else probeNeighbors call ns st1

/-- The recursive function `hasCycle`; `none` when the fuel runs out. -/
def hasCycle : Nat → String → DfsState → Option (Bool × DfsState)
  | 0, _, _ => none
  | fuel + 1, task, st =>
    if task ∈ st.visited then
      some (false, { st with recStack := st.recStack.filter (fun x => x ≠ task) })
    else
      let st1 : DfsState :=
        { adjList := SMap.touch st.adjList task []
          visited := task :: st.visited
          recStack := List.insert task st.recStack }
      match probeNeighbors (hasCycle fuel) (SMap.get st.adjList task []) st1 with
      | none => none
      | some (true, st2) => some (true, st2)
      | some (false, st2) =>
        some (false, { st2 with recStack := st2.recStack.filter (fun x => x ≠ task) })

/-- The first loop of `executeTasks`: `hasCycle` on every key of `taskMap`. -/
def cycleCheck (fuel : Nat) : List String → DfsState → Option (Bool × DfsState)
  | [], st => some (false, st)
  | k :: ks, st =>
    match hasCycle fuel k st with
    | none => none
    | some (true, st1) => some (true, st1)
    | some (false, st1) => cycleCheck fuel ks st1

/-- Every name the traversal can meet: the registered names and the listed dependents. -/
def nodes (s : State) : List String :=
  SMap.keys s.taskMap ++ s.adjList.flatMap Prod.snd

/-! ## The scheduler -/

/-- Top of the queue (`minHeap.top()`): a greatest queued task under `Compare`. -/
def heapTop : List Task → Option Task
  | [] => none
  | t :: ts => some (ts.foldl (fun best x => if Compare best x then x else best) t)

/-- Containers and locals of the scheduling loop. -/
structure KahnState where
  taskMap : SMap Task
  inDegree : SMap Int
  adjList : SMap (List String)
  minHeap : List Task
  emitted : List Task
deriving DecidableEq, Repr

/-- The second loop of `executeTasks`: a task whose `inDegree[key]` reads 0 is queued. -/
def seedStep (acc : SMap Int × List Task) (entry : String × Task) : SMap Int × List Task :=
  let inDegree := SMap.touch acc.1 entry.1 0
  if SMap.get acc.1 entry.1 0 = 0 then (inDegree, acc.2 ++ [entry.2]) else (inDegree, acc.2)

/-- One round of the `for` loop over the dependents of the task just emitted. -/
def relaxStep (st : KahnState) (dependent : String) : KahnState :=
  let inDegree := decr st.inDegree dependent
  if SMap.get inDegree dependent 0 = 0 then
    { st with
      inDegree := inDegree
      taskMap := SMap.touch st.taskMap dependent Task.blank
      minHeap := st.minHeap ++ [SMap.get st.taskMap dependent Task.blank] }
  else { st with inDegree := inDegree }

/-- One round of the `while (!minHeap.empty())` loop, for the task `current` on top. -/
def kahnStep (st : KahnState) (current : Task) : KahnState :=
  (SMap.get st.adjList current.name []).foldl relaxStep
    { st with
      minHeap := st.minHeap.erase current
      emitted := st.emitted ++ [current]
      adjList := SMap.touch st.adjList current.name [] }

/-- The `while (!minHeap.empty())` loop; `none` when the fuel runs out. -/
def kahnLoop : Nat → KahnState → Option KahnState
  | 0, st =>
    match heapTop st.minHeap with
    | none => some st
    | some _ => none
  | fuel + 1, st =>
    match heapTop st.minHeap with
    | none => some st
    | some current => kahnLoop fuel (kahnStep st current)

/-- The error messages of `executeTasks`. -/
inductive ExecError where
  | circularDependency
  | noExecutableTasks
deriving DecidableEq, Repr

/-- What a call of `executeTasks` leaves behind: the containers, the error printed (if
any) and the tasks emitted, in order. -/
structure ExecResult where
  state : State
  error : Option ExecError
  emitted : List Task
deriving DecidableEq, Repr

/-- The vector `executionOrder`: the names of the emitted tasks. -/
def ExecResult.executionOrder (r : ExecResult) : List String := r.emitted.map Task.name

/-- Number of counts that are still positive. -/
def positives (inDegree : SMap Int) : Nat :=
  (inDegree.filter (fun e => decide (0 < e.2))).length

/-- Number of rounds the scheduling loop can need: the queued tasks and the counts that
can still fall to 0. -/
def kahnFuel (inDegree : SMap Int) (minHeap : List Task) : Nat :=
  minHeap.length + positives inDegree

/-- Menu entry 5 (`executeTasks`). -/
def executeTasks (s : State) : Option ExecResult :=
  match cycleCheck ((nodes s).length + 1) (SMap.keys s.taskMap) ⟨s.adjList, [], []⟩ with
  | none => none
  | some (true, d) => some ⟨{ s with adjList := d.adjList }, some ExecError.circularDependency, []⟩
  | some (false, d) =>
    let seeded := s.taskMap.foldl seedStep (s.inDegree, [])
    if seeded.2.isEmpty then
      some ⟨⟨s.taskMap, seeded.1, d.adjList⟩, some ExecError.noExecutableTasks, []⟩
    else
      match kahnLoop (kahnFuel seeded.1 seeded.2) ⟨s.taskMap, seeded.1, d.adjList, seeded.2, []⟩ with
      | none => none
      | some k => some ⟨⟨k.taskMap, k.inDegree, k.adjList⟩, none, k.emitted⟩


/-! ## Notions used to state the properties -/

/-- The dependency tokens that `addTask` keeps: those naming a task registered before the
call, in the order and number given. -/
def retained (taskMap : SMap Task) (deps : List String) : List String :=
  deps.filter (fun x => (SMap.find taskMap x).isSome)

/-- The dependency tokens that `addTask` skips with a warning. -/
def skippedDeps (taskMap : SMap Task) (deps : List String) : List String :=
  deps.filter (fun x => !(SMap.find taskMap x).isSome)


/-- The edge relation of the dependents adjacency: `b` is listed under `adjList[a]`
(a missing key reads as the empty list). -/
def Edge (adjList : SMap (List String)) (a b : String) : Prop :=
  b ∈ SMap.get adjList a []

/-- A finished node of the traversal: visited and no longer on the recursion stack. -/
def Black (st : DfsState) (x : String) : Prop :=
  x ∈ st.visited ∧ x ∉ st.recStack

/-- The invariant of the traversal between two calls of `hasCycle`: the recursion stack is
visited, the finished nodes are closed under the edges, and none of them lies on a cycle. -/
structure DfsInv (E : String → String → Prop) (st : DfsState) : Prop where
  stack_visited : ∀ x, x ∈ st.recStack → x ∈ st.visited
  closed : ∀ u v, Black st u → E u v → Black st v
  acyclic : ∀ u, Black st u → ¬ Relation.TransGen E u u

/-- What every call of `hasCycle` keeps: the lists read from `adjList` and the nodes
already visited. -/
def DfsFrame (st st1 : DfsState) : Prop :=
  (∀ k, SMap.get st1.adjList k [] = SMap.get st.adjList k []) ∧
  (∀ x, x ∈ st.visited → x ∈ st1.visited)

/-- Number of entries of `U` not yet visited. -/
def unvisited (U visited : List String) : Nat :=
  (U.filter (fun x => decide (x ∉ visited))).length


/-- The order the scheduler prefers: `a` has the earlier deadline, or the same deadline and
a priority at least as high. -/
def Before (a b : Task) : Prop :=
  a.deadline < b.deadline ∨ (a.deadline = b.deadline ∧ b.priority ≤ a.priority)


/-- The states the program can be in: the state at start and what the three mutating menu
entries make of a state the program can be in. -/
inductive Reachable : State → Prop
  | start : Reachable State.empty
  | add {s : State} (name : String) (priority deadline : Int) (deps : List String) :
      Reachable s → Reachable (addTask s name priority deadline deps).1
  | load {s : State} (jArray : Option (List Task)) :
      Reachable s → Reachable (loadTasksFromJson s jArray).1
  | exec {s : State} {r : ExecResult} :
      Reachable s → executeTasks s = some r → Reachable r.state

/-- Every name the graph indices mention is a registered task: the listed dependents and
the names that have a count. -/
structure Registered (s : State) : Prop where
  dependents : ∀ k x, x ∈ SMap.get s.adjList k [] → x ∈ SMap.keys s.taskMap
  counts : ∀ k, SMap.find s.inDegree k ≠ none → k ∈ SMap.keys s.taskMap

/-- What the scheduling loop keeps when it starts from the registry `tm0` and the
adjacency `adj0`. -/
def KahnFrame (tm0 : SMap Task) (adj0 : SMap (List String)) (st : KahnState) : Prop :=
  st.taskMap = tm0 ∧ (∀ k, SMap.get st.adjList k [] = SMap.get adj0 k []) ∧
    (∀ k, SMap.find st.inDegree k ≠ none → k ∈ SMap.keys tm0)


/-- The arguments of one call of `addTask`. -/
structure AddRequest where
  name : String
  priority : Int
  deadline : Int
  deps : List String
deriving DecidableEq, Repr

/-- The registry built from the empty state by a sequence of `addTask` calls. -/
def addAll (reqs : List AddRequest) : State :=
  reqs.foldl (fun s q => (addTask s q.name q.priority q.deadline q.deps).1) State.empty

/-- What `addTask` keeps between the registry and its indices: a listed dependent is a
registered task that names the key among its dependencies, and the count read for a name
is the length of its stored dependency list (0 for a name that is not registered). -/
structure AddInv (s : State) : Prop where
  dependents : ∀ k x, x ∈ SMap.get s.adjList k [] →
    ∃ t, SMap.find s.taskMap x = some t ∧ k ∈ t.dependencies
  counts : ∀ k, SMap.get s.inDegree k 0 =
    match SMap.find s.taskMap k with
    | some t => (t.dependencies.length : Int)
    | none => 0


instance (adjList : SMap (List String)) (a b : String) : Decidable (Edge adjList a b) :=
  inferInstanceAs (Decidable (b ∈ SMap.get adjList a []))

/-! ## Concrete registries -/

/-- Task `A` (deadline 5), then task `B` (deadline 1) that depends on `A`, both entered
through `addTask`. -/
def chainState : State :=
  (addTask (addTask State.empty "A" 1 5 []).1 "B" 1 1 ["A"]).1

/-- The three independent tasks of the priority example, in the order they are added. -/
def priorityRequests : List AddRequest :=
  [⟨"A", 1, 5, []⟩, ⟨"B", 9, 5, []⟩, ⟨"C", 1, 3, []⟩]

/-- A batch in which `B` depends on a name that no record defines. -/
def danglingBatch : List Task :=
  [⟨"A", 1, 1, []⟩, ⟨"B", 1, 2, ["Z"]⟩]

/-- A batch with two tasks that depend on each other, and a third one apart. -/
def cyclicBatch : List Task :=
  [⟨"A", 1, 2, []⟩, ⟨"X", 1, 1, ["Y"]⟩, ⟨"Y", 1, 1, ["X"]⟩]

/-- The registry after loading `danglingBatch`. -/
def danglingState : State :=
  (loadTasksFromJson State.empty (some danglingBatch)).1

/-- The registry after loading `cyclicBatch`. -/
def cyclicState : State :=
  (loadTasksFromJson State.empty (some cyclicBatch)).1

/-- A batch in which the name `X` occurs in two records. -/
def repeatedBatch : List Task :=
  [⟨"A", 1, 1, []⟩, ⟨"B", 1, 2, []⟩, ⟨"X", 1, 3, ["A"]⟩, ⟨"X", 1, 3, ["B"]⟩]

/-- The registry after loading `repeatedBatch` over the registry of `A` and `B`. -/
def repeatedState : State :=
  (loadTasksFromJson chainState (some repeatedBatch)).1


/-! ## Further notions used to state the properties -/

/-- Comparator of the earlier scheduler in `tempCodeRunnerFile.cpp`: as `Compare`, and
tasks equal in deadline and priority are ordered by name (`a.name > b.name`). -/
def TempCodeRunner.Compare (a b : Task) : Bool :=
  if a.deadline = b.deadline then
    if a.priority = b.priority then strLt b.name a.name
    else decide (a.priority < b.priority)
  else decide (a.deadline > b.deadline)

/-- The dependents and the dependencies are inverse to each other: `b` is listed under
`adjList[a]` (a missing key reads as the empty list) exactly when `b` is a registered task
with `a` among its dependencies. -/
def MutualInverse (s : State) : Prop :=
  ∀ a b, b ∈ SMap.get s.adjList a [] ↔
    ∃ t, SMap.find s.taskMap b = some t ∧ a ∈ t.dependencies

/-- Whether the first loop of `executeTasks` ends without finding a cycle. -/
def cycleCheckPasses (s : State) : Bool :=
  match cycleCheck ((nodes s).length + 1) (SMap.keys s.taskMap) ⟨s.adjList, [], []⟩ with
  | some (false, _) => true
  | _ => false

/-- Two tasks equal in deadline and priority, with different names. -/
def tiedPair : Task × Task := (⟨"A", 1, 1, []⟩, ⟨"B", 1, 1, []⟩)

/-- A batch whose only task depends on a name that no record defines. -/
def blockedBatch : List Task := [⟨"B", 1, 2, ["Z"]⟩]

/-- The registry after loading `blockedBatch`. -/
def blockedState : State :=
  (loadTasksFromJson State.empty (some blockedBatch)).1

/-- A numbering of the names under which every edge of the dependents adjacency goes
upwards, joins two registered tasks, and every registered task lies below `N`: the order
in which `addTask` registered the tasks. -/
structure AddOrder (s : State) (r : String → Nat) (N : Nat) : Prop where
  edge_lt : ∀ a b, Edge s.adjList a b → r a < r b
  edge_reg : ∀ a b, Edge s.adjList a b →
    SMap.find s.taskMap a ≠ none ∧ SMap.find s.taskMap b ≠ none
  bound : ∀ k, SMap.find s.taskMap k ≠ none → r k < N

/-- The registry as a map on task names: no key occurs twice, and every task is stored
under its own name. -/
structure WellKeyed (taskMap : SMap Task) : Prop where
  nodup : (SMap.keys taskMap).Nodup
  named : ∀ e, e ∈ taskMap → e.2.name = e.1

/-- The part of `executeTasks` after the cycle check: the seeding loop and the scheduling
loop, run on the given containers (a queue that is empty after seeding ends it at once). -/
def scheduleLoop (taskMap : SMap Task) (inDegree : SMap Int) (adjList : SMap (List String)) :
    Option KahnState :=
  kahnLoop
    (kahnFuel (taskMap.foldl seedStep (inDegree, [])).1 (taskMap.foldl seedStep (inDegree, [])).2)
    ⟨taskMap, (taskMap.foldl seedStep (inDegree, [])).1, adjList,
      (taskMap.foldl seedStep (inDegree, [])).2, []⟩

/-- What the scheduling loop keeps whatever the counts are, when it starts from the registry
`tm0` and the adjacency `adj0`: the tasks emitted or queued are registered tasks, each
occurs once, and their counts are spent (not positive). -/
structure Queued (tm0 : SMap Task) (adj0 : SMap (List String)) (st : KahnState) : Prop where
  taskMap_eq : st.taskMap = tm0
  reads : ∀ k, SMap.get st.adjList k [] = SMap.get adj0 k []
  registered : ∀ t, t ∈ st.emitted ++ st.minHeap → SMap.find tm0 t.name = some t
  spent : ∀ t, t ∈ st.emitted ++ st.minHeap → SMap.get st.inDegree t.name 0 ≤ 0
  nodup : (st.emitted ++ st.minHeap).Nodup

/-- Number of entries of a dependency list that name no emitted task. -/
def pending (emitted : List String) (deps : List String) : Nat :=
  (deps.filter (fun a => decide (a ∉ emitted))).length

/-- What the scheduling loop keeps on consistent indices: the count of a registered task
is the number of its dependencies not yet emitted, and the tasks emitted or queued are
those whose count is 0. -/
structure Tracked (tm0 : SMap Task) (st : KahnState) : Prop where
  counts : ∀ b t, SMap.find tm0 b = some t →
    SMap.get st.inDegree b 0 = (pending (st.emitted.map Task.name) t.dependencies : Int)
  ready : ∀ b t, SMap.find tm0 b = some t →
    (t ∈ st.emitted ++ st.minHeap ↔ SMap.get st.inDegree b 0 = 0)

/-- The order of the emitted tasks: every dependency of an emitted task was emitted before
it, and a task is emitted before every task that was eligible at that moment and comes
later (or never) unless that task is at least as urgent. -/
structure Ordered (tm0 : SMap Task) (st : KahnState) : Prop where
  topological : ∀ pre x post, st.emitted = pre ++ x :: post →
    ∀ a, a ∈ x.dependencies → a ∈ pre.map Task.name
  frontier : ∀ pre x post, st.emitted = pre ++ x :: post →
    ∀ t, (t ∈ post ∨ (SMap.find tm0 t.name = some t ∧ t ∉ st.emitted)) →
      (∀ a, a ∈ t.dependencies → a ∈ pre.map Task.name) → Before x t

/-- Consistent graph indices: every listed dependent is a registered task, `adjList[a]`
lists a registered task `b` once per occurrence of `a` among the dependencies of `b`, and
the count of a registered task is the length of its dependency list. -/
structure Indexed (s : State) : Prop where
  dependents_registered : ∀ a b, b ∈ SMap.get s.adjList a [] → SMap.find s.taskMap b ≠ none
  dependents_count : ∀ a b t, SMap.find s.taskMap b = some t →
    (SMap.get s.adjList a []).count b = t.dependencies.count a
  counts : ∀ b t, SMap.find s.taskMap b = some t →
    SMap.get s.inDegree b 0 = (t.dependencies.length : Int)

/-- Every dependency of every registered task is a registered task. -/
def DepsRegistered (s : State) : Prop :=
  ∀ b t, SMap.find s.taskMap b = some t → ∀ a, a ∈ t.dependencies → SMap.find s.taskMap a ≠ none

/-- A diamond (`D` waits for `B` and `C`, which both wait for `A`) and a task `E` apart,
with five different deadlines. -/
def diamondRequests : List AddRequest :=
  [⟨"A", 1, 5, []⟩, ⟨"B", 1, 4, ["A"]⟩, ⟨"C", 1, 3, ["A"]⟩, ⟨"D", 1, 1, ["B", "C"]⟩,
   ⟨"E", 1, 2, []⟩]

/-- A state whose adjacency lists two names, `P` and `Q`, that are not registered. -/
def strayState : State :=
  ⟨[("A", ⟨"A", 1, 1, []⟩)], [("A", 0), ("P", 1), ("Q", 1)], [("A", ["P", "Q"])]⟩

/-- A batch of two tasks that depend on each other. -/
def mutualBatch : List Task :=
  [⟨"X", 1, 1, ["Y"]⟩, ⟨"Y", 1, 2, ["X"]⟩]

/-- The registry after loading `mutualBatch`. -/
def mutualState : State :=
  (loadTasksFromJson State.empty (some mutualBatch)).1

/-- The JSON values that `Task::toJson` builds and `Task::fromJson` reads. -/
inductive Json where
  | num (n : Int)
  | str (s : String)
  | arr (items : List Json)
  | obj (fields : List (String × Json))

/-- Member access (`j.at(key)`): the value stored under `key` in an object; `none` stands
for the exception thrown otherwise. -/
def Json.atKey (j : Json) (key : String) : Option Json :=
  match j with
  | Json.obj fields => (fields.find? (fun f => f.1 == key)).map Prod.snd
  | _ => none

/-- Conversion of a JSON value to `int`. -/
def Json.getInt (j : Json) : Option Int :=
  match j with
  | Json.num n => some n
  | _ => none

/-- Conversion of a JSON value to `string`. -/
def Json.getString (j : Json) : Option String :=
  match j with
  | Json.str s => some s
  | _ => none

/-- Conversion of the items of a JSON array to strings. -/
def getStrings : List Json → Option (List String)
  | [] => some []
  | j :: js =>
    match Json.getString j, getStrings js with
    | some s, some ss => some (s :: ss)
    | _, _ => none

/-- Conversion of a JSON value to `vector<string>` (`get<vector<string>>()`). -/
def Json.getStringArray (j : Json) : Option (List String) :=
  match j with
  | Json.arr items => getStrings items
  | _ => none

/-- The record of a task (`Task::toJson`). -/
def Task.toJson (t : Task) : Json :=
  Json.obj [("name", Json.str t.name), ("priority", Json.num t.priority),
    ("deadline", Json.num t.deadline),
    ("dependencies", Json.arr (t.dependencies.map Json.str))]

/-- The task of a record (`Task::fromJson`); `none` stands for the exception thrown on a
missing member or a member of the wrong type. -/
def Task.fromJson (j : Json) : Option Task :=
  match (j.atKey "name").bind Json.getString, (j.atKey "priority").bind Json.getInt,
    (j.atKey "deadline").bind Json.getInt,
    (j.atKey "dependencies").bind Json.getStringArray with
  | some name, some priority, some deadline, some dependencies =>
    some ⟨name, priority, deadline, dependencies⟩
  | _, _, _, _ => none

/-- Menu entry 3 (`saveTasksToJson`): the array of the records of the registry, in the
order of the keys; nothing is produced for an empty registry. -/
def saveTasksToJson (taskMap : SMap Task) : Option (List Json) :=
  if taskMap.isEmpty then none else some (taskMap.map (fun entry => entry.2.toJson))

/-- The tasks that the loop of `loadTasksFromJson` reads from a parsed array. -/
def readRecords : List Json → Option (List Task)
  | [] => some []
  | j :: js =>
    match Task.fromJson j, readRecords js with
    | some t, some ts => some (t :: ts)
    | _, _ => none

/-- A map in key order: the keys ascend strictly in the order of `std::string`. -/
def SMap.Sorted {V : Type} (m : SMap V) : Prop :=
  (SMap.keys m).Pairwise (fun a b => strLt a b = true)

/-! ## Lemmas on ordered maps -/

theorem SMap.find_insertNew {V : Type} (m : SMap V) (k k' : String) (v : V)
    (h : SMap.find m k = none) :
    SMap.find (SMap.insertNew m k v) k' = if k' = k then some v else SMap.find m k' := by
  induction m with
  | nil =>
    simp only [SMap.insertNew, SMap.find]
    by_cases h1 : k' = k
    · simp [h1]
    · have h2 : ¬ k = k' := fun h3 => h1 h3.symm
      simp [h1, h2]
  | cons e m ih =>
    obtain ⟨k1, v1⟩ := e
    simp only [SMap.find] at h
    have hk1 : ¬ k1 = k := by
      intro h1
      simp [h1] at h
    simp only [hk1, if_false] at h
    simp only [SMap.insertNew]
    by_cases h1 : k' = k
    · subst h1
      split
      · simp [SMap.find]
      · simp only [SMap.find, hk1, if_false, ih h, if_true]
    · have h2 : ¬ k = k' := fun h3 => h1 h3.symm
      split
      · simp only [SMap.find, h2, if_false, h1]
      · simp only [SMap.find, ih h, h1, if_false]

theorem SMap.find_replace {V : Type} (m : SMap V) (k k' : String) (v : V)
    (h : SMap.find m k ≠ none) :
    SMap.find (SMap.replace m k v) k' = if k' = k then some v else SMap.find m k' := by
  induction m with
  | nil => simp [SMap.find] at h
  | cons e m ih =>
    obtain ⟨k1, v1⟩ := e
    simp only [SMap.replace]
    by_cases hk1 : k1 = k
    · subst hk1
      simp only [if_true, SMap.find]
      by_cases h1 : k' = k1
      · simp [h1]
      · have h2 : ¬ k1 = k' := fun h3 => h1 h3.symm
        simp [h1, h2]
    · simp only [SMap.find, hk1, if_false] at h
      simp only [hk1, if_false, SMap.find, ih h]
      by_cases h1 : k' = k
      · subst h1
        simp [hk1]
      · simp [h1]

theorem SMap.find_assign {V : Type} (m : SMap V) (k k' : String) (v : V) :
    SMap.find (SMap.assign m k v) k' = if k' = k then some v else SMap.find m k' := by
  unfold SMap.assign
  cases h : SMap.find m k with
  | none => exact SMap.find_insertNew m k k' v h
  | some x => exact SMap.find_replace m k k' v (by rw [h]; exact Option.some_ne_none x)

theorem SMap.find_assign_self {V : Type} (m : SMap V) (k : String) (v : V) :
    SMap.find (SMap.assign m k v) k = some v := by
  rw [SMap.find_assign]
  simp

theorem SMap.find_assign_ne {V : Type} (m : SMap V) (k k' : String) (v : V) (h : k' ≠ k) :
    SMap.find (SMap.assign m k v) k' = SMap.find m k' := by
  rw [SMap.find_assign]
  simp [h]

theorem SMap.get_assign {V : Type} (m : SMap V) (k k' : String) (v d : V) :
    SMap.get (SMap.assign m k v) k' d = if k' = k then v else SMap.get m k' d := by
  unfold SMap.get
  rw [SMap.find_assign]
  split <;> rfl

theorem SMap.find_touch {V : Type} (m : SMap V) (k k' : String) (d : V) :
    SMap.find (SMap.touch m k d) k' =
      if k' = k then some (SMap.get m k d) else SMap.find m k' := by
  unfold SMap.touch SMap.get
  cases h : SMap.find m k with
  | none =>
    simp only [SMap.find_assign, Option.getD_none]
  | some v =>
    simp only [Option.getD_some]
    split
    · rename_i h1
      subst h1
      exact h
    · rfl

theorem SMap.get_touch {V : Type} (m : SMap V) (k k' : String) (d : V) :
    SMap.get (SMap.touch m k d) k' d = SMap.get m k' d := by
  unfold SMap.get
  rw [SMap.find_touch]
  split
  · rename_i h
    subst h
    rfl
  · rfl

theorem SMap.touch_of_find {V : Type} (m : SMap V) (k : String) (d v : V)
    (h : SMap.find m k = some v) : SMap.touch m k d = m := by
  simp [SMap.touch, h]

theorem SMap.mem_keys_iff {V : Type} (m : SMap V) (k : String) :
    k ∈ SMap.keys m ↔ SMap.find m k ≠ none := by
  induction m with
  | nil => simp [SMap.keys, SMap.find]
  | cons e m ih =>
    obtain ⟨k1, v1⟩ := e
    simp only [SMap.keys, List.map_cons, List.mem_cons, SMap.find]
    by_cases h : k1 = k
    · simp [h]
    · have h2 : ¬ k = k1 := fun h3 => h h3.symm
      simp only [h, h2, if_false, false_or]
      exact ih

theorem SMap.mem_keys_assign {V : Type} (m : SMap V) (k k' : String) (v : V) :
    k' ∈ SMap.keys (SMap.assign m k v) ↔ k' = k ∨ k' ∈ SMap.keys m := by
  rw [SMap.mem_keys_iff, SMap.mem_keys_iff, SMap.find_assign]
  by_cases h : k' = k <;> simp [h]

/-! ## `addTask` -/

theorem addDepStep_fold (taskMap : SMap Task) (name : String) (deps : List String)
    (st : AddLoop) :
    (deps.foldl (addDepStep taskMap name) st).dependencies
        = st.dependencies ++ retained taskMap deps ∧
    (deps.foldl (addDepStep taskMap name) st).skipped
        = st.skipped ++ skippedDeps taskMap deps ∧
    SMap.get (deps.foldl (addDepStep taskMap name) st).inDegree name 0
        = SMap.get st.inDegree name 0 + ((retained taskMap deps).length : Int) ∧
    (∀ k, k ≠ name →
      SMap.find (deps.foldl (addDepStep taskMap name) st).inDegree k
        = SMap.find st.inDegree k) ∧
    (∀ k, SMap.get (deps.foldl (addDepStep taskMap name) st).adjList k []
        = SMap.get st.adjList k [] ++ List.replicate ((retained taskMap deps).count k) name) := by
  induction deps generalizing st with
  | nil => simp [retained, skippedDeps]
  | cons dep deps ih =>
    simp only [List.foldl_cons]
    obtain ⟨h1, h2, h3, h4, h5⟩ := ih (addDepStep taskMap name st dep)
    cases hf : SMap.find taskMap dep with
    | none =>
      have hr : retained taskMap (dep :: deps) = retained taskMap deps := by
        simp [retained, hf]
      have hs : skippedDeps taskMap (dep :: deps) = dep :: skippedDeps taskMap deps := by
        simp [skippedDeps, hf]
      have hst : addDepStep taskMap name st dep = { st with skipped := st.skipped ++ [dep] } := by
        simp [addDepStep, hf]
      rw [hst] at h1 h2 h3 h4 h5
      rw [hst, hr, hs, h1, h2, h3]
      refine ⟨rfl, by simp, rfl, ?_, ?_⟩
      · intro k hk
        rw [h4 k hk]
      · intro k
        rw [h5 k]
    | some t =>
      have hr : retained taskMap (dep :: deps) = dep :: retained taskMap deps := by
        simp [retained, hf]
      have hs : skippedDeps taskMap (dep :: deps) = skippedDeps taskMap deps := by
        simp [skippedDeps, hf]
      have hst : addDepStep taskMap name st dep =
          { dependencies := st.dependencies ++ [dep]
            inDegree := incr st.inDegree name
            adjList := pushBack st.adjList dep name
            skipped := st.skipped } := by
        simp [addDepStep, hf]
      rw [hst] at h1 h2 h3 h4 h5
      rw [hst, hr, hs, h1, h2, h3]
      refine ⟨by simp, rfl, ?_, ?_, ?_⟩
      · simp only [incr, SMap.get_assign, if_true, List.length_cons]
        push_cast
        ring
      · intro k hk
        rw [h4 k hk]
        simp only [incr]
        rw [SMap.find_assign_ne _ _ _ _ hk]
      · intro k
        rw [h5 k]
        simp only [pushBack, SMap.get_assign]
        by_cases hk : k = dep
        · subst hk
          simp [List.replicate_succ]
        · have hk2 : ¬ dep = k := fun h => hk h.symm
          simp [hk, List.count_cons, hk2]

theorem addTask_duplicate (s : State) (name : String) (priority deadline : Int)
    (deps : List String) (h : SMap.find s.taskMap name ≠ none) :
    addTask s name priority deadline deps = (s, AddOutcome.duplicateName) := by
  unfold addTask
  cases hf : SMap.find s.taskMap name with
  | none => exact absurd hf h
  | some t => rfl

theorem addTask_new (s : State) (name : String) (priority deadline : Int)
    (deps : List String) (h : SMap.find s.taskMap name = none) :
    (addTask s name priority deadline deps).2 = AddOutcome.added (skippedDeps s.taskMap deps) ∧
    (addTask s name priority deadline deps).1.taskMap
      = SMap.assign s.taskMap name ⟨name, priority, deadline, retained s.taskMap deps⟩ ∧
    SMap.find (addTask s name priority deadline deps).1.inDegree name
      = some (SMap.get s.inDegree name 0 + ((retained s.taskMap deps).length : Int)) ∧
    (∀ k, k ≠ name → SMap.find (addTask s name priority deadline deps).1.inDegree k
      = SMap.find s.inDegree k) ∧
    (∀ k, SMap.get (addTask s name priority deadline deps).1.adjList k []
      = SMap.get s.adjList k []
          ++ List.replicate ((retained s.taskMap deps).count k) name) := by
  obtain ⟨h1, h2, h3, h4, h5⟩ :=
    addDepStep_fold s.taskMap name deps ⟨[], s.inDegree, s.adjList, []⟩
  simp only [List.nil_append] at h1 h2
  unfold addTask
  simp only [h]
  refine ⟨by rw [h2], by rw [h1], ?_, ?_, ?_⟩
  · rw [← h3]
    cases hf : SMap.find (List.foldl (addDepStep s.taskMap name)
        ⟨[], s.inDegree, s.adjList, []⟩ deps).inDegree name with
    | none =>
      simp only [SMap.find_assign_self, SMap.get, hf, Option.getD_none]
    | some v =>
      simp only [SMap.get, hf, Option.getD_some]
  · intro k hk
    cases hf : SMap.find (List.foldl (addDepStep s.taskMap name)
        ⟨[], s.inDegree, s.adjList, []⟩ deps).inDegree name with
    | none =>
      simp only [SMap.find_assign_ne _ _ _ _ hk]
      exact h4 k hk
    | some v => exact h4 k hk
  · intro k
    exact h5 k


/-! ## The traversal: frame and termination -/

theorem dfsFrame_refl (st : DfsState) : DfsFrame st st :=
  ⟨fun _ => rfl, fun _ h => h⟩

theorem dfsFrame_trans {a b c : DfsState} (h1 : DfsFrame a b) (h2 : DfsFrame b c) :
    DfsFrame a c :=
  ⟨fun k => (h2.1 k).trans (h1.1 k), fun x h => h2.2 x (h1.2 x h)⟩

theorem probeNeighbors_frame (call : String → DfsState → Option (Bool × DfsState))
    (hcall : ∀ n st b st1, call n st = some (b, st1) → DfsFrame st st1) :
    ∀ ns st b st1, probeNeighbors call ns st = some (b, st1) → DfsFrame st st1 := by
  intro ns
  induction ns with
  | nil =>
    intro st b st1 h
    simp only [probeNeighbors, Option.some.injEq, Prod.mk.injEq] at h
    rw [← h.2]
    exact dfsFrame_refl st
  | cons n ns ih =>
    intro st b st1 h
    simp only [probeNeighbors] at h
    split at h
    · split at h
      · simp only [Option.some.injEq, Prod.mk.injEq] at h
        rw [← h.2]
        exact dfsFrame_refl st
      · exact ih st b st1 h
    · cases hc : call n st with
      | none => simp [hc] at h
      | some p =>
        obtain ⟨b2, st2⟩ := p
        have hf := hcall n st b2 st2 hc
        cases b2 with
        | true =>
          simp only [hc, Option.some.injEq, Prod.mk.injEq] at h
          rw [← h.2]
          exact hf
        | false =>
          simp only [hc] at h
          split at h
          · simp only [Option.some.injEq, Prod.mk.injEq] at h
            rw [← h.2]
            exact hf
          · exact dfsFrame_trans hf (ih st2 b st1 h)

theorem hasCycle_frame :
    ∀ fuel task st b st1, hasCycle fuel task st = some (b, st1) → DfsFrame st st1 := by
  intro fuel
  induction fuel with
  | zero =>
    intro task st b st1 h
    simp [hasCycle] at h
  | succ fuel ih =>
    intro task st b st1 h
    simp only [hasCycle] at h
    split at h
    · simp only [Option.some.injEq, Prod.mk.injEq] at h
      rw [← h.2]
      exact ⟨fun _ => rfl, fun _ hx => hx⟩
    · have henter : DfsFrame st
          ⟨SMap.touch st.adjList task [], task :: st.visited, List.insert task st.recStack⟩ :=
        ⟨fun k => SMap.get_touch st.adjList task k [], fun x hx => List.mem_cons_of_mem _ hx⟩
      cases hp : probeNeighbors (hasCycle fuel) (SMap.get st.adjList task [])
          ⟨SMap.touch st.adjList task [], task :: st.visited, List.insert task st.recStack⟩ with
      | none => simp [hp] at h
      | some p =>
        obtain ⟨b2, st2⟩ := p
        have hf := probeNeighbors_frame (hasCycle fuel) ih _ _ _ _ hp
        cases b2 with
        | true =>
          simp only [hp, Option.some.injEq, Prod.mk.injEq] at h
          rw [← h.2]
          exact dfsFrame_trans henter hf
        | false =>
          simp only [hp, Option.some.injEq, Prod.mk.injEq] at h
          rw [← h.2]
          exact dfsFrame_trans henter hf

theorem cycleCheck_frame (fuel : Nat) :
    ∀ ks st b st1, cycleCheck fuel ks st = some (b, st1) → DfsFrame st st1 := by
  intro ks
  induction ks with
  | nil =>
    intro st b st1 h
    simp only [cycleCheck, Option.some.injEq, Prod.mk.injEq] at h
    rw [← h.2]
    exact dfsFrame_refl st
  | cons k ks ih =>
    intro st b st1 h
    simp only [cycleCheck] at h
    cases hc : hasCycle fuel k st with
    | none => simp [hc] at h
    | some p =>
      obtain ⟨b2, st2⟩ := p
      have hf := hasCycle_frame fuel k st b2 st2 hc
      cases b2 with
      | true =>
        simp only [hc, Option.some.injEq, Prod.mk.injEq] at h
        rw [← h.2]
        exact hf
      | false =>
        simp only [hc] at h
        exact dfsFrame_trans hf (ih st2 b st1 h)

theorem unvisited_mono (U v1 v2 : List String) (h : ∀ x, x ∈ v1 → x ∈ v2) :
    unvisited U v2 ≤ unvisited U v1 := by
  induction U with
  | nil => simp [unvisited]
  | cons a U ih =>
    simp only [unvisited, List.filter_cons] at ih ⊢
    by_cases h2 : a ∈ v2
    · simp only [h2, not_true_eq_false, decide_False, Bool.false_eq_true, if_false]
      split
      · simp only [List.length_cons]
        omega
      · exact ih
    · have h1 : a ∉ v1 := fun h3 => h2 (h a h3)
      simp only [h1, h2, not_false_eq_true, decide_True, if_true, List.length_cons]
      omega

theorem unvisited_cons_lt (U visited : List String) (task : String) (hU : task ∈ U)
    (hv : task ∉ visited) : unvisited U (task :: visited) < unvisited U visited := by
  induction U with
  | nil => simp at hU
  | cons a U ih =>
    have hmono := unvisited_mono U visited (task :: visited)
      (fun x hx => List.mem_cons_of_mem _ hx)
    unfold unvisited at ih hmono ⊢
    rw [List.filter_cons, List.filter_cons]
    by_cases ha : a = task
    · subst ha
      have e1 : decide (a ∉ a :: visited) = false := by simp
      have e2 : decide (a ∉ visited) = true := by simp [hv]
      rw [e1, e2]
      simp only [Bool.false_eq_true, if_false, if_true, List.length_cons]
      omega
    · have hU2 : task ∈ U := by
        rcases List.mem_cons.mp hU with h | h
        · exact absurd h.symm ha
        · exact h
      have := ih hU2
      by_cases h1 : a ∈ visited
      · have e1 : decide (a ∉ task :: visited) = false := by simp [h1]
        have e2 : decide (a ∉ visited) = false := by simp [h1]
        rw [e1, e2]
        simp only [Bool.false_eq_true, if_false]
        exact this
      · have e1 : decide (a ∉ task :: visited) = true := by simp [h1, ha]
        have e2 : decide (a ∉ visited) = true := by simp [h1]
        rw [e1, e2]
        simp only [if_true, List.length_cons]
        omega

/-- The loop over the neighbours returns when every recursive call does. -/
theorem probeNeighbors_ne_none (U : List String) (f : Nat)
    (call : String → DfsState → Option (Bool × DfsState))
    (hret : ∀ n st, n ∈ U → (∀ k x, x ∈ SMap.get st.adjList k [] → x ∈ U) →
      unvisited U st.visited < f → call n st ≠ none)
    (hframe : ∀ n st b st1, call n st = some (b, st1) → DfsFrame st st1) :
    ∀ ns st, (∀ n, n ∈ ns → n ∈ U) → (∀ k x, x ∈ SMap.get st.adjList k [] → x ∈ U) →
      unvisited U st.visited < f → probeNeighbors call ns st ≠ none := by
  intro ns
  induction ns with
  | nil =>
    intro st _ _ _
    simp [probeNeighbors]
  | cons n ns ih =>
    intro st hns hadj hlt
    have hns2 : ∀ m, m ∈ ns → m ∈ U := fun m hm => hns m (List.mem_cons_of_mem _ hm)
    simp only [probeNeighbors]
    split
    · split
      · simp
      · exact ih st hns2 hadj hlt
    · cases hc : call n st with
      | none => exact absurd hc (hret n st (hns n (List.mem_cons_self _ _)) hadj hlt)
      | some p =>
        obtain ⟨b2, st2⟩ := p
        have hf := hframe n st b2 st2 hc
        cases b2 with
        | true => simp
        | false =>
          simp only
          split
          · simp
          · apply ih st2 hns2
            · intro k x hx
              rw [hf.1 k] at hx
              exact hadj k x hx
            · exact lt_of_le_of_lt (unvisited_mono U st.visited st2.visited hf.2) hlt

/-- `hasCycle` returns as soon as the fuel exceeds the number of unvisited nodes. -/
theorem hasCycle_ne_none (U : List String) :
    ∀ fuel task st, task ∈ U → (∀ k x, x ∈ SMap.get st.adjList k [] → x ∈ U) →
      unvisited U st.visited < fuel → hasCycle fuel task st ≠ none := by
  intro fuel
  induction fuel with
  | zero =>
    intro task st _ _ h
    omega
  | succ fuel ih =>
    intro task st hU hadj hlt
    simp only [hasCycle]
    split
    · simp
    · rename_i hv
      have hp := probeNeighbors_ne_none U fuel (hasCycle fuel) ih (hasCycle_frame fuel)
        (SMap.get st.adjList task [])
        ⟨SMap.touch st.adjList task [], task :: st.visited, List.insert task st.recStack⟩
        (fun n hn => hadj task n hn)
        (fun k x hx => by
          simp only [SMap.get_touch] at hx
          exact hadj k x hx)
        (by
          have := unvisited_cons_lt U st.visited task hU hv
          simp only
          omega)
      cases hq : probeNeighbors (hasCycle fuel) (SMap.get st.adjList task [])
          ⟨SMap.touch st.adjList task [], task :: st.visited, List.insert task st.recStack⟩ with
      | none => exact absurd hq hp
      | some p =>
        obtain ⟨b2, st2⟩ := p
        cases b2 <;> simp

theorem cycleCheck_ne_none (U : List String) (fuel : Nat) :
    ∀ ks st, (∀ k, k ∈ ks → k ∈ U) → (∀ k x, x ∈ SMap.get st.adjList k [] → x ∈ U) →
      unvisited U st.visited < fuel → cycleCheck fuel ks st ≠ none := by
  intro ks
  induction ks with
  | nil =>
    intro st _ _ _
    simp [cycleCheck]
  | cons k ks ih =>
    intro st hks hadj hlt
    simp only [cycleCheck]
    cases hc : hasCycle fuel k st with
    | none => exact absurd hc (hasCycle_ne_none U fuel k st (hks k (List.mem_cons_self _ _)) hadj hlt)
    | some p =>
      obtain ⟨b2, st2⟩ := p
      have hf := hasCycle_frame fuel k st b2 st2 hc
      cases b2 with
      | true => simp
      | false =>
        simp only
        apply ih st2 (fun m hm => hks m (List.mem_cons_of_mem _ hm))
        · intro k2 x hx
          rw [hf.1 k2] at hx
          exact hadj k2 x hx
        · exact lt_of_le_of_lt (unvisited_mono U st.visited st2.visited hf.2) hlt

theorem mem_nodes_of_edge (s : State) (k x : String) (h : x ∈ SMap.get s.adjList k []) :
    x ∈ nodes s := by
  have key : ∀ (m : SMap (List String)), x ∈ SMap.get m k [] → x ∈ m.flatMap Prod.snd := by
    intro m
    induction m with
    | nil => simp [SMap.get, SMap.find]
    | cons e m ih =>
      obtain ⟨k1, l1⟩ := e
      intro hx
      simp only [SMap.get, SMap.find] at hx ih
      simp only [List.flatMap_cons, List.mem_append]
      split at hx
      · left
        simpa using hx
      · right
        exact ih hx
  exact List.mem_append_right _ (key s.adjList h)

/-- The cycle check of `executeTasks` always returns: its fuel suffices. -/
theorem cycleCheck_total (s : State) :
    ∃ b d, cycleCheck ((nodes s).length + 1) (SMap.keys s.taskMap) ⟨s.adjList, [], []⟩
      = some (b, d) := by
  have h := cycleCheck_ne_none (nodes s) ((nodes s).length + 1) (SMap.keys s.taskMap)
    ⟨s.adjList, [], []⟩ (fun k hk => List.mem_append_left _ hk)
    (fun k x hx => mem_nodes_of_edge s k x hx)
    (by
      have : unvisited (nodes s) [] ≤ (nodes s).length := by
        unfold unvisited
        exact List.length_filter_le _ _
      simp only
      omega)
  cases hc : cycleCheck ((nodes s).length + 1) (SMap.keys s.taskMap) ⟨s.adjList, [], []⟩ with
  | none => exact absurd hc h
  | some p => exact ⟨p.1, p.2, rfl⟩


/-! ## The traversal: a probe that returns `false` leaves no cycle behind -/

theorem Black.reach {E : String → String → Prop} {st : DfsState} (hinv : DfsInv E st)
    {u v : String} (hu : Black st u) (h : Relation.ReflTransGen E u v) : Black st v := by
  induction h with
  | refl => exact hu
  | tail _ hbc ih => exact hinv.closed _ _ ih hbc

/-- The loop over the neighbours, when it ends with `false`, keeps the invariant and the
recursion stack and leaves every neighbour finished. -/
theorem probeNeighbors_false (adj0 : SMap (List String))
    (call : String → DfsState → Option (Bool × DfsState))
    (hcall : ∀ n st st1, (∀ k, SMap.get st.adjList k [] = SMap.get adj0 k []) →
      DfsInv (Edge adj0) st → n ∉ st.recStack →
      call n st = some (false, st1) →
      DfsInv (Edge adj0) st1 ∧ (∀ x, x ∈ st1.recStack ↔ x ∈ st.recStack) ∧ n ∈ st1.visited)
    (hframe : ∀ n st b st1, call n st = some (b, st1) → DfsFrame st st1) :
    ∀ ns st st1, (∀ k, SMap.get st.adjList k [] = SMap.get adj0 k []) →
      DfsInv (Edge adj0) st →
      probeNeighbors call ns st = some (false, st1) →
      DfsInv (Edge adj0) st1 ∧ (∀ x, x ∈ st1.recStack ↔ x ∈ st.recStack) ∧
        (∀ n, n ∈ ns → Black st1 n) := by
  intro ns
  induction ns with
  | nil =>
    intro st st1 _ hinv h
    simp only [probeNeighbors, Option.some.injEq, Prod.mk.injEq, true_and] at h
    subst h
    exact ⟨hinv, fun _ => Iff.rfl, fun n hn => absurd hn (List.not_mem_nil n)⟩
  | cons n ns ih =>
    intro st st1 hread hinv h
    have hfr := probeNeighbors_frame call hframe (n :: ns) st false st1 h
    simp only [probeNeighbors] at h
    split at h
    · rename_i hv
      split at h
      · simp at h
      · rename_i hr
        obtain ⟨h1, h2, h3⟩ := ih st st1 hread hinv h
        refine ⟨h1, h2, ?_⟩
        intro m hm
        rcases List.mem_cons.mp hm with hm | hm
        · subst hm
          exact ⟨hfr.2 m hv, fun hx => hr ((h2 m).mp hx)⟩
        · exact h3 m hm
    · rename_i hv
      have hnr : n ∉ st.recStack := fun hx => hv (hinv.stack_visited n hx)
      cases hc : call n st with
      | none => simp [hc] at h
      | some p =>
        obtain ⟨b2, st2⟩ := p
        cases b2 with
        | true => simp [hc] at h
        | false =>
          simp only [hc] at h
          obtain ⟨g1, g2, g3⟩ := hcall n st st2 hread hinv hnr hc
          have hread2 : ∀ k, SMap.get st2.adjList k [] = SMap.get adj0 k [] :=
            fun k => ((hframe n st false st2 hc).1 k).trans (hread k)
          split at h
          · simp at h
          · rename_i hr
            have hfr2 := probeNeighbors_frame call hframe ns st2 false st1 h
            obtain ⟨h1, h2, h3⟩ := ih st2 st1 hread2 g1 h
            refine ⟨h1, fun x => (h2 x).trans (g2 x), ?_⟩
            intro m hm
            rcases List.mem_cons.mp hm with hm | hm
            · subst hm
              exact ⟨hfr2.2 m g3, fun hx => hr ((h2 m).mp hx)⟩
            · exact h3 m hm

/-- A call of `hasCycle` that returns `false` keeps the invariant and the recursion stack
and leaves its task visited. -/
theorem hasCycle_false (adj0 : SMap (List String)) :
    ∀ fuel task st st1, (∀ k, SMap.get st.adjList k [] = SMap.get adj0 k []) →
      DfsInv (Edge adj0) st → task ∉ st.recStack →
      hasCycle fuel task st = some (false, st1) →
      DfsInv (Edge adj0) st1 ∧ (∀ x, x ∈ st1.recStack ↔ x ∈ st.recStack) ∧
        task ∈ st1.visited := by
  intro fuel
  induction fuel with
  | zero =>
    intro task st st1 _ _ _ h
    simp [hasCycle] at h
  | succ fuel ih =>
    intro task st st1 hread hinv hnr h
    simp only [hasCycle] at h
    have hfilter : ∀ (l : List String) (x : String),
        x ∈ l.filter (fun y => decide (y ≠ task)) ↔ x ∈ l ∧ x ≠ task := by
      intro l x
      simp [List.mem_filter]
    split at h
    · rename_i hv
      simp only [Option.some.injEq, Prod.mk.injEq, true_and] at h
      subst h
      have hrs : ∀ x, x ∈ st.recStack.filter (fun y => decide (y ≠ task)) ↔ x ∈ st.recStack := by
        intro x
        rw [hfilter]
        exact ⟨fun hx => hx.1, fun hx => ⟨hx, fun he => hnr (he ▸ hx)⟩⟩
      have hb : ∀ x, Black { st with recStack := st.recStack.filter (fun y => decide (y ≠ task)) } x
          ↔ Black st x := by
        intro x
        simp only [Black, hrs]
      refine ⟨⟨?_, ?_, ?_⟩, hrs, hv⟩
      · intro x hx
        exact hinv.stack_visited x ((hrs x).mp hx)
      · intro u v hu he
        exact (hb v).mpr (hinv.closed u v ((hb u).mp hu) he)
      · intro u hu
        exact hinv.acyclic u ((hb u).mp hu)
    · rename_i hv
      cases hp : probeNeighbors (hasCycle fuel) (SMap.get st.adjList task [])
          ⟨SMap.touch st.adjList task [], task :: st.visited, List.insert task st.recStack⟩ with
      | none => simp [hp] at h
      | some p =>
        obtain ⟨b2, st2⟩ := p
        cases b2 with
        | true => simp [hp] at h
        | false =>
          simp only [hp, Option.some.injEq, Prod.mk.injEq, true_and] at h
          subst h
          -- the state on entering the loop
          have hb1 : ∀ x, Black ⟨SMap.touch st.adjList task [], task :: st.visited,
              List.insert task st.recStack⟩ x ↔ Black st x := by
            intro x
            simp only [Black, List.mem_cons, List.mem_insert_iff]
            constructor
            · rintro ⟨h1, h2⟩
              push_neg at h2
              rcases h1 with h1 | h1
              · exact absurd h1 h2.1
              · exact ⟨h1, h2.2⟩
            · rintro ⟨h1, h2⟩
              refine ⟨Or.inr h1, ?_⟩
              rintro (h3 | h3)
              · exact hv (h3 ▸ h1)
              · exact h2 h3
          have hinv1 : DfsInv (Edge adj0) ⟨SMap.touch st.adjList task [], task :: st.visited,
              List.insert task st.recStack⟩ := by
            refine ⟨?_, ?_, ?_⟩
            · intro x hx
              simp only [List.mem_insert_iff] at hx
              rcases hx with hx | hx
              · exact hx ▸ List.mem_cons_self _ _
              · exact List.mem_cons_of_mem _ (hinv.stack_visited x hx)
            · intro u v hu he
              exact (hb1 v).mpr (hinv.closed u v ((hb1 u).mp hu) he)
            · intro u hu
              exact hinv.acyclic u ((hb1 u).mp hu)
          have hfr := probeNeighbors_frame (hasCycle fuel) (hasCycle_frame fuel) _ _ _ _ hp
          have hread1 : ∀ k, SMap.get (SMap.touch st.adjList task []) k [] = SMap.get adj0 k [] :=
            fun k => (SMap.get_touch st.adjList task k []).trans (hread k)
          obtain ⟨g1, g2, g3⟩ := probeNeighbors_false adj0 (hasCycle fuel) ih
            (hasCycle_frame fuel) _ _ _ hread1 hinv1 hp
          simp only at g2 hfr
          have htv : task ∈ st2.visited := hfr.2 task (List.mem_cons_self _ _)
          have hts : task ∈ st2.recStack := (g2 task).mpr (List.mem_insert_self _ _)
          have hrs : ∀ x, x ∈ st2.recStack.filter (fun y => decide (y ≠ task))
              ↔ x ∈ st.recStack := by
            intro x
            rw [hfilter, g2, List.mem_insert_iff]
            constructor
            · rintro ⟨h1 | h1, h2⟩
              · exact absurd h1 h2
              · exact h1
            · intro h1
              exact ⟨Or.inr h1, fun he => hnr (he ▸ h1)⟩
          have hb2 : ∀ x, Black { st2 with
              recStack := st2.recStack.filter (fun y => decide (y ≠ task)) } x
              ↔ Black st2 x ∨ x = task := by
            intro x
            simp only [Black, hfilter]
            constructor
            · rintro ⟨h1, h2⟩
              by_cases hx : x = task
              · exact Or.inr hx
              · exact Or.inl ⟨h1, fun h3 => h2 ⟨h3, hx⟩⟩
            · rintro (⟨h1, h2⟩ | h1)
              · exact ⟨h1, fun h3 => h2 h3.1⟩
              · subst h1
                exact ⟨htv, fun h3 => h3.2 rfl⟩
          refine ⟨⟨?_, ?_, ?_⟩, hrs, htv⟩
          · intro x hx
            exact g1.stack_visited x ((hfilter _ x).mp hx).1
          · intro u v hu he
            rw [hb2] at hu ⊢
            rcases hu with hu | hu
            · exact Or.inl (g1.closed u v hu he)
            · subst hu
              left
              apply g3
              rw [hread u]
              exact he
          · intro u hu hcyc
            rw [hb2] at hu
            rcases hu with hu | hu
            · exact g1.acyclic u hu hcyc
            · subst hu
              obtain ⟨v, hv1, hv2⟩ := Relation.TransGen.head'_iff.mp hcyc
              have hbv : Black st2 v := by
                apply g3
                rw [hread u]
                exact hv1
              exact (Black.reach g1 hbv hv2).2 hts

/-- The first loop of `executeTasks`, when it ends with `false`, leaves every probed key
finished. -/
theorem cycleCheck_false (adj0 : SMap (List String)) (fuel : Nat) :
    ∀ ks st st1, (∀ k, SMap.get st.adjList k [] = SMap.get adj0 k []) →
      DfsInv (Edge adj0) st → (∀ x, x ∉ st.recStack) →
      cycleCheck fuel ks st = some (false, st1) →
      DfsInv (Edge adj0) st1 ∧ (∀ x, x ∉ st1.recStack) ∧ (∀ k, k ∈ ks → k ∈ st1.visited) := by
  intro ks
  induction ks with
  | nil =>
    intro st st1 _ hinv hemp h
    simp only [cycleCheck, Option.some.injEq, Prod.mk.injEq, true_and] at h
    subst h
    exact ⟨hinv, hemp, fun k hk => absurd hk (List.not_mem_nil k)⟩
  | cons k ks ih =>
    intro st st1 hread hinv hemp h
    simp only [cycleCheck] at h
    cases hc : hasCycle fuel k st with
    | none => simp [hc] at h
    | some p =>
      obtain ⟨b2, st2⟩ := p
      cases b2 with
      | true => simp [hc] at h
      | false =>
        simp only [hc] at h
        obtain ⟨g1, g2, g3⟩ := hasCycle_false adj0 fuel k st st2 hread hinv (hemp k) hc
        have hfr := hasCycle_frame fuel k st false st2 hc
        have hfr2 := cycleCheck_frame fuel ks st2 false st1 h
        obtain ⟨h1, h2, h3⟩ := ih st2 st1 (fun j => (hfr.1 j).trans (hread j)) g1
          (fun x hx => hemp x ((g2 x).mp hx)) h
        refine ⟨h1, h2, ?_⟩
        intro m hm
        rcases List.mem_cons.mp hm with hm | hm
        · subst hm
          exact hfr2.2 m g3
        · exact h3 m hm

/-- A passed cycle check proves that no registered task lies on a cycle of `adjList`. -/
theorem cycleCheck_false_acyclic (s : State) (fuel : Nat) (d : DfsState)
    (h : cycleCheck fuel (SMap.keys s.taskMap) ⟨s.adjList, [], []⟩ = some (false, d))
    (c : String) (hc : c ∈ SMap.keys s.taskMap) :
    ¬ Relation.TransGen (Edge s.adjList) c c := by
  have hinv0 : DfsInv (Edge s.adjList) ⟨s.adjList, [], []⟩ :=
    ⟨fun x hx => absurd hx (List.not_mem_nil x),
     fun u v hu _ => absurd hu.1 (List.not_mem_nil u),
     fun u hu => absurd hu.1 (List.not_mem_nil u)⟩
  obtain ⟨h1, h2, h3⟩ := cycleCheck_false s.adjList fuel (SMap.keys s.taskMap)
    ⟨s.adjList, [], []⟩ d (fun _ => rfl) hinv0 (fun x hx => absurd hx (List.not_mem_nil x)) h
  exact h1.acyclic c ⟨h3 c hc, h2 c⟩


/-! ## The queue -/

theorem Compare_iff (a b : Task) : Compare a b = true ↔ ¬ Before a b := by
  unfold Compare Before
  by_cases h : a.deadline = b.deadline
  · simp only [h, if_true, decide_eq_true_eq, lt_self_iff_false, true_and, false_or, not_le]
  · simp only [h, if_false, decide_eq_true_eq, false_and, or_false, not_lt, gt_iff_lt]
    constructor
    · intro h1
      exact le_of_lt h1
    · intro h1
      exact lt_of_le_of_ne h1 (fun h2 => h h2.symm)

theorem before_refl (a : Task) : Before a a := Or.inr ⟨rfl, le_refl _⟩

theorem before_trans {a b c : Task} (h1 : Before a b) (h2 : Before b c) : Before a c := by
  unfold Before at *
  omega

theorem before_total (a b : Task) : Before a b ∨ Before b a := by
  unfold Before
  omega

theorem foldl_best (ts : List Task) :
    ∀ t, (ts.foldl (fun best x => if Compare best x then x else best) t) ∈ t :: ts ∧
      ∀ x, x ∈ t :: ts → Before (ts.foldl (fun best x => if Compare best x then x else best) t) x := by
  induction ts with
  | nil =>
    intro t
    simp only [List.foldl_nil, List.mem_singleton, true_and]
    intro x hx
    rw [hx]
    exact before_refl t
  | cons y ts ih =>
    intro t
    simp only [List.foldl_cons]
    by_cases hc : Compare t y = true
    · simp only [hc, if_true]
      obtain ⟨h1, h2⟩ := ih y
      refine ⟨List.mem_cons_of_mem _ h1, ?_⟩
      intro x hx
      rcases List.mem_cons.mp hx with hx | hx
      · subst hx
        have hyt : Before y x := by
          rcases before_total y x with h | h
          · exact h
          · exact absurd h ((Compare_iff x y).mp hc)
        exact before_trans (h2 y (List.mem_cons_self _ _)) hyt
      · exact h2 x hx
    · simp only [hc, Bool.false_eq_true, if_false]
      obtain ⟨h1, h2⟩ := ih t
      refine ⟨?_, ?_⟩
      · rcases List.mem_cons.mp h1 with h | h
        · rw [h]
          exact List.mem_cons_self _ _
        · exact List.mem_cons_of_mem _ (List.mem_cons_of_mem _ h)
      · intro x hx
        rcases List.mem_cons.mp hx with hx | hx
        · exact hx ▸ h2 t (List.mem_cons_self _ _)
        · rcases List.mem_cons.mp hx with hx | hx
          · subst hx
            have hty : Before t x := by
              by_contra hn
              exact hc ((Compare_iff t x).mpr hn)
            exact before_trans (h2 t (List.mem_cons_self _ _)) hty
          · exact h2 x (List.mem_cons_of_mem _ hx)

theorem heapTop_mem {heap : List Task} {cur : Task} (h : heapTop heap = some cur) :
    cur ∈ heap := by
  cases heap with
  | nil => simp [heapTop] at h
  | cons t ts =>
    simp only [heapTop, Option.some.injEq] at h
    rw [← h]
    exact (foldl_best ts t).1

theorem heapTop_before {heap : List Task} {cur : Task} (h : heapTop heap = some cur) :
    ∀ x, x ∈ heap → Before cur x := by
  cases heap with
  | nil => simp [heapTop] at h
  | cons t ts =>
    simp only [heapTop, Option.some.injEq] at h
    rw [← h]
    exact (foldl_best ts t).2

theorem heapTop_eq_none {heap : List Task} (h : heapTop heap = none) : heap = [] := by
  cases heap with
  | nil => rfl
  | cons t ts => simp [heapTop] at h

/-! ## The scheduling loop: termination -/

theorem positives_cons (k : String) (v : Int) (m : SMap Int) :
    positives ((k, v) :: m) = (if 0 < v then 1 else 0) + positives m := by
  simp only [positives, List.filter_cons, decide_eq_true_eq]
  by_cases h : 0 < v
  · simp only [h, if_true, List.length_cons]
    omega
  · simp only [h, if_false]
    omega

theorem positives_insertNew (m : SMap Int) (k : String) (v : Int) :
    positives (SMap.insertNew m k v) = positives m + (if 0 < v then 1 else 0) := by
  induction m with
  | nil =>
    simp only [SMap.insertNew, positives_cons]
    simp [positives]
  | cons e m ih =>
    obtain ⟨k1, v1⟩ := e
    simp only [SMap.insertNew]
    split
    · simp only [positives_cons]
      omega
    · simp only [positives_cons, ih]
      omega

theorem positives_replace (m : SMap Int) (k : String) (v : Int) (h : SMap.find m k ≠ none) :
    positives (SMap.replace m k v) + (if 0 < SMap.get m k 0 then 1 else 0)
      = positives m + (if 0 < v then 1 else 0) := by
  induction m with
  | nil => simp [SMap.find] at h
  | cons e m ih =>
    obtain ⟨k1, v1⟩ := e
    simp only [SMap.replace]
    by_cases hk1 : k1 = k
    · simp only [hk1, if_true, positives_cons, SMap.get, SMap.find, Option.getD_some]
      omega
    · simp only [SMap.find, hk1, if_false] at h
      have hg : SMap.get ((k1, v1) :: m) k 0 = SMap.get m k 0 := by
        simp [SMap.get, SMap.find, hk1]
      simp only [hk1, if_false, positives_cons, hg]
      have := ih h
      omega

theorem positives_assign (m : SMap Int) (k : String) (v : Int) :
    positives (SMap.assign m k v) + (if 0 < SMap.get m k 0 then 1 else 0)
      = positives m + (if 0 < v then 1 else 0) := by
  unfold SMap.assign
  cases h : SMap.find m k with
  | none =>
    simp only [positives_insertNew, SMap.get, h, Option.getD_none, lt_self_iff_false, if_false]
    omega
  | some x =>
    have := positives_replace m k v (by rw [h]; exact Option.some_ne_none x)
    simpa using this


theorem relaxStep_fuel (st : KahnState) (d : String) :
    kahnFuel (relaxStep st d).inDegree (relaxStep st d).minHeap
      = kahnFuel st.inDegree st.minHeap := by
  have hp := positives_assign st.inDegree d (SMap.get st.inDegree d 0 - 1)
  have hg : SMap.get (decr st.inDegree d) d 0 = SMap.get st.inDegree d 0 - 1 := by
    simp [decr, SMap.get_assign]
  unfold relaxStep
  simp only [hg]
  by_cases h0 : SMap.get st.inDegree d 0 - 1 = 0
  · simp only [h0, if_true, kahnFuel, decr, List.length_append, List.length_singleton]
    have h1 : SMap.get st.inDegree d 0 = 1 := by omega
    simp only [h1, zero_lt_one, if_true, sub_self, lt_self_iff_false, if_false] at hp
    omega
  · simp only [h0, if_false, kahnFuel, decr]
    by_cases h1 : 0 < SMap.get st.inDegree d 0
    · have h2 : 0 < SMap.get st.inDegree d 0 - 1 := by omega
      simp only [h1, h2, if_true] at hp
      omega
    · have h2 : ¬ 0 < SMap.get st.inDegree d 0 - 1 := by omega
      simp only [h1, h2, if_false] at hp
      omega

theorem relaxStep_foldl_fuel (ds : List String) :
    ∀ st : KahnState, kahnFuel (ds.foldl relaxStep st).inDegree (ds.foldl relaxStep st).minHeap
      = kahnFuel st.inDegree st.minHeap := by
  induction ds with
  | nil => intro st; rfl
  | cons d ds ih =>
    intro st
    simp only [List.foldl_cons]
    rw [ih, relaxStep_fuel]

theorem kahnStep_fuel (st : KahnState) (cur : Task) (h : heapTop st.minHeap = some cur) :
    kahnFuel (kahnStep st cur).inDegree (kahnStep st cur).minHeap + 1
      = kahnFuel st.inDegree st.minHeap := by
  unfold kahnStep
  rw [relaxStep_foldl_fuel]
  simp only [kahnFuel]
  have hm := heapTop_mem h
  have hl := List.length_erase_of_mem hm
  have hpos : 0 < st.minHeap.length := List.length_pos_of_mem hm
  omega

/-- The scheduling loop ends within the fuel `executeTasks` gives it. -/
theorem kahnLoop_total :
    ∀ fuel st, kahnFuel st.inDegree st.minHeap ≤ fuel → ∃ st1, kahnLoop fuel st = some st1 := by
  intro fuel
  induction fuel with
  | zero =>
    intro st h
    simp only [kahnLoop]
    cases ht : heapTop st.minHeap with
    | none => exact ⟨st, rfl⟩
    | some cur =>
      have := kahnStep_fuel st cur ht
      omega
  | succ fuel ih =>
    intro st h
    simp only [kahnLoop]
    cases ht : heapTop st.minHeap with
    | none => exact ⟨st, rfl⟩
    | some cur =>
      have := kahnStep_fuel st cur ht
      exact ih (kahnStep st cur) (by omega)

/-- An invariant of the rounds of the scheduling loop holds when the loop ends. -/
theorem kahnLoop_inv (P : KahnState → Prop)
    (hstep : ∀ st cur, P st → heapTop st.minHeap = some cur → P (kahnStep st cur)) :
    ∀ fuel st st1, P st → kahnLoop fuel st = some st1 → P st1 := by
  intro fuel
  induction fuel with
  | zero =>
    intro st st1 hP h
    simp only [kahnLoop] at h
    cases ht : heapTop st.minHeap with
    | none =>
      simp only [ht, Option.some.injEq] at h
      exact h ▸ hP
    | some cur => simp [ht] at h
  | succ fuel ih =>
    intro st st1 hP h
    simp only [kahnLoop] at h
    cases ht : heapTop st.minHeap with
    | none =>
      simp only [ht, Option.some.injEq] at h
      exact h ▸ hP
    | some cur =>
      simp only [ht] at h
      exact ih _ _ (hstep st cur hP ht) h

/-- `executeTasks` returns on every state. -/
theorem executeTasks_total (s : State) : ∃ r, executeTasks s = some r := by
  obtain ⟨b, d, hc⟩ := cycleCheck_total s
  unfold executeTasks
  rw [hc]
  cases b with
  | true => exact ⟨_, rfl⟩
  | false =>
    simp only
    split
    · exact ⟨_, rfl⟩
    · obtain ⟨k, hk⟩ := kahnLoop_total
        (kahnFuel (s.taskMap.foldl seedStep (s.inDegree, [])).1
          (s.taskMap.foldl seedStep (s.inDegree, [])).2)
        ⟨s.taskMap, (s.taskMap.foldl seedStep (s.inDegree, [])).1, d.adjList,
          (s.taskMap.foldl seedStep (s.inDegree, [])).2, []⟩ (le_refl _)
      rw [hk]
      exact ⟨_, rfl⟩


/-! ## What `executeTasks` keeps -/

theorem relaxStep_frame (tm0 : SMap Task) (adj0 : SMap (List String)) (st : KahnState)
    (d : String) (hd : d ∈ SMap.keys tm0) (h : KahnFrame tm0 adj0 st) :
    KahnFrame tm0 adj0 (relaxStep st d) := by
  obtain ⟨h1, h2, h3⟩ := h
  have hfind : SMap.find st.taskMap d ≠ none := by
    rw [h1]
    exact (SMap.mem_keys_iff tm0 d).mp hd
  have htouch : SMap.touch st.taskMap d Task.blank = st.taskMap := by
    cases hf : SMap.find st.taskMap d with
    | none => exact absurd hf hfind
    | some t => exact SMap.touch_of_find _ _ _ _ hf
  have hkeys : ∀ k, SMap.find (decr st.inDegree d) k ≠ none → k ∈ SMap.keys tm0 := by
    intro k hk
    simp only [decr, SMap.find_assign] at hk
    by_cases hkd : k = d
    · exact hkd ▸ hd
    · simp only [hkd, if_false] at hk
      exact h3 k hk
  unfold relaxStep
  simp only
  split
  · exact ⟨by rw [htouch]; exact h1, h2, hkeys⟩
  · exact ⟨h1, h2, hkeys⟩

theorem relaxStep_foldl_frame (tm0 : SMap Task) (adj0 : SMap (List String)) (ds : List String) :
    ∀ st, (∀ d, d ∈ ds → d ∈ SMap.keys tm0) → KahnFrame tm0 adj0 st →
      KahnFrame tm0 adj0 (ds.foldl relaxStep st) := by
  induction ds with
  | nil => intro st _ h; exact h
  | cons d ds ih =>
    intro st hds h
    simp only [List.foldl_cons]
    exact ih _ (fun x hx => hds x (List.mem_cons_of_mem _ hx))
      (relaxStep_frame tm0 adj0 st d (hds d (List.mem_cons_self _ _)) h)

theorem kahnStep_frame (tm0 : SMap Task) (adj0 : SMap (List String))
    (hreg : ∀ k x, x ∈ SMap.get adj0 k [] → x ∈ SMap.keys tm0)
    (st : KahnState) (cur : Task) (h : KahnFrame tm0 adj0 st) :
    KahnFrame tm0 adj0 (kahnStep st cur) := by
  unfold kahnStep
  apply relaxStep_foldl_frame
  · intro d hd
    rw [h.2.1] at hd
    exact hreg _ _ hd
  · exact ⟨h.1, fun k => (SMap.get_touch _ _ _ _).trans (h.2.1 k), h.2.2⟩

theorem seedStep_foldl_keys (entries : List (String × Task)) :
    ∀ (acc : SMap Int × List Task) (k : String),
      SMap.find (entries.foldl seedStep acc).1 k ≠ none →
      SMap.find acc.1 k ≠ none ∨ k ∈ SMap.keys entries := by
  induction entries with
  | nil => intro acc k h; exact Or.inl h
  | cons e entries ih =>
    intro acc k h
    simp only [List.foldl_cons] at h
    rcases ih _ k h with h1 | h1
    · have h2 : SMap.find (SMap.touch acc.1 e.1 0) k ≠ none := by
        unfold seedStep at h1
        simp only at h1
        split at h1 <;> exact h1
      rw [SMap.find_touch] at h2
      by_cases hk : k = e.1
      · right
        rw [hk]
        simp [SMap.keys]
      · simp only [hk, if_false] at h2
        exact Or.inl h2
    · right
      simp only [SMap.keys, List.map_cons, List.mem_cons]
      exact Or.inr h1

/-- On a state whose graph indices mention registered tasks only, `executeTasks` leaves
the registry as it is, leaves every list read from `adjList` as it is, and gives counts to
registered tasks only. -/
theorem executeTasks_frame (s : State) (hs : Registered s) (r : ExecResult)
    (h : executeTasks s = some r) :
    r.state.taskMap = s.taskMap ∧
    (∀ k, SMap.get r.state.adjList k [] = SMap.get s.adjList k []) ∧
    (∀ k, SMap.find r.state.inDegree k ≠ none → k ∈ SMap.keys s.taskMap) := by
  unfold executeTasks at h
  cases hc : cycleCheck ((nodes s).length + 1) (SMap.keys s.taskMap) ⟨s.adjList, [], []⟩ with
  | none => simp [hc] at h
  | some p =>
    obtain ⟨b, d⟩ := p
    have hfr := cycleCheck_frame _ _ _ _ _ hc
    have hseed : ∀ k, SMap.find (s.taskMap.foldl seedStep (s.inDegree, [])).1 k ≠ none →
        k ∈ SMap.keys s.taskMap := by
      intro k hk
      rcases seedStep_foldl_keys s.taskMap (s.inDegree, []) k hk with h1 | h1
      · exact hs.counts k h1
      · exact h1
    cases b with
    | true =>
      simp only [hc, Option.some.injEq] at h
      subst h
      exact ⟨rfl, hfr.1, hs.counts⟩
    | false =>
      simp only [hc] at h
      split at h
      · simp only [Option.some.injEq] at h
        subst h
        exact ⟨rfl, hfr.1, hseed⟩
      · cases hk : kahnLoop
            (kahnFuel (s.taskMap.foldl seedStep (s.inDegree, [])).1
              (s.taskMap.foldl seedStep (s.inDegree, [])).2)
            ⟨s.taskMap, (s.taskMap.foldl seedStep (s.inDegree, [])).1, d.adjList,
              (s.taskMap.foldl seedStep (s.inDegree, [])).2, []⟩ with
        | none => simp [hk] at h
        | some k1 =>
          simp only [hk, Option.some.injEq] at h
          subst h
          have hP := kahnLoop_inv (KahnFrame s.taskMap s.adjList)
            (fun st cur hst _ => kahnStep_frame s.taskMap s.adjList hs.dependents st cur hst)
            _ _ _ ⟨rfl, hfr.1, hseed⟩ hk
          exact hP

/-! ## The reachable states -/

theorem loadDepStep_foldl (name : String) (deps : List String) :
    ∀ acc : SMap Int × SMap (List String),
      (∀ k, SMap.find (deps.foldl (loadDepStep name) acc).1 k ≠ none →
        k = name ∨ SMap.find acc.1 k ≠ none) ∧
      (∀ k x, x ∈ SMap.get (deps.foldl (loadDepStep name) acc).2 k [] →
        x = name ∨ x ∈ SMap.get acc.2 k []) := by
  induction deps with
  | nil => intro acc; exact ⟨fun k h => Or.inr h, fun k x h => Or.inr h⟩
  | cons dep deps ih =>
    intro acc
    simp only [List.foldl_cons]
    obtain ⟨h1, h2⟩ := ih (loadDepStep name acc dep)
    constructor
    · intro k hk
      rcases h1 k hk with h | h
      · exact Or.inl h
      · simp only [loadDepStep, incr, SMap.find_assign] at h
        by_cases hkn : k = name
        · exact Or.inl hkn
        · simp only [hkn, if_false] at h
          exact Or.inr h
    · intro k x hx
      rcases h2 k x hx with h | h
      · exact Or.inl h
      · simp only [loadDepStep, pushBack, SMap.get_assign] at h
        split at h
        · rename_i hkd
          subst hkd
          rcases List.mem_append.mp h with h | h
          · exact Or.inr h
          · exact Or.inl (List.mem_singleton.mp h)
        · exact Or.inr h

theorem loadRecord_registered (s : State) (t : Task) (hs : Registered s) :
    Registered (loadRecord s t) := by
  have hkeys : ∀ k, k ∈ SMap.keys s.taskMap →
      k ∈ SMap.keys (SMap.assign s.taskMap t.name t) :=
    fun k hk => (SMap.mem_keys_assign _ _ _ _).mpr (Or.inr hk)
  have hname : t.name ∈ SMap.keys (SMap.assign s.taskMap t.name t) :=
    (SMap.mem_keys_assign _ _ _ _).mpr (Or.inl rfl)
  obtain ⟨h1, h2⟩ := loadDepStep_foldl t.name t.dependencies
    (if t.dependencies.isEmpty then SMap.assign s.inDegree t.name 0 else s.inDegree, s.adjList)
  unfold loadRecord
  refine ⟨?_, ?_⟩
  · intro k x hx
    rcases h2 k x hx with h | h
    · exact h ▸ hname
    · exact hkeys x (hs.dependents k x h)
  · intro k hk
    rcases h1 k hk with h | h
    · exact h ▸ hname
    · simp only at h
      split at h
      · rw [SMap.find_assign] at h
        by_cases hkn : k = t.name
        · exact hkn ▸ hname
        · simp only [hkn, if_false] at h
          exact hkeys k (hs.counts k h)
      · exact hkeys k (hs.counts k h)

theorem loadRecord_foldl_registered (records : List Task) :
    ∀ s, Registered s → Registered (records.foldl loadRecord s) := by
  induction records with
  | nil => intro s h; exact h
  | cons t records ih =>
    intro s h
    exact ih _ (loadRecord_registered s t h)

theorem registered_empty : Registered State.empty :=
  ⟨fun k x h => by simp [State.empty, SMap.get, SMap.find] at h,
   fun k h => by simp [State.empty, SMap.find] at h⟩

theorem addTask_registered (s : State) (name : String) (priority deadline : Int)
    (deps : List String) (hs : Registered s) :
    Registered (addTask s name priority deadline deps).1 := by
  cases hf : SMap.find s.taskMap name with
  | some t =>
    rw [addTask_duplicate s name priority deadline deps (by rw [hf]; exact Option.some_ne_none t)]
    exact hs
  | none =>
    obtain ⟨_, h2, h3, h4, h5⟩ := addTask_new s name priority deadline deps hf
    refine ⟨?_, ?_⟩
    · intro k x hx
      rw [h5 k] at hx
      rw [h2, SMap.mem_keys_assign]
      rcases List.mem_append.mp hx with h | h
      · exact Or.inr (hs.dependents k x h)
      · exact Or.inl (List.eq_of_mem_replicate h)
    · intro k hk
      rw [h2, SMap.mem_keys_assign]
      by_cases hkn : k = name
      · exact Or.inl hkn
      · rw [h4 k hkn] at hk
        exact Or.inr (hs.counts k hk)

/-- In every reachable state the graph indices mention registered tasks only. -/
theorem reachable_registered (s : State) (h : Reachable s) : Registered s := by
  induction h with
  | start => exact registered_empty
  | add name priority deadline deps _ ih => exact addTask_registered _ name priority deadline deps ih
  | load jArray _ ih =>
    cases jArray with
    | none => exact ih
    | some records => exact loadRecord_foldl_registered records State.empty registered_empty
  | exec _ he ih =>
    obtain ⟨h1, h2, h3⟩ := executeTasks_frame _ ih _ he
    refine ⟨?_, ?_⟩
    · intro k x hx
      rw [h2 k] at hx
      rw [h1]
      exact ih.dependents k x hx
    · intro k hk
      rw [h1]
      exact h3 k hk


/-! ## Registries built by `addTask` -/

theorem SMap.find_some_mem {V : Type} (m : SMap V) (k : String) (v : V)
    (h : SMap.find m k = some v) : (k, v) ∈ m := by
  induction m with
  | nil => simp [SMap.find] at h
  | cons e m ih =>
    obtain ⟨k1, v1⟩ := e
    simp only [SMap.find] at h
    split at h
    · rename_i hk
      simp only [Option.some.injEq] at h
      rw [hk, h]
      exact List.mem_cons_self _ _
    · exact List.mem_cons_of_mem _ (ih h)

theorem addInv_empty : AddInv State.empty :=
  ⟨fun k x h => by simp [State.empty, SMap.get, SMap.find] at h,
   fun k => by simp [State.empty, SMap.get, SMap.find]⟩

theorem addTask_addInv (s : State) (name : String) (priority deadline : Int)
    (deps : List String) (hs : AddInv s) :
    AddInv (addTask s name priority deadline deps).1 := by
  cases hf : SMap.find s.taskMap name with
  | some t =>
    rw [addTask_duplicate s name priority deadline deps (by rw [hf]; exact Option.some_ne_none t)]
    exact hs
  | none =>
    obtain ⟨_, h2, h3, h4, h5⟩ := addTask_new s name priority deadline deps hf
    have hc0 : SMap.get s.inDegree name 0 = 0 := by
      have := hs.counts name
      rw [hf] at this
      exact this
    refine ⟨?_, ?_⟩
    · intro k x hx
      rw [h5 k] at hx
      rw [h2]
      rcases List.mem_append.mp hx with h | h
      · obtain ⟨t, ht1, ht2⟩ := hs.dependents k x h
        have hxn : x ≠ name := by
          intro he
          rw [he, hf] at ht1
          exact Option.noConfusion ht1
        exact ⟨t, by rw [SMap.find_assign_ne _ _ _ _ hxn]; exact ht1, ht2⟩
      · obtain ⟨hn, hxe⟩ := List.mem_replicate.mp h
        refine ⟨⟨name, priority, deadline, retained s.taskMap deps⟩, ?_, ?_⟩
        · rw [hxe, SMap.find_assign_self]
        · exact List.count_pos_iff.mp (Nat.pos_of_ne_zero hn)
    · intro k
      rw [h2]
      by_cases hkn : k = name
      · subst hkn
        rw [SMap.find_assign_self]
        simp only [SMap.get, h3, Option.getD_some]
        have : SMap.get s.inDegree k 0 = 0 := hc0
        simp only [SMap.get] at this
        rw [this]
        simp
      · rw [SMap.find_assign_ne _ _ _ _ hkn]
        have := hs.counts k
        simp only [SMap.get, h4 k hkn] at this ⊢
        exact this

theorem addAll_addInv (reqs : List AddRequest) : AddInv (addAll reqs) := by
  have key : ∀ (qs : List AddRequest) (s : State), AddInv s →
      AddInv (qs.foldl (fun s q => (addTask s q.name q.priority q.deadline q.deps).1) s) := by
    intro qs
    induction qs with
    | nil => intro s h; exact h
    | cons q qs ih =>
      intro s h
      exact ih _ (addTask_addInv s q.name q.priority q.deadline q.deps h)
  exact key reqs State.empty addInv_empty

/-! ## Scheduling a graph without edges -/

theorem hasCycle_noEdge (fuel : Nat) (task : String) (st : DfsState) (b : Bool)
    (st1 : DfsState) (hne : ∀ k, SMap.get st.adjList k [] = [])
    (h : hasCycle fuel task st = some (b, st1)) : b = false := by
  cases fuel with
  | zero => simp [hasCycle] at h
  | succ fuel =>
    simp only [hasCycle, hne task, probeNeighbors] at h
    split at h
    · simp only [Option.some.injEq, Prod.mk.injEq] at h
      exact h.1.symm
    · simp only [Option.some.injEq, Prod.mk.injEq] at h
      exact h.1.symm

theorem cycleCheck_noEdge (fuel : Nat) :
    ∀ ks st b st1, (∀ k, SMap.get st.adjList k [] = []) →
      cycleCheck fuel ks st = some (b, st1) → b = false := by
  intro ks
  induction ks with
  | nil =>
    intro st b st1 _ h
    simp only [cycleCheck, Option.some.injEq, Prod.mk.injEq] at h
    exact h.1.symm
  | cons k ks ih =>
    intro st b st1 hne h
    simp only [cycleCheck] at h
    cases hc : hasCycle fuel k st with
    | none => simp [hc] at h
    | some p =>
      obtain ⟨b2, st2⟩ := p
      have hb := hasCycle_noEdge fuel k st b2 st2 hne hc
      subst hb
      have hfr := hasCycle_frame fuel k st false st2 hc
      simp only [hc] at h
      exact ih st2 b st1 (fun j => (hfr.1 j).trans (hne j)) h

theorem seedStep_foldl_zero (entries : List (String × Task)) :
    ∀ acc : SMap Int × List Task, (∀ e, e ∈ entries → SMap.get acc.1 e.1 0 = 0) →
      (entries.foldl seedStep acc).2 = acc.2 ++ entries.map Prod.snd := by
  induction entries with
  | nil => intro acc _; simp
  | cons e entries ih =>
    intro acc h
    have he : seedStep acc e = (SMap.touch acc.1 e.1 0, acc.2 ++ [e.2]) := by
      simp [seedStep, h e (List.mem_cons_self _ _)]
    simp only [List.foldl_cons, he]
    rw [ih]
    · simp
    · intro e2 he2
      simp only [SMap.get_touch]
      exact h e2 (List.mem_cons_of_mem _ he2)

theorem kahnStep_noEdge (st : KahnState) (cur : Task)
    (hne : ∀ k, SMap.get st.adjList k [] = []) :
    kahnStep st cur =
      { st with
        minHeap := st.minHeap.erase cur
        emitted := st.emitted ++ [cur]
        adjList := SMap.touch st.adjList cur.name [] } := by
  simp [kahnStep, hne cur.name]

/-- Without edges the scheduling loop emits the queued tasks, best first. -/
theorem kahnLoop_noEdge :
    ∀ fuel st, (∀ k, SMap.get st.adjList k [] = []) → st.minHeap.length ≤ fuel →
      ∃ st1 out, kahnLoop fuel st = some st1 ∧ st1.emitted = st.emitted ++ out ∧
        out.Perm st.minHeap ∧ out.Pairwise Before := by
  intro fuel
  induction fuel with
  | zero =>
    intro st _ hlen
    have hnil : st.minHeap = [] := List.length_eq_zero.mp (Nat.le_zero.mp hlen)
    refine ⟨st, [], ?_, by simp, by rw [hnil], List.Pairwise.nil⟩
    simp [kahnLoop, hnil, heapTop]
  | succ fuel ih =>
    intro st hne hlen
    cases ht : heapTop st.minHeap with
    | none =>
      have hnil := heapTop_eq_none ht
      refine ⟨st, [], ?_, by simp, by rw [hnil], List.Pairwise.nil⟩
      simp [kahnLoop, ht]
    | some cur =>
      have hm := heapTop_mem ht
      have hl := List.length_erase_of_mem hm
      have hpos : 0 < st.minHeap.length := List.length_pos_of_mem hm
      obtain ⟨st1, out, h1, h2, h3, h4⟩ := ih (kahnStep st cur)
        (by
          intro k
          rw [kahnStep_noEdge st cur hne]
          simp only [SMap.get_touch]
          exact hne k)
        (by
          rw [kahnStep_noEdge st cur hne]
          simp only
          omega)
      rw [kahnStep_noEdge st cur hne] at h2 h3
      simp only at h2 h3
      refine ⟨st1, cur :: out, ?_, ?_, ?_, ?_⟩
      · simp only [kahnLoop, ht]
        exact h1
      · rw [h2]
        simp
      · exact ((List.Perm.cons cur h3).trans (List.perm_cons_erase hm).symm)
      · refine List.Pairwise.cons ?_ h4
        intro x hx
        exact heapTop_before ht x (List.mem_of_mem_erase (h3.subset hx))


/-! ## The claims -/

/-- Claim C1, on the code: topological validity fails after a first schedule. With `A`
and `B` (which depends on `A` and has the earlier deadline) added through `addTask`, the
first `executeTasks` emits `A, B` and leaves both counts at 0; the second call passes the
cycle check, emits both registered tasks without an error, and puts `B` before its
dependency `A`. -/
theorem second_schedule_puts_dependent_first :
    (executeTasks chainState).map (fun r => (r.error, r.executionOrder, r.state.inDegree))
      = some (none, ["A", "B"], [("A", 0), ("B", 0)]) ∧
    ((executeTasks chainState).bind (fun r => executeTasks r.state)).map
        (fun r => (r.error, r.executionOrder)) = some (none, ["B", "A"]) ∧
    SMap.keys chainState.taskMap = ["A", "B"] ∧
    (SMap.find chainState.taskMap "B").map Task.dependencies = some ["A"] := by
  decide

/-- Claim C2: when a registered task lies on a directed cycle of the dependents adjacency
(a self-loop or a cycle through any number of tasks), `executeTasks` returns with the
circular-dependency error, emits nothing, and leaves the registry and the counts as they
were, so the scheduling loop is not entered. -/
theorem cycle_is_refused (s : State) (c : String) (hc : c ∈ SMap.keys s.taskMap)
    (hcyc : Relation.TransGen (Edge s.adjList) c c) :
    ∃ r, executeTasks s = some r ∧ r.error = some ExecError.circularDependency ∧
      r.emitted = [] ∧ r.executionOrder = [] ∧
      r.state.taskMap = s.taskMap ∧ r.state.inDegree = s.inDegree := by
  obtain ⟨b, d, hcc⟩ := cycleCheck_total s
  cases b with
  | false => exact absurd hcyc (cycleCheck_false_acyclic s _ d hcc c hc)
  | true =>
    refine ⟨⟨{ s with adjList := d.adjList }, some ExecError.circularDependency, []⟩,
      ?_, rfl, rfl, rfl, rfl, rfl⟩
    unfold executeTasks
    rw [hcc]

/-- Witness of C2: the batch in which `X` and `Y` depend on each other is refused. -/
theorem cycle_is_refused_witness :
    "X" ∈ SMap.keys cyclicState.taskMap ∧
    Relation.TransGen (Edge cyclicState.adjList)
      "X" "X" ∧
    ∃ r, executeTasks cyclicState = some r ∧
      r.error = some ExecError.circularDependency ∧ r.emitted = [] ∧ r.executionOrder = [] ∧
      r.state.taskMap = cyclicState.taskMap ∧
      r.state.inDegree = cyclicState.inDegree :=
  ⟨by decide,
   Relation.TransGen.tail
     (Relation.TransGen.single (by decide : Edge cyclicState.adjList "X" "Y"))
     (by decide : Edge cyclicState.adjList "Y" "X"),
   cycle_is_refused cyclicState "X" (by decide)
     (Relation.TransGen.tail
       (Relation.TransGen.single (by decide : Edge cyclicState.adjList "X" "Y"))
       (by decide : Edge cyclicState.adjList "Y" "X"))⟩

/-- Claim C3: on a registry built by `addTask` calls in which no task has a dependency,
`executeTasks` returns, the tasks it emits are a permutation of the registered tasks, and
they are sorted by deadline ascending and, among equal deadlines, by priority descending;
when the registry is not empty no error is reported. -/
theorem schedule_without_dependencies (reqs : List AddRequest)
    (hnodep : ∀ e, e ∈ (addAll reqs).taskMap → e.2.dependencies = []) :
    ∃ r, executeTasks (addAll reqs) = some r ∧
      r.emitted.Perm ((addAll reqs).taskMap.map Prod.snd) ∧
      r.emitted.Pairwise Before ∧
      ((addAll reqs).taskMap ≠ [] → r.error = none) := by
  have hinv := addAll_addInv reqs
  generalize addAll reqs = s at hnodep hinv ⊢
  have hne : ∀ k, SMap.get s.adjList k [] = [] := by
    intro k
    apply List.eq_nil_iff_forall_not_mem.mpr
    intro x hx
    obtain ⟨t, ht1, ht2⟩ := hinv.dependents k x hx
    have := hnodep (x, t) (SMap.find_some_mem _ _ _ ht1)
    simp only at this
    rw [this] at ht2
    exact absurd ht2 (List.not_mem_nil k)
  have hzero : ∀ e, e ∈ s.taskMap → SMap.get (s.inDegree, ([] : List Task)).1 e.1 0 = 0 := by
    intro e _
    have := hinv.counts e.1
    cases hf : SMap.find s.taskMap e.1 with
    | none =>
      rw [hf] at this
      exact this
    | some t =>
      rw [hf] at this
      have ht := hnodep (e.1, t) (SMap.find_some_mem _ _ _ hf)
      simp only at ht
      rw [this]
      simp only [ht, List.length_nil, Nat.cast_zero]
  have hseed := seedStep_foldl_zero s.taskMap (s.inDegree, []) hzero
  simp only [List.nil_append] at hseed
  obtain ⟨b, d, hcc⟩ := cycleCheck_total s
  have hb := cycleCheck_noEdge _ _ _ b d hne hcc
  subst hb
  have hfr := cycleCheck_frame _ _ _ _ _ hcc
  unfold executeTasks
  rw [hcc]
  simp only [hseed]
  by_cases hem : s.taskMap = []
  · simp [hem]
  · have hmap : (s.taskMap.map Prod.snd).isEmpty = false := by
      cases hs : s.taskMap with
      | nil => exact absurd hs hem
      | cons e m => rfl
    simp only [hmap, Bool.false_eq_true, if_false]
    obtain ⟨st1, out, h1, h2, h3, h4⟩ := kahnLoop_noEdge
      (kahnFuel (s.taskMap.foldl seedStep (s.inDegree, [])).1 (s.taskMap.map Prod.snd))
      ⟨s.taskMap, (s.taskMap.foldl seedStep (s.inDegree, [])).1, d.adjList,
        s.taskMap.map Prod.snd, []⟩
      (fun k => (hfr.1 k).trans (hne k))
      (by simp only [kahnFuel]; omega)
    rw [h1]
    simp only [List.nil_append] at h2
    refine ⟨_, rfl, ?_, ?_, fun _ => rfl⟩
    · simp only [h2]
      exact h3
    · simp only [h2]
      exact h4

/-- Witness of C3: `A` (deadline 5, priority 1), `B` (deadline 5, priority 9) and `C`
(deadline 3, priority 1) are emitted in the order `C, B, A`. -/
theorem schedule_without_dependencies_witness :
    (∀ e, e ∈ (addAll priorityRequests).taskMap → e.2.dependencies = []) ∧
    (∃ r, executeTasks (addAll priorityRequests) = some r ∧
      r.emitted.Perm ((addAll priorityRequests).taskMap.map Prod.snd) ∧
      r.emitted.Pairwise Before ∧
      ((addAll priorityRequests).taskMap ≠ [] → r.error = none)) ∧
    (executeTasks (addAll priorityRequests)).map (fun r => (r.error, r.executionOrder))
      = some (none, ["C", "B", "A"]) :=
  ⟨by decide, schedule_without_dependencies priorityRequests (by decide), by decide⟩

/-- Counterexample to C4: on the registry of `A` and `B` (which depends on `A`),
`executeTasks` lowers the count of `B` from 1 to 0 in `inDegree` itself and adds the key
`B` with an empty list to `adjList`; the state after the call is not the state before. -/
theorem executeTasks_changes_indices :
    chainState.inDegree = [("A", 0), ("B", 1)] ∧
    chainState.adjList = [("A", ["B"])] ∧
    (executeTasks chainState).map (fun r => (r.state.inDegree, r.state.adjList))
      = some ([("A", 0), ("B", 0)], [("A", ["B"]), ("B", [])]) ∧
    (executeTasks chainState).map (fun r => r.state) ≠ some chainState := by
  decide

/-- Claim C4, amended: on every reachable state `executeTasks` returns, leaves the task
registry exactly as it was, and leaves the list read from `adjList` under every name as it
was, a missing key reading as the empty list (the call can add such keys with empty
lists). -/
theorem executeTasks_keeps_registry (s : State) (hs : Reachable s) :
    ∃ r, executeTasks s = some r ∧ r.state.taskMap = s.taskMap ∧
      ∀ k, SMap.get r.state.adjList k [] = SMap.get s.adjList k [] := by
  obtain ⟨r, hr⟩ := executeTasks_total s
  obtain ⟨h1, h2, _⟩ := executeTasks_frame s (reachable_registered s hs) r hr
  exact ⟨r, hr, h1, h2⟩

/-- Witness of C4, amended: the registry of `A` and `B`. -/
theorem executeTasks_keeps_registry_witness :
    Reachable chainState ∧
    ∃ r, executeTasks chainState = some r ∧ r.state.taskMap = chainState.taskMap ∧
      ∀ k, SMap.get r.state.adjList k [] = SMap.get chainState.adjList k [] :=
  ⟨Reachable.add "B" 1 1 ["A"] (Reachable.add "A" 1 5 [] Reachable.start),
   executeTasks_keeps_registry chainState
     (Reachable.add "B" 1 1 ["A"] (Reachable.add "A" 1 5 [] Reachable.start))⟩

/-- Claim C5, on the code: two calls in succession differ. On the registry of `A` and `B`
(which depends on `A`), built by `addTask`, the first `executeTasks` emits `A, B`, the
second `B, A` and the third `A` alone, with nothing added or loaded in between. -/
theorem repeated_schedule_differs :
    (executeTasks chainState).map ExecResult.executionOrder = some ["A", "B"] ∧
    ((executeTasks chainState).bind (fun r => executeTasks r.state)).map
        ExecResult.executionOrder = some ["B", "A"] ∧
    (((executeTasks chainState).bind (fun r => executeTasks r.state)).bind
        (fun r => executeTasks r.state)).map
        (fun r => (r.error, r.executionOrder)) = some (none, ["A"]) := by
  decide

/-- Claim C6, on the code: a remainder is not reported. After loading a batch in which
`B` depends on the undefined name `Z`, `executeTasks` passes the cycle check, emits `A`
alone out of two registered tasks, and reports no error. -/
theorem remainder_is_not_reported :
    SMap.keys danglingState.taskMap = ["A", "B"] ∧
    (executeTasks danglingState).map
        (fun r => (r.error, r.executionOrder)) = some (none, ["A"]) := by
  decide

/-- Counterexample to C7: on the empty registry `executeTasks` does not return without an
error. -/
theorem empty_registry_reports_error :
    ¬ ∃ r, executeTasks State.empty = some r ∧ r.emitted = [] ∧ r.error = none := by
  decide

/-- Claim C7, amended: on the empty registry `executeTasks` emits nothing, leaves the three
containers empty, and reports the no-executable-tasks error. -/
theorem empty_registry_no_executable :
    executeTasks State.empty
      = some ⟨State.empty, some ExecError.noExecutableTasks, []⟩ := by
  decide

/-- Claim C8: `addTask` with a name that is already registered reports a duplicate name
and returns the state it was given, whatever the other arguments. -/
theorem duplicate_rejection (s : State) (name : String) (priority deadline : Int)
    (deps : List String) (h : SMap.find s.taskMap name ≠ none) :
    addTask s name priority deadline deps = (s, AddOutcome.duplicateName) := by
  unfold addTask
  cases hf : SMap.find s.taskMap name with
  | none => exact absurd hf h
  | some t => rfl

/-- Witness of C8: adding `A` again to the registry of `A` and `B`. -/
theorem duplicate_rejection_witness :
    SMap.find chainState.taskMap "A" ≠ none ∧
    addTask chainState "A" 7 7 ["B"] = (chainState, AddOutcome.duplicateName) :=
  ⟨by decide, duplicate_rejection chainState "A" 7 7 ["B"] (by decide)⟩

/-- Claim C9: in a reachable state, `addTask` with a name that is not registered succeeds
and reports the skipped tokens; the stored task carries exactly the tokens that were
registered before the call, in the order and number given; the count of the new name is
the length of that list; and under every name `d` the list of dependents gains the new
name once per retained occurrence of `d`. -/
theorem addTask_dependency_filtering (s : State) (hs : Reachable s) (name : String)
    (priority deadline : Int) (deps : List String) (hnew : SMap.find s.taskMap name = none) :
    (addTask s name priority deadline deps).2 = AddOutcome.added (skippedDeps s.taskMap deps) ∧
    SMap.find (addTask s name priority deadline deps).1.taskMap name
      = some ⟨name, priority, deadline, retained s.taskMap deps⟩ ∧
    SMap.find (addTask s name priority deadline deps).1.inDegree name
      = some ((retained s.taskMap deps).length : Int) ∧
    (∀ d, SMap.get (addTask s name priority deadline deps).1.adjList d []
      = SMap.get s.adjList d [] ++ List.replicate ((retained s.taskMap deps).count d) name) := by
  obtain ⟨h1, h2, h3, _, h5⟩ := addTask_new s name priority deadline deps hnew
  have hcount : SMap.get s.inDegree name 0 = 0 := by
    cases hf : SMap.find s.inDegree name with
    | none => simp [SMap.get, hf]
    | some v =>
      have hk := (reachable_registered s hs).counts name (by rw [hf]; exact Option.some_ne_none v)
      exact absurd hnew ((SMap.mem_keys_iff _ _).mp hk)
  refine ⟨h1, ?_, ?_, h5⟩
  · rw [h2, SMap.find_assign_self]
  · rw [h3, hcount, zero_add]

/-- Witness of C9: adding `C` with the tokens `B, Z, A, B, C` to the registry of `A` and
`B` keeps `B, A, B`. -/
theorem addTask_dependency_filtering_witness :
    Reachable chainState ∧ SMap.find chainState.taskMap "C" = none ∧
    ((addTask chainState "C" 2 3 ["B", "Z", "A", "B", "C"]).2
        = AddOutcome.added (skippedDeps chainState.taskMap ["B", "Z", "A", "B", "C"]) ∧
      SMap.find (addTask chainState "C" 2 3 ["B", "Z", "A", "B", "C"]).1.taskMap "C"
        = some ⟨"C", 2, 3, retained chainState.taskMap ["B", "Z", "A", "B", "C"]⟩ ∧
      SMap.find (addTask chainState "C" 2 3 ["B", "Z", "A", "B", "C"]).1.inDegree "C"
        = some ((retained chainState.taskMap ["B", "Z", "A", "B", "C"]).length : Int) ∧
      (∀ d, SMap.get (addTask chainState "C" 2 3 ["B", "Z", "A", "B", "C"]).1.adjList d []
        = SMap.get chainState.adjList d [] ++ List.replicate
            ((retained chainState.taskMap ["B", "Z", "A", "B", "C"]).count d) "C")) ∧
    retained chainState.taskMap ["B", "Z", "A", "B", "C"] = ["B", "A", "B"] :=
  ⟨Reachable.add "B" 1 1 ["A"] (Reachable.add "A" 1 5 [] Reachable.start), by decide,
   addTask_dependency_filtering chainState
     (Reachable.add "B" 1 1 ["A"] (Reachable.add "A" 1 5 [] Reachable.start))
     "C" 2 3 ["B", "Z", "A", "B", "C"] (by decide),
   by decide⟩

/-- Claim C10, on the code: a batch that repeats a name breaks the count invariant. After
loading two records named `X`, one depending on `A` and one on `B`, the registry holds the
second record, whose dependency list has one entry, and the count of `X` is 2. -/
theorem repeated_name_inflates_count :
    SMap.keys repeatedState.taskMap = ["A", "B", "X"] ∧
    (SMap.find repeatedState.taskMap "X").map
        Task.dependencies = some ["B"] ∧
    SMap.find repeatedState.inDegree "X" = some 2 := by
  decide

/-! ## The inverse relation under `addTask` -/

theorem mutualInverse_empty : MutualInverse State.empty := by
  intro a b
  simp [State.empty, SMap.get, SMap.find]

theorem addTask_mutualInverse (s : State) (name : String) (priority deadline : Int)
    (deps : List String) (hs : MutualInverse s) :
    MutualInverse (addTask s name priority deadline deps).1 := by
  cases hf : SMap.find s.taskMap name with
  | some t =>
    rw [addTask_duplicate s name priority deadline deps (by rw [hf]; exact Option.some_ne_none t)]
    exact hs
  | none =>
    obtain ⟨_, h2, _, _, h5⟩ := addTask_new s name priority deadline deps hf
    intro a b
    rw [h5 a, h2, List.mem_append]
    constructor
    · rintro (h | h)
      · obtain ⟨t, ht1, ht2⟩ := (hs a b).mp h
        have hbn : b ≠ name := by
          intro he
          rw [he, hf] at ht1
          exact Option.noConfusion ht1
        exact ⟨t, by rw [SMap.find_assign_ne _ _ _ _ hbn]; exact ht1, ht2⟩
      · obtain ⟨hn, hbe⟩ := List.mem_replicate.mp h
        refine ⟨⟨name, priority, deadline, retained s.taskMap deps⟩, ?_, ?_⟩
        · rw [hbe, SMap.find_assign_self]
        · exact List.count_pos_iff.mp (Nat.pos_of_ne_zero hn)
    · rintro ⟨t, ht1, ht2⟩
      by_cases hbn : b = name
      · right
        subst hbn
        rw [SMap.find_assign_self] at ht1
        simp only [Option.some.injEq] at ht1
        rw [← ht1] at ht2
        simp only at ht2
        exact List.mem_replicate.mpr ⟨Nat.pos_iff_ne_zero.mp (List.count_pos_iff.mpr ht2), rfl⟩
      · left
        rw [SMap.find_assign_ne _ _ _ _ hbn] at ht1
        exact (hs a b).mpr ⟨t, ht1, ht2⟩

theorem addAll_mutualInverse (reqs : List AddRequest) : MutualInverse (addAll reqs) := by
  have key : ∀ (qs : List AddRequest) (s : State), MutualInverse s →
      MutualInverse (qs.foldl (fun s q => (addTask s q.name q.priority q.deadline q.deps).1) s) := by
    intro qs
    induction qs with
    | nil => intro s h; exact h
    | cons q qs ih =>
      intro s h
      exact ih _ (addTask_mutualInverse s q.name q.priority q.deadline q.deps h)
  exact key reqs State.empty mutualInverse_empty

/-! ## The guard on an empty queue -/

theorem cycleCheckPasses_iff (s : State) :
    cycleCheckPasses s = true ↔
      ∃ d, cycleCheck ((nodes s).length + 1) (SMap.keys s.taskMap) ⟨s.adjList, [], []⟩
        = some (false, d) := by
  unfold cycleCheckPasses
  cases hc : cycleCheck ((nodes s).length + 1) (SMap.keys s.taskMap) ⟨s.adjList, [], []⟩ with
  | none => simp
  | some p =>
    obtain ⟨b, d⟩ := p
    cases b <;> simp

theorem seedStep_foldl_blocked (entries : List (String × Task)) :
    ∀ acc : SMap Int × List Task, (∀ e, e ∈ entries → SMap.get acc.1 e.1 0 ≠ 0) →
      entries.foldl seedStep acc = acc := by
  induction entries with
  | nil => intro acc _; rfl
  | cons e entries ih =>
    intro acc h
    have h0 := h e (List.mem_cons_self _ _)
    have hfind : SMap.find acc.1 e.1 ≠ none := by
      intro hn
      exact h0 (by simp [SMap.get, hn])
    have htouch : SMap.touch acc.1 e.1 0 = acc.1 := by
      cases hf : SMap.find acc.1 e.1 with
      | none => exact absurd hf hfind
      | some v => exact SMap.touch_of_find _ _ _ _ hf
    have he : seedStep acc e = acc := by
      simp [seedStep, h0, htouch]
    simp only [List.foldl_cons, he]
    exact ih acc (fun e2 he2 => h e2 (List.mem_cons_of_mem _ he2))

/-! ## The comparator as an order -/

theorem Compare_eq_false_iff (a b : Task) : Compare a b = false ↔ Before a b := by
  rw [← Bool.not_eq_true, Compare_iff, not_not]

/-! ## The traversal: a probe that returns `true` has found a cycle -/

theorem dfsInv_enter (E : String → String → Prop) (st : DfsState) (task : String)
    (hinv : DfsInv E st) (hv : task ∉ st.visited) :
    DfsInv E ⟨SMap.touch st.adjList task [], task :: st.visited,
      List.insert task st.recStack⟩ := by
  have hb1 : ∀ x, Black ⟨SMap.touch st.adjList task [], task :: st.visited,
      List.insert task st.recStack⟩ x ↔ Black st x := by
    intro x
    simp only [Black, List.mem_cons, List.mem_insert_iff]
    constructor
    · rintro ⟨h1, h2⟩
      push_neg at h2
      rcases h1 with h1 | h1
      · exact absurd h1 h2.1
      · exact ⟨h1, h2.2⟩
    · rintro ⟨h1, h2⟩
      refine ⟨Or.inr h1, ?_⟩
      rintro (h3 | h3)
      · exact hv (h3 ▸ h1)
      · exact h2 h3
  refine ⟨?_, ?_, ?_⟩
  · intro x hx
    simp only [List.mem_insert_iff] at hx
    rcases hx with hx | hx
    · exact hx ▸ List.mem_cons_self _ _
    · exact List.mem_cons_of_mem _ (hinv.stack_visited x hx)
  · intro u v hu he
    exact (hb1 v).mpr (hinv.closed u v ((hb1 u).mp hu) he)
  · intro u hu
    exact hinv.acyclic u ((hb1 u).mp hu)

/-- The loop over the neighbours of `task`, when it ends with `true`, has met a cycle,
provided every node on the recursion stack reaches `task`. -/
theorem probeNeighbors_true (adj0 : SMap (List String)) (task : String)
    (call : String → DfsState → Option (Bool × DfsState))
    (hfalse : ∀ n st st1, (∀ k, SMap.get st.adjList k [] = SMap.get adj0 k []) →
      DfsInv (Edge adj0) st → n ∉ st.recStack →
      call n st = some (false, st1) →
      DfsInv (Edge adj0) st1 ∧ (∀ x, x ∈ st1.recStack ↔ x ∈ st.recStack) ∧ n ∈ st1.visited)
    (hframe : ∀ n st b st1, call n st = some (b, st1) → DfsFrame st st1)
    (htrue : ∀ n st st1, (∀ k, SMap.get st.adjList k [] = SMap.get adj0 k []) →
      DfsInv (Edge adj0) st →
      (∀ x, x ∈ st.recStack → Relation.ReflTransGen (Edge adj0) x n) →
      call n st = some (true, st1) → ∃ c, Relation.TransGen (Edge adj0) c c) :
    ∀ ns st st1, (∀ n, n ∈ ns → Edge adj0 task n) →
      (∀ k, SMap.get st.adjList k [] = SMap.get adj0 k []) →
      DfsInv (Edge adj0) st →
      (∀ x, x ∈ st.recStack → Relation.ReflTransGen (Edge adj0) x task) →
      probeNeighbors call ns st = some (true, st1) →
      ∃ c, Relation.TransGen (Edge adj0) c c := by
  intro ns
  induction ns with
  | nil =>
    intro st st1 _ _ _ _ h
    simp [probeNeighbors] at h
  | cons n ns ih =>
    intro st st1 hedge hread hinv hreach h
    have hen : Edge adj0 task n := hedge n (List.mem_cons_self _ _)
    have hedge2 : ∀ m, m ∈ ns → Edge adj0 task m :=
      fun m hm => hedge m (List.mem_cons_of_mem _ hm)
    simp only [probeNeighbors] at h
    split at h
    · split at h
      · rename_i hr
        exact ⟨n, Relation.TransGen.tail' (hreach n hr) hen⟩
      · exact ih st st1 hedge2 hread hinv hreach h
    · rename_i hv
      have hnr : n ∉ st.recStack := fun hx => hv (hinv.stack_visited n hx)
      cases hc : call n st with
      | none => simp [hc] at h
      | some p =>
        obtain ⟨b2, st2⟩ := p
        cases b2 with
        | true =>
          exact htrue n st st2 hread hinv
            (fun x hx => Relation.ReflTransGen.tail (hreach x hx) hen) hc
        | false =>
          simp only [hc] at h
          obtain ⟨g1, g2, _⟩ := hfalse n st st2 hread hinv hnr hc
          have hread2 : ∀ k, SMap.get st2.adjList k [] = SMap.get adj0 k [] :=
            fun k => ((hframe n st false st2 hc).1 k).trans (hread k)
          split at h
          · rename_i hr
            exact absurd ((g2 n).mp hr) hnr
          · exact ih st2 st1 hedge2 hread2 g1 (fun x hx => hreach x ((g2 x).mp hx)) h

/-- A call of `hasCycle` that returns `true` has met a cycle, provided every node on the
recursion stack reaches its task. -/
theorem hasCycle_true (adj0 : SMap (List String)) :
    ∀ fuel task st st1, (∀ k, SMap.get st.adjList k [] = SMap.get adj0 k []) →
      DfsInv (Edge adj0) st →
      (∀ x, x ∈ st.recStack → Relation.ReflTransGen (Edge adj0) x task) →
      hasCycle fuel task st = some (true, st1) →
      ∃ c, Relation.TransGen (Edge adj0) c c := by
  intro fuel
  induction fuel with
  | zero =>
    intro task st st1 _ _ _ h
    simp [hasCycle] at h
  | succ fuel ih =>
    intro task st st1 hread hinv hreach h
    simp only [hasCycle] at h
    split at h
    · simp at h
    · rename_i hv
      cases hp : probeNeighbors (hasCycle fuel) (SMap.get st.adjList task [])
          ⟨SMap.touch st.adjList task [], task :: st.visited, List.insert task st.recStack⟩ with
      | none => simp [hp] at h
      | some p =>
        obtain ⟨b2, st2⟩ := p
        cases b2 with
        | false => simp [hp] at h
        | true =>
          have hread1 : ∀ k, SMap.get (SMap.touch st.adjList task []) k [] = SMap.get adj0 k [] :=
            fun k => (SMap.get_touch st.adjList task k []).trans (hread k)
          exact probeNeighbors_true adj0 task (hasCycle fuel)
            (hasCycle_false adj0 fuel) (hasCycle_frame fuel) ih
            (SMap.get st.adjList task []) _ st2
            (fun n hn => by
              unfold Edge
              rw [← hread task]
              exact hn)
            hread1 (dfsInv_enter _ st task hinv hv)
            (fun x hx => by
              simp only [List.mem_insert_iff] at hx
              rcases hx with hx | hx
              · rw [hx]
              · exact hreach x hx)
            hp

/-- The first loop of `executeTasks`, when it ends with `true`, has met a cycle. -/
theorem cycleCheck_true (adj0 : SMap (List String)) (fuel : Nat) :
    ∀ ks st st1, (∀ k, SMap.get st.adjList k [] = SMap.get adj0 k []) →
      DfsInv (Edge adj0) st → (∀ x, x ∉ st.recStack) →
      cycleCheck fuel ks st = some (true, st1) →
      ∃ c, Relation.TransGen (Edge adj0) c c := by
  intro ks
  induction ks with
  | nil =>
    intro st st1 _ _ _ h
    simp [cycleCheck] at h
  | cons k ks ih =>
    intro st st1 hread hinv hemp h
    simp only [cycleCheck] at h
    cases hc : hasCycle fuel k st with
    | none => simp [hc] at h
    | some p =>
      obtain ⟨b2, st2⟩ := p
      cases b2 with
      | true =>
        exact hasCycle_true adj0 fuel k st st2 hread hinv
          (fun x hx => absurd hx (hemp x)) hc
      | false =>
        simp only [hc] at h
        obtain ⟨g1, g2, _⟩ := hasCycle_false adj0 fuel k st st2 hread hinv (hemp k) hc
        have hfr := hasCycle_frame fuel k st false st2 hc
        exact ih st2 st1 (fun j => (hfr.1 j).trans (hread j)) g1
          (fun x hx => hemp x ((g2 x).mp hx)) h

/-- On an adjacency without cycles the cycle check passes. -/
theorem cycleCheckPasses_of_acyclic (s : State)
    (hacyc : ∀ c, ¬ Relation.TransGen (Edge s.adjList) c c) : cycleCheckPasses s = true := by
  obtain ⟨b, d, hc⟩ := cycleCheck_total s
  cases b with
  | false => exact (cycleCheckPasses_iff s).mpr ⟨d, hc⟩
  | true =>
    have hinv0 : DfsInv (Edge s.adjList) ⟨s.adjList, [], []⟩ :=
      ⟨fun x hx => absurd hx (List.not_mem_nil x),
       fun u v hu _ => absurd hu.1 (List.not_mem_nil u),
       fun u hu => absurd hu.1 (List.not_mem_nil u)⟩
    obtain ⟨c, hcyc⟩ := cycleCheck_true s.adjList _ _ _ d (fun _ => rfl) hinv0
      (fun x hx => absurd hx (List.not_mem_nil x)) hc
    exact absurd hcyc (hacyc c)

/-- When the cycle check passes, `executeTasks` does not report a circular dependency. -/
theorem executeTasks_of_passes (s : State) (h : cycleCheckPasses s = true) :
    ∃ r, executeTasks s = some r ∧ r.error ≠ some ExecError.circularDependency := by
  obtain ⟨d, hd⟩ := (cycleCheckPasses_iff s).mp h
  obtain ⟨r, hr⟩ := executeTasks_total s
  refine ⟨r, hr, ?_⟩
  unfold executeTasks at hr
  rw [hd] at hr
  simp only at hr
  split at hr
  · simp only [Option.some.injEq] at hr
    rw [← hr]
    simp
  · cases hk : kahnLoop
        (kahnFuel (s.taskMap.foldl seedStep (s.inDegree, [])).1
          (s.taskMap.foldl seedStep (s.inDegree, [])).2)
        ⟨s.taskMap, (s.taskMap.foldl seedStep (s.inDegree, [])).1, d.adjList,
          (s.taskMap.foldl seedStep (s.inDegree, [])).2, []⟩ with
    | none => simp [hk] at hr
    | some k1 =>
      simp only [hk, Option.some.injEq] at hr
      rw [← hr]
      simp

/-! ## Registries built by `addTask` have no cycle -/

theorem addOrder_empty : AddOrder State.empty (fun _ => 0) 0 :=
  ⟨fun a b h => by simp [Edge, State.empty, SMap.get, SMap.find] at h,
   fun a b h => by simp [Edge, State.empty, SMap.get, SMap.find] at h,
   fun k h => by simp [State.empty, SMap.find] at h⟩

theorem addTask_addOrder (s : State) (name : String) (priority deadline : Int)
    (deps : List String) (r : String → Nat) (N : Nat) (hs : AddOrder s r N) :
    ∃ r1 N1, AddOrder (addTask s name priority deadline deps).1 r1 N1 := by
  cases hf : SMap.find s.taskMap name with
  | some t =>
    rw [addTask_duplicate s name priority deadline deps (by rw [hf]; exact Option.some_ne_none t)]
    exact ⟨r, N, hs⟩
  | none =>
    obtain ⟨_, h2, _, _, h5⟩ := addTask_new s name priority deadline deps hf
    have hold : ∀ k, SMap.find s.taskMap k ≠ none → k ≠ name := by
      intro k hk he
      rw [he] at hk
      exact hk hf
    have hret : ∀ a, a ∈ retained s.taskMap deps → SMap.find s.taskMap a ≠ none := by
      intro a ha
      have := (List.mem_filter.mp ha).2
      intro hn
      simp [hn] at this
    have hcase : ∀ a b, Edge (addTask s name priority deadline deps).1.adjList a b →
        Edge s.adjList a b ∨ (b = name ∧ a ∈ retained s.taskMap deps) := by
      intro a b he
      unfold Edge at he
      rw [h5 a] at he
      rcases List.mem_append.mp he with h | h
      · exact Or.inl h
      · obtain ⟨hn, hbe⟩ := List.mem_replicate.mp h
        exact Or.inr ⟨hbe, List.count_pos_iff.mp (Nat.pos_of_ne_zero hn)⟩
    refine ⟨fun x => if x = name then N else r x, N + 1, ⟨?_, ?_, ?_⟩⟩
    · intro a b he
      rcases hcase a b he with h | ⟨hb, ha⟩
      · obtain ⟨ha1, hb1⟩ := hs.edge_reg a b h
        simp only [hold a ha1, hold b hb1, if_false]
        exact hs.edge_lt a b h
      · have ha1 := hret a ha
        simp only [hold a ha1, hb, if_false, if_true]
        exact hs.bound a ha1
    · intro a b he
      rw [h2]
      simp only [SMap.find_assign]
      rcases hcase a b he with h | ⟨hb, ha⟩
      · obtain ⟨ha1, hb1⟩ := hs.edge_reg a b h
        simp only [hold a ha1, hold b hb1, if_false]
        exact ⟨ha1, hb1⟩
      · have ha1 := hret a ha
        simp only [hold a ha1, hb, if_false, if_true]
        exact ⟨ha1, Option.some_ne_none _⟩
    · intro k hk
      by_cases hkn : k = name
      · simp only [hkn, if_true]
        omega
      · rw [h2, SMap.find_assign_ne _ _ _ _ hkn] at hk
        simp only [hkn, if_false]
        have := hs.bound k hk
        omega

theorem addAll_addOrder (reqs : List AddRequest) : ∃ r N, AddOrder (addAll reqs) r N := by
  have key : ∀ (qs : List AddRequest) (s : State), (∃ r N, AddOrder s r N) →
      ∃ r N, AddOrder
        (qs.foldl (fun s q => (addTask s q.name q.priority q.deadline q.deps).1) s) r N := by
    intro qs
    induction qs with
    | nil => intro s h; exact h
    | cons q qs ih =>
      intro s h
      obtain ⟨r, N, hrN⟩ := h
      exact ih _ (addTask_addOrder s q.name q.priority q.deadline q.deps r N hrN)
  exact key reqs State.empty ⟨_, _, addOrder_empty⟩

theorem addOrder_acyclic (s : State) (r : String → Nat) (N : Nat) (hs : AddOrder s r N)
    (c : String) : ¬ Relation.TransGen (Edge s.adjList) c c := by
  have key : ∀ a b, Relation.TransGen (Edge s.adjList) a b → r a < r b := by
    intro a b h
    induction h with
    | single h1 => exact hs.edge_lt _ _ h1
    | tail _ h2 ih => exact lt_trans ih (hs.edge_lt _ _ h2)
  intro h
  exact lt_irrefl _ (key c c h)

/-! ## The scheduling loop: what one round does -/

theorem relaxStep_spec (st : KahnState) (d : String)
    (hd : SMap.find st.taskMap d ≠ none) :
    (relaxStep st d).taskMap = st.taskMap ∧
    (relaxStep st d).adjList = st.adjList ∧
    (relaxStep st d).emitted = st.emitted ∧
    (∀ b, SMap.get (relaxStep st d).inDegree b 0
      = SMap.get st.inDegree b 0 - (if b = d then 1 else 0)) ∧
    (relaxStep st d).minHeap =
      if SMap.get st.inDegree d 0 = 1 then st.minHeap ++ [SMap.get st.taskMap d Task.blank]
      else st.minHeap := by
  have htouch : SMap.touch st.taskMap d Task.blank = st.taskMap := by
    cases hf : SMap.find st.taskMap d with
    | none => exact absurd hf hd
    | some t => exact SMap.touch_of_find _ _ _ _ hf
  have hg : SMap.get (decr st.inDegree d) d 0 = SMap.get st.inDegree d 0 - 1 := by
    simp [decr, SMap.get_assign]
  have hget : ∀ b, SMap.get (decr st.inDegree d) b 0
      = SMap.get st.inDegree b 0 - (if b = d then 1 else 0) := by
    intro b
    simp only [decr, SMap.get_assign]
    by_cases hb : b = d
    · simp [hb]
    · simp [hb]
  have hrs : relaxStep st d =
      if SMap.get st.inDegree d 0 = 1 then
        { st with
          inDegree := decr st.inDegree d
          minHeap := st.minHeap ++ [SMap.get st.taskMap d Task.blank] }
      else { st with inDegree := decr st.inDegree d } := by
    unfold relaxStep
    simp only [hg, htouch]
    split_ifs <;> first | rfl | omega
  rw [hrs]
  split_ifs
  · exact ⟨rfl, rfl, rfl, hget, rfl⟩
  · exact ⟨rfl, rfl, rfl, hget, rfl⟩

/-- The loop over the dependents of an emitted task: every count falls by the number of
times its name is listed, and the names whose count falls from a positive value to 0 are
queued, each once. -/
theorem relaxStep_foldl_spec (ds : List String) :
    ∀ st : KahnState, (∀ d, d ∈ ds → SMap.find st.taskMap d ≠ none) →
      ∃ pushed : List String,
        (ds.foldl relaxStep st).minHeap
          = st.minHeap ++ pushed.map (fun d => SMap.get st.taskMap d Task.blank) ∧
        pushed.Nodup ∧
        (∀ d, d ∈ pushed ↔
          (0 < SMap.get st.inDegree d 0 ∧ SMap.get st.inDegree d 0 ≤ (ds.count d : Int))) ∧
        (ds.foldl relaxStep st).taskMap = st.taskMap ∧
        (ds.foldl relaxStep st).adjList = st.adjList ∧
        (ds.foldl relaxStep st).emitted = st.emitted ∧
        ∀ b, SMap.get (ds.foldl relaxStep st).inDegree b 0
          = SMap.get st.inDegree b 0 - (ds.count b : Int) := by
  induction ds with
  | nil =>
    intro st _
    refine ⟨[], by simp, List.nodup_nil, ?_, rfl, rfl, rfl, by simp⟩
    intro d
    simp only [List.not_mem_nil, List.count_nil, Nat.cast_zero, false_iff, not_and, not_le]
    intro h
    exact h
  | cons d ds ih =>
    intro st hreg
    have hd := hreg d (List.mem_cons_self _ _)
    obtain ⟨s1, s2, s3, s4, s5⟩ := relaxStep_spec st d hd
    obtain ⟨pushed, p1, p2, p3, p4, p5, p6, p7⟩ := ih (relaxStep st d)
      (fun x hx => by rw [s1]; exact hreg x (List.mem_cons_of_mem _ hx))
    simp only [List.foldl_cons]
    rw [s1] at p1 p4
    rw [s2] at p5
    rw [s3] at p6
    have hcount : ∀ b, ((d :: ds).count b : Int) = (ds.count b : Int) + (if b = d then 1 else 0) := by
      intro b
      rw [List.count_cons]
      by_cases hb : b = d
      · subst hb
        simp
      · have hb2 : ¬ d = b := fun h => hb h.symm
        simp [hb, hb2]
    have hget : ∀ b, SMap.get (ds.foldl relaxStep (relaxStep st d)).inDegree b 0
        = SMap.get st.inDegree b 0 - ((d :: ds).count b : Int) := by
      intro b
      rw [p7 b, s4 b, hcount b]
      ring
    by_cases h1 : SMap.get st.inDegree d 0 = 1
    · refine ⟨d :: pushed, ?_, ?_, ?_, p4, p5, p6, hget⟩
      · rw [p1, s5]
        simp [h1]
      · refine List.nodup_cons.mpr ⟨?_, p2⟩
        intro hmem
        have := (p3 d).mp hmem
        rw [s4 d] at this
        simp only [if_true] at this
        omega
      · intro x
        rw [List.mem_cons, p3 x, s4 x, hcount x]
        by_cases hx : x = d
        · subst hx
          simp only [if_true, true_or, true_iff]
          constructor
          · omega
          · have : (0 : Int) ≤ (ds.count x : Int) := Int.natCast_nonneg _
            omega
        · simp only [hx, if_false, false_or, sub_zero, add_zero]
    · refine ⟨pushed, ?_, p2, ?_, p4, p5, p6, hget⟩
      · rw [p1, s5]
        simp [h1]
      · intro x
        rw [p3 x, s4 x, hcount x]
        by_cases hx : x = d
        · subst hx
          simp only [if_true]
          constructor
          · rintro ⟨h2, h3⟩
            exact ⟨by omega, by omega⟩
          · rintro ⟨h2, h3⟩
            exact ⟨by omega, by omega⟩
        · simp only [hx, if_false, sub_zero, add_zero]

/-! ## Registries keyed by task name -/

theorem SMap.find_of_mem {V : Type} (m : SMap V) (hnd : (SMap.keys m).Nodup) (k : String)
    (v : V) (h : (k, v) ∈ m) : SMap.find m k = some v := by
  induction m with
  | nil => simp at h
  | cons e m ih =>
    obtain ⟨k1, v1⟩ := e
    simp only [SMap.keys, List.map_cons, List.nodup_cons] at hnd
    simp only [SMap.find]
    rcases List.mem_cons.mp h with h1 | h1
    · simp only [Prod.mk.injEq] at h1
      simp [h1.1, h1.2]
    · have hk : k ∈ List.map Prod.fst m := List.mem_map.mpr ⟨(k, v), h1, rfl⟩
      have hne : ¬ k1 = k := by
        intro he
        exact hnd.1 (he ▸ hk)
      simp only [hne, if_false]
      exact ih hnd.2 h1

theorem WellKeyed.name_of_find {tm : SMap Task} (hwk : WellKeyed tm) {k : String} {t : Task}
    (h : SMap.find tm k = some t) : t.name = k :=
  hwk.named (k, t) (SMap.find_some_mem tm k t h)

theorem WellKeyed.find_entry {tm : SMap Task} (hwk : WellKeyed tm) {e : String × Task}
    (h : e ∈ tm) : SMap.find tm e.2.name = some e.2 := by
  rw [hwk.named e h]
  exact SMap.find_of_mem tm hwk.nodup e.1 e.2 h

theorem WellKeyed.nodup_values {tm : SMap Task} (hwk : WellKeyed tm) :
    (tm.map Prod.snd).Nodup := by
  apply List.Nodup.of_map Task.name
  have : List.map Task.name (List.map Prod.snd tm) = SMap.keys tm := by
    rw [List.map_map]
    unfold SMap.keys
    apply List.map_congr_left
    intro e he
    exact hwk.named e he
  rw [this]
  exact hwk.nodup

/-! ## The seeding loop -/

theorem seedStep_foldl_spec (entries : List (String × Task)) :
    ∀ acc : SMap Int × List Task,
      (entries.foldl seedStep acc).2
        = acc.2 ++ (entries.filter (fun e => decide (SMap.get acc.1 e.1 0 = 0))).map Prod.snd ∧
      ∀ k, SMap.get (entries.foldl seedStep acc).1 k 0 = SMap.get acc.1 k 0 := by
  induction entries with
  | nil => intro acc; simp
  | cons e entries ih =>
    intro acc
    simp only [List.foldl_cons]
    obtain ⟨h1, h2⟩ := ih (seedStep acc e)
    have hread : ∀ k, SMap.get (seedStep acc e).1 k 0 = SMap.get acc.1 k 0 := by
      intro k
      unfold seedStep
      simp only
      split <;> exact SMap.get_touch _ _ _ _
    have hfilter : entries.filter (fun e2 => decide (SMap.get (seedStep acc e).1 e2.1 0 = 0))
        = entries.filter (fun e2 => decide (SMap.get acc.1 e2.1 0 = 0)) := by
      apply List.filter_congr
      intro x _
      rw [hread]
    rw [h1, hfilter]
    refine ⟨?_, fun k => (h2 k).trans (hread k)⟩
    by_cases h0 : SMap.get acc.1 e.1 0 = 0
    · simp [seedStep, h0, List.filter_cons]
    · simp [seedStep, h0, List.filter_cons]

/-! ## The scheduling loop: one round on a registry keyed by name -/

/-- One round of the scheduling loop, spelled out. -/
theorem kahnStep_spec (tm0 : SMap Task) (adj0 : SMap (List String)) (st : KahnState)
    (cur : Task) (htm : st.taskMap = tm0)
    (hreads : ∀ k, SMap.get st.adjList k [] = SMap.get adj0 k [])
    (hreg : ∀ a b, b ∈ SMap.get adj0 a [] → SMap.find tm0 b ≠ none)
    (hcur : cur ∈ st.minHeap) :
    ∃ pushed : List String,
      (kahnStep st cur).minHeap
        = st.minHeap.erase cur ++ pushed.map (fun d => SMap.get tm0 d Task.blank) ∧
      pushed.Nodup ∧
      (∀ d, d ∈ pushed ↔ (0 < SMap.get st.inDegree d 0 ∧
        SMap.get st.inDegree d 0 ≤ ((SMap.get adj0 cur.name []).count d : Int))) ∧
      (kahnStep st cur).taskMap = tm0 ∧
      (∀ k, SMap.get (kahnStep st cur).adjList k [] = SMap.get adj0 k []) ∧
      (kahnStep st cur).emitted = st.emitted ++ [cur] ∧
      (∀ b, SMap.get (kahnStep st cur).inDegree b 0
        = SMap.get st.inDegree b 0 - ((SMap.get adj0 cur.name []).count b : Int)) ∧
      ((kahnStep st cur).emitted ++ (kahnStep st cur).minHeap).Perm
        ((st.emitted ++ st.minHeap) ++ pushed.map (fun d => SMap.get tm0 d Task.blank)) := by
  subst htm
  have hds : SMap.get adj0 cur.name [] = SMap.get st.adjList cur.name [] := (hreads _).symm
  rw [hds]
  obtain ⟨pushed, p1, p2, p3, p4, p5, p6, p7⟩ := relaxStep_foldl_spec
    (SMap.get st.adjList cur.name [])
    { st with
      minHeap := st.minHeap.erase cur
      emitted := st.emitted ++ [cur]
      adjList := SMap.touch st.adjList cur.name [] }
    (fun d hd => by
      rw [← hds] at hd
      exact hreg _ _ hd)
  have e1 : (kahnStep st cur).emitted = st.emitted ++ [cur] := p6
  have e2 : (kahnStep st cur).minHeap
      = st.minHeap.erase cur ++ pushed.map (fun d => SMap.get st.taskMap d Task.blank) := p1
  refine ⟨pushed, e2, p2, p3, p4, ?_, e1, p7, ?_⟩
  · intro k
    have : (kahnStep st cur).adjList = SMap.touch st.adjList cur.name [] := p5
    rw [this, SMap.get_touch]
    exact hreads k
  · rw [e1, e2]
    have hp : (cur :: st.minHeap.erase cur).Perm st.minHeap := (List.perm_cons_erase hcur).symm
    have e3 : (st.emitted ++ [cur]) ++ (st.minHeap.erase cur
          ++ pushed.map (fun d => SMap.get st.taskMap d Task.blank))
        = (st.emitted ++ (cur :: st.minHeap.erase cur))
          ++ pushed.map (fun d => SMap.get st.taskMap d Task.blank) := by
      simp
    rw [e3]
    exact List.Perm.append_right _ (List.Perm.append_left _ hp)

/-- One round of the scheduling loop keeps the emitted and queued tasks registered, spent
and without repetition. -/
theorem kahnStep_queued (tm0 : SMap Task) (adj0 : SMap (List String)) (hwk : WellKeyed tm0)
    (hreg : ∀ a b, b ∈ SMap.get adj0 a [] → SMap.find tm0 b ≠ none)
    (st : KahnState) (cur : Task) (hq : Queued tm0 adj0 st)
    (htop : heapTop st.minHeap = some cur) : Queued tm0 adj0 (kahnStep st cur) := by
  have hcur := heapTop_mem htop
  obtain ⟨pushed, k1, k2, k3, k4, k5, k6, k7, k8⟩ :=
    kahnStep_spec tm0 adj0 st cur hq.taskMap_eq hq.reads hreg hcur
  have hpushed : ∀ t, t ∈ pushed.map (fun d => SMap.get tm0 d Task.blank) →
      SMap.find tm0 t.name = some t ∧ t.name ∈ pushed := by
    intro t ht
    obtain ⟨d, hd, hdt⟩ := List.mem_map.mp ht
    have hcount := ((k3 d).mp hd)
    have hmem : d ∈ SMap.get adj0 cur.name [] := by
      apply List.count_pos_iff.mp
      have : (0 : Int) < ((SMap.get adj0 cur.name []).count d : Int) := by omega
      exact_mod_cast this
    have hfind := hreg _ _ hmem
    cases hf : SMap.find tm0 d with
    | none => exact absurd hf hfind
    | some t1 =>
      have ht1 : t = t1 := by
        rw [← hdt]
        simp [SMap.get, hf]
      have hname := hwk.name_of_find hf
      rw [ht1, hname]
      exact ⟨hf, hd⟩
  refine ⟨k4, k5, ?_, ?_, ?_⟩
  · intro t ht
    rcases List.mem_append.mp ((k8.mem_iff).mp ht) with h | h
    · exact hq.registered t h
    · exact (hpushed t h).1
  · intro t ht
    rw [k7]
    have hnn : (0 : Int) ≤ ((SMap.get adj0 cur.name []).count t.name : Int) :=
      Int.natCast_nonneg _
    rcases List.mem_append.mp ((k8.mem_iff).mp ht) with h | h
    · have := hq.spent t h
      omega
    · have := (k3 t.name).mp (hpushed t h).2
      omega
  · rw [k8.nodup_iff, List.nodup_append]
    refine ⟨hq.nodup, ?_, ?_⟩
    · apply List.Nodup.of_map Task.name
      have : List.map Task.name (pushed.map (fun d => SMap.get tm0 d Task.blank)) = pushed := by
        rw [List.map_map]
        conv_rhs => rw [← List.map_id pushed]
        apply List.map_congr_left
        intro d hd
        have ht : SMap.get tm0 d Task.blank ∈ pushed.map (fun d => SMap.get tm0 d Task.blank) :=
          List.mem_map.mpr ⟨d, hd, rfl⟩
        have hcount := ((k3 d).mp hd)
        have hmem : d ∈ SMap.get adj0 cur.name [] := by
          apply List.count_pos_iff.mp
          have : (0 : Int) < ((SMap.get adj0 cur.name []).count d : Int) := by omega
          exact_mod_cast this
        have hfind := hreg _ _ hmem
        cases hf : SMap.find tm0 d with
        | none => exact absurd hf hfind
        | some t1 =>
          simp only [Function.comp, SMap.get, hf, Option.getD_some, id]
          exact hwk.name_of_find hf
      rw [this]
      exact k2
    · intro t h1 h2
      have hs := hq.spent t h1
      have := (k3 t.name).mp (hpushed t h2).2
      omega

/-! ## The scheduling loop on consistent indices -/

theorem pending_snoc (em : List String) (c : String) (deps : List String) (hc : c ∉ em) :
    pending (em ++ [c]) deps + deps.count c = pending em deps := by
  induction deps with
  | nil => simp [pending]
  | cons a deps ih =>
    unfold pending at ih ⊢
    rw [List.filter_cons, List.filter_cons, List.count_cons]
    by_cases hac : a = c
    · subst hac
      have e1 : decide (a ∉ em ++ [a]) = false := by simp
      have e2 : decide (a ∉ em) = true := by simp [hc]
      rw [e1, e2]
      simp only [Bool.false_eq_true, if_false, if_true, List.length_cons, beq_self_eq_true]
      omega
    · have hca : ¬ (a == c) = true := by simpa using hac
      by_cases hae : a ∈ em
      · have e1 : decide (a ∉ em ++ [c]) = false := by simp [hae]
        have e2 : decide (a ∉ em) = false := by simp [hae]
        rw [e1, e2]
        simp only [Bool.false_eq_true, if_false, hca]
        omega
      · have e1 : decide (a ∉ em ++ [c]) = true := by simp [hae, hac]
        have e2 : decide (a ∉ em) = true := by simp [hae]
        rw [e1, e2]
        simp only [if_true, List.length_cons, hca, if_false, Bool.false_eq_true]
        omega

theorem pending_eq_zero (em deps : List String) (h : pending em deps = 0) :
    ∀ a, a ∈ deps → a ∈ em := by
  intro a ha
  by_contra hn
  have hmem : a ∈ deps.filter (fun a => decide (a ∉ em)) :=
    List.mem_filter.mpr ⟨ha, by simpa using hn⟩
  have hpos := List.length_pos_of_mem hmem
  unfold pending at h
  omega

theorem pending_zero_of_subset (em deps : List String) (h : ∀ a, a ∈ deps → a ∈ em) :
    pending em deps = 0 := by
  unfold pending
  rw [List.length_eq_zero, List.filter_eq_nil_iff]
  intro a ha
  simpa using h a ha

theorem pending_nil (deps : List String) : pending [] deps = deps.length := by
  unfold pending
  congr 1
  rw [List.filter_eq_self]
  intro a _
  simp

theorem snoc_eq_split {α : Type} (l : List α) (c : α) (pre : List α) (x : α) (post : List α)
    (h : l ++ [c] = pre ++ x :: post) :
    (post = [] ∧ x = c ∧ pre = l) ∨ ∃ post0, post = post0 ++ [c] ∧ l = pre ++ x :: post0 := by
  rcases List.eq_nil_or_concat post with hp | ⟨L, b, hp⟩
  · subst hp
    have := List.append_inj' h (by simp)
    left
    refine ⟨rfl, ?_, this.1.symm⟩
    have h2 := this.2
    simp only [List.cons.injEq, and_true] at h2
    exact h2.symm
  · right
    rw [List.concat_eq_append] at hp
    subst hp
    have h2 : l ++ [c] = (pre ++ x :: L) ++ [b] := by
      rw [h]
      simp
    have := List.append_inj' h2 (by simp)
    have h3 := this.2
    simp only [List.cons.injEq, and_true] at h3
    exact ⟨L, by rw [h3], this.1⟩

/-- An emitted or queued task is not emitted a second time: the task on top of the queue
is not among the emitted ones, by task or by name. -/
theorem Queued.top_fresh {tm0 : SMap Task} {adj0 : SMap (List String)} {st : KahnState}
    (hq : Queued tm0 adj0 st) {cur : Task} (hcur : cur ∈ st.minHeap) :
    cur ∉ st.emitted ∧ cur.name ∉ st.emitted.map Task.name := by
  have hdis := (List.nodup_append.mp hq.nodup).2.2
  have h1 : cur ∉ st.emitted := fun h => hdis h hcur
  refine ⟨h1, ?_⟩
  intro h
  obtain ⟨e, he, hen⟩ := List.mem_map.mp h
  have r1 := hq.registered e (List.mem_append_left _ he)
  have r2 := hq.registered cur (List.mem_append_right _ hcur)
  rw [hen, r2] at r1
  simp only [Option.some.injEq] at r1
  exact h1 (r1 ▸ he)

/-- One round of the scheduling loop keeps the counts equal to the numbers of dependencies
not yet emitted, and the emitted and queued tasks those of count 0. -/
theorem kahnStep_tracked (tm0 : SMap Task) (adj0 : SMap (List String)) (hwk : WellKeyed tm0)
    (hreg : ∀ a b, b ∈ SMap.get adj0 a [] → SMap.find tm0 b ≠ none)
    (hcnt : ∀ a b t, SMap.find tm0 b = some t →
      (SMap.get adj0 a []).count b = t.dependencies.count a)
    (st : KahnState) (cur : Task) (hq : Queued tm0 adj0 st) (ht : Tracked tm0 st)
    (htop : heapTop st.minHeap = some cur) : Tracked tm0 (kahnStep st cur) := by
  have hcur := heapTop_mem htop
  obtain ⟨pushed, k1, k2, k3, k4, k5, k6, k7, k8⟩ :=
    kahnStep_spec tm0 adj0 st cur hq.taskMap_eq hq.reads hreg hcur
  obtain ⟨_, hfresh⟩ := hq.top_fresh hcur
  have hcounts : ∀ b t, SMap.find tm0 b = some t →
      SMap.get (kahnStep st cur).inDegree b 0
        = (pending ((kahnStep st cur).emitted.map Task.name) t.dependencies : Int) := by
    intro b t hbt
    rw [k7 b, k6, ht.counts b t hbt, hcnt cur.name b t hbt]
    have := pending_snoc (st.emitted.map Task.name) cur.name t.dependencies hfresh
    simp only [List.map_append, List.map_cons, List.map_nil]
    omega
  refine ⟨hcounts, ?_⟩
  intro b t hbt
  have hname := hwk.name_of_find hbt
  have hnew := hcounts b t hbt
  have hold := ht.counts b t hbt
  have hstep := k7 b
  have hnn1 : (0 : Int) ≤ (pending ((kahnStep st cur).emitted.map Task.name) t.dependencies : Int) :=
    Int.natCast_nonneg _
  have hnn2 : (0 : Int) ≤ ((SMap.get adj0 cur.name []).count b : Int) := Int.natCast_nonneg _
  rw [k8.mem_iff, List.mem_append]
  constructor
  · rintro (h | h)
    · have := (ht.ready b t hbt).mp h
      omega
    · obtain ⟨d, hd, hdt⟩ := List.mem_map.mp h
      have hcount := (k3 d).mp hd
      have hmem : d ∈ SMap.get adj0 cur.name [] := by
        apply List.count_pos_iff.mp
        have : (0 : Int) < ((SMap.get adj0 cur.name []).count d : Int) := by omega
        exact_mod_cast this
      have hfind := hreg _ _ hmem
      cases hf : SMap.find tm0 d with
      | none => exact absurd hf hfind
      | some t1 =>
        have ht1 : t = t1 := by
          rw [← hdt]
          simp [SMap.get, hf]
        have hd2 : d = b := by
          rw [← hwk.name_of_find hf, ← ht1, hname]
        rw [hd2] at hcount
        omega
  · intro h0
    by_cases hz : SMap.get st.inDegree b 0 = 0
    · exact Or.inl ((ht.ready b t hbt).mpr hz)
    · right
      have hb : b ∈ pushed := (k3 b).mpr ⟨by omega, by omega⟩
      refine List.mem_map.mpr ⟨b, hb, ?_⟩
      simp [SMap.get, hbt]

/-- One round of the scheduling loop keeps the emitted tasks in topological order and in
the order of the frontier rule. -/
theorem kahnStep_ordered (tm0 : SMap Task) (adj0 : SMap (List String))
    (hreg : ∀ a b, b ∈ SMap.get adj0 a [] → SMap.find tm0 b ≠ none)
    (st : KahnState) (cur : Task) (hq : Queued tm0 adj0 st) (ht : Tracked tm0 st)
    (ho : Ordered tm0 st) (htop : heapTop st.minHeap = some cur) :
    Ordered tm0 (kahnStep st cur) := by
  have hcur := heapTop_mem htop
  obtain ⟨pushed, k1, k2, k3, k4, k5, k6, k7, k8⟩ :=
    kahnStep_spec tm0 adj0 st cur hq.taskMap_eq hq.reads hreg hcur
  obtain ⟨hfresh1, _⟩ := hq.top_fresh hcur
  have hcurreg := hq.registered cur (List.mem_append_right _ hcur)
  refine ⟨?_, ?_⟩
  · intro pre x post hsplit a ha
    rw [k6] at hsplit
    rcases snoc_eq_split _ _ _ _ _ hsplit with ⟨_, hx, hpre⟩ | ⟨post0, _, hem⟩
    · subst hx
      rw [hpre]
      have hz := (ht.ready x.name x hcurreg).mp (List.mem_append_right _ hcur)
      have hc := ht.counts x.name x hcurreg
      have hp : pending (st.emitted.map Task.name) x.dependencies = 0 := by
        have : (pending (st.emitted.map Task.name) x.dependencies : Int) = 0 := by omega
        exact_mod_cast this
      exact pending_eq_zero _ _ hp a ha
    · exact ho.topological pre x post0 hem a ha
  · intro pre x post hsplit t hcase hdeps
    rw [k6] at hsplit hcase
    rcases snoc_eq_split _ _ _ _ _ hsplit with ⟨hpost, hx, hpre⟩ | ⟨post0, hpost, hem⟩
    · subst hx
      subst hpost
      rw [hpre] at hdeps
      rcases hcase with h | ⟨hreg1, hnot⟩
      · exact absurd h (List.not_mem_nil t)
      · have hp := pending_zero_of_subset (st.emitted.map Task.name) t.dependencies hdeps
        have hc := ht.counts t.name t hreg1
        have hz : SMap.get st.inDegree t.name 0 = 0 := by
          rw [hc, hp]
          rfl
        have hin := (ht.ready t.name t hreg1).mpr hz
        rcases List.mem_append.mp hin with h1 | h1
        · exact absurd (List.mem_append_left _ h1) hnot
        · exact heapTop_before htop t h1
    · subst hpost
      apply ho.frontier pre x post0 hem t _ hdeps
      rcases hcase with h | ⟨hreg1, hnot⟩
      · rcases List.mem_append.mp h with h1 | h1
        · exact Or.inl h1
        · rw [List.mem_singleton] at h1
          subst h1
          exact Or.inr ⟨hcurreg, hfresh1⟩
      · exact Or.inr ⟨hreg1, fun h1 => hnot (List.mem_append_left _ h1)⟩

/-! ## The scheduling loop from start to end -/

theorem kahnLoop_heap_empty :
    ∀ fuel st st1, kahnLoop fuel st = some st1 → st1.minHeap = [] := by
  intro fuel
  induction fuel with
  | zero =>
    intro st st1 h
    simp only [kahnLoop] at h
    cases ht : heapTop st.minHeap with
    | none =>
      simp only [ht, Option.some.injEq] at h
      rw [← h]
      exact heapTop_eq_none ht
    | some cur => simp [ht] at h
  | succ fuel ih =>
    intro st st1 h
    simp only [kahnLoop] at h
    cases ht : heapTop st.minHeap with
    | none =>
      simp only [ht, Option.some.injEq] at h
      rw [← h]
      exact heapTop_eq_none ht
    | some cur =>
      simp only [ht] at h
      exact ih _ _ h

/-- The seeding loop and the scheduling loop end on every state. -/
theorem scheduleLoop_total (taskMap : SMap Task) (inDegree : SMap Int)
    (adjList : SMap (List String)) : ∃ k, scheduleLoop taskMap inDegree adjList = some k :=
  kahnLoop_total _ _ (le_refl _)

/-- The result of `executeTasks` after a passed cycle check is the result of the seeding
and scheduling loops; the error is the one of the guard on an empty queue. -/
theorem executeTasks_of_scheduleLoop (s : State) (d : DfsState) (k : KahnState)
    (hd : cycleCheck ((nodes s).length + 1) (SMap.keys s.taskMap) ⟨s.adjList, [], []⟩
      = some (false, d))
    (hk : scheduleLoop s.taskMap s.inDegree d.adjList = some k) :
    executeTasks s = some ⟨⟨k.taskMap, k.inDegree, k.adjList⟩,
      (if (s.taskMap.foldl seedStep (s.inDegree, [])).2.isEmpty
        then some ExecError.noExecutableTasks else none), k.emitted⟩ := by
  unfold executeTasks
  rw [hd]
  simp only
  unfold scheduleLoop at hk
  by_cases he : (s.taskMap.foldl seedStep (s.inDegree, [])).2.isEmpty = true
  · simp only [he, if_true]
    have hnil : (s.taskMap.foldl seedStep (s.inDegree, [])).2 = [] := List.isEmpty_iff.mp he
    have hk2 : kahnLoop
        (kahnFuel (s.taskMap.foldl seedStep (s.inDegree, [])).1
          (s.taskMap.foldl seedStep (s.inDegree, [])).2)
        ⟨s.taskMap, (s.taskMap.foldl seedStep (s.inDegree, [])).1, d.adjList,
          (s.taskMap.foldl seedStep (s.inDegree, [])).2, []⟩
        = some ⟨s.taskMap, (s.taskMap.foldl seedStep (s.inDegree, [])).1, d.adjList,
          (s.taskMap.foldl seedStep (s.inDegree, [])).2, []⟩ := by
      generalize kahnFuel (s.taskMap.foldl seedStep (s.inDegree, [])).1
          (s.taskMap.foldl seedStep (s.inDegree, [])).2 = fuel
      cases fuel <;> simp [kahnLoop, hnil, heapTop]
    rw [hk2] at hk
    simp only [Option.some.injEq] at hk
    rw [← hk]
  · simp only [he, if_false, Bool.false_eq_true]
    rw [hk]

theorem queued_initial (tm : SMap Task) (inDegree : SMap Int) (adj : SMap (List String))
    (hwk : WellKeyed tm) :
    Queued tm adj ⟨tm, (tm.foldl seedStep (inDegree, [])).1, adj,
      (tm.foldl seedStep (inDegree, [])).2, []⟩ := by
  obtain ⟨h1, h2⟩ := seedStep_foldl_spec tm (inDegree, [])
  simp only [List.nil_append] at h1 h2
  have hmem : ∀ t, t ∈ (tm.foldl seedStep (inDegree, [])).2 →
      ∃ e, e ∈ tm ∧ SMap.get inDegree e.1 0 = 0 ∧ e.2 = t := by
    intro t ht
    rw [h1] at ht
    obtain ⟨e, he, het⟩ := List.mem_map.mp ht
    obtain ⟨he1, he2⟩ := List.mem_filter.mp he
    exact ⟨e, he1, by simpa using he2, het⟩
  refine ⟨rfl, fun _ => rfl, ?_, ?_, ?_⟩
  · intro t ht
    simp only [List.nil_append] at ht
    obtain ⟨e, he, _, het⟩ := hmem t ht
    rw [← het]
    exact hwk.find_entry he
  · intro t ht
    simp only [List.nil_append] at ht
    obtain ⟨e, he, h0, het⟩ := hmem t ht
    simp only
    rw [h2, ← het, hwk.named e he, h0]
  · simp only [List.nil_append]
    rw [h1]
    exact List.Nodup.sublist (List.Sublist.map _ (List.filter_sublist _)) hwk.nodup_values

theorem tracked_initial (tm : SMap Task) (inDegree : SMap Int) (adj : SMap (List String))
    (hwk : WellKeyed tm)
    (hcounts : ∀ b t, SMap.find tm b = some t →
      SMap.get inDegree b 0 = (t.dependencies.length : Int)) :
    Tracked tm ⟨tm, (tm.foldl seedStep (inDegree, [])).1, adj,
      (tm.foldl seedStep (inDegree, [])).2, []⟩ := by
  obtain ⟨h1, h2⟩ := seedStep_foldl_spec tm (inDegree, [])
  simp only [List.nil_append] at h1 h2
  refine ⟨?_, ?_⟩
  · intro b t hbt
    simp only [List.map_nil]
    rw [h2, hcounts b t hbt, pending_nil]
  · intro b t hbt
    simp only [List.nil_append]
    rw [h2, h1]
    constructor
    · intro ht
      obtain ⟨e, he, het⟩ := List.mem_map.mp ht
      obtain ⟨he1, he2⟩ := List.mem_filter.mp he
      have hn : e.1 = b := by
        rw [← hwk.named e he1, het]
        exact hwk.name_of_find hbt
      rw [← hn]
      simpa using he2
    · intro h0
      refine List.mem_map.mpr ⟨(b, t), List.mem_filter.mpr ⟨SMap.find_some_mem tm b t hbt, ?_⟩, rfl⟩
      simpa using h0

theorem ordered_initial (tm : SMap Task) (inDegree : SMap Int) (adj : SMap (List String)) :
    Ordered tm ⟨tm, (tm.foldl seedStep (inDegree, [])).1, adj,
      (tm.foldl seedStep (inDegree, [])).2, []⟩ := by
  refine ⟨?_, ?_⟩
  · intro pre x post h
    simp at h
  · intro pre x post h
    simp at h

/-- On a registry keyed by name whose listed dependents are registered, whatever the
counts: the loops end with an empty queue, and the emitted tasks are registered tasks
without repetition. -/
theorem scheduleLoop_queued (tm : SMap Task) (inDegree : SMap Int) (adj : SMap (List String))
    (hwk : WellKeyed tm)
    (hreg : ∀ a b, b ∈ SMap.get adj a [] → SMap.find tm b ≠ none)
    (k : KahnState) (hk : scheduleLoop tm inDegree adj = some k) :
    Queued tm adj k ∧ k.minHeap = [] := by
  unfold scheduleLoop at hk
  refine ⟨?_, kahnLoop_heap_empty _ _ _ hk⟩
  exact kahnLoop_inv (Queued tm adj)
    (fun st cur hst htop => kahnStep_queued tm adj hwk hreg st cur hst htop)
    _ _ _ (queued_initial tm inDegree adj hwk) hk

/-- On consistent indices the loops end with the counts tracked and the emitted tasks in
order. -/
theorem scheduleLoop_tracked (tm : SMap Task) (inDegree : SMap Int) (adj : SMap (List String))
    (hwk : WellKeyed tm)
    (hreg : ∀ a b, b ∈ SMap.get adj a [] → SMap.find tm b ≠ none)
    (hcnt : ∀ a b t, SMap.find tm b = some t →
      (SMap.get adj a []).count b = t.dependencies.count a)
    (hcounts : ∀ b t, SMap.find tm b = some t →
      SMap.get inDegree b 0 = (t.dependencies.length : Int))
    (k : KahnState) (hk : scheduleLoop tm inDegree adj = some k) :
    Queued tm adj k ∧ Tracked tm k ∧ Ordered tm k := by
  unfold scheduleLoop at hk
  exact kahnLoop_inv (fun st => Queued tm adj st ∧ Tracked tm st ∧ Ordered tm st)
    (fun st cur hst htop =>
      ⟨kahnStep_queued tm adj hwk hreg st cur hst.1 htop,
       kahnStep_tracked tm adj hwk hreg hcnt st cur hst.1 hst.2.1 htop,
       kahnStep_ordered tm adj hreg st cur hst.1 hst.2.1 hst.2.2 htop⟩)
    _ _ _
    ⟨queued_initial tm inDegree adj hwk, tracked_initial tm inDegree adj hwk hcounts,
     ordered_initial tm inDegree adj⟩ hk

/-- In a finite set of names in which every name has a predecessor, some name lies on a
cycle. -/
theorem exists_cycle_of_predecessors (E : String → String → Prop) (U : List String)
    (u0 : String) (hu0 : u0 ∈ U) (hpred : ∀ b, b ∈ U → ∃ a, a ∈ U ∧ E a b) :
    ∃ c, c ∈ U ∧ Relation.TransGen E c c := by
  by_contra hno
  push_neg at hno
  let R : {x // x ∈ U} → {x // x ∈ U} → Prop := fun x y => Relation.TransGen E x.1 y.1
  haveI : IsTrans {x // x ∈ U} R := ⟨fun a b c h1 h2 => Relation.TransGen.trans h1 h2⟩
  haveI : IsIrrefl {x // x ∈ U} R := ⟨fun a h => hno a.1 a.2 h⟩
  have wf : WellFounded R := Finite.wellFounded_of_trans_of_irrefl R
  obtain ⟨m, _, hm⟩ := wf.has_min Set.univ ⟨⟨u0, hu0⟩, trivial⟩
  obtain ⟨a, ha, hE⟩ := hpred m.1 m.2
  exact hm ⟨a, ha⟩ trivial (Relation.TransGen.single hE)

/-- On consistent indices without a cycle through a registered task, the loops emit every
registered task. -/
theorem scheduleLoop_complete (tm : SMap Task) (inDegree : SMap Int) (adj : SMap (List String))
    (hwk : WellKeyed tm)
    (hreg : ∀ a b, b ∈ SMap.get adj a [] → SMap.find tm b ≠ none)
    (hcnt : ∀ a b t, SMap.find tm b = some t →
      (SMap.get adj a []).count b = t.dependencies.count a)
    (hcounts : ∀ b t, SMap.find tm b = some t →
      SMap.get inDegree b 0 = (t.dependencies.length : Int))
    (hdeps : ∀ b t, SMap.find tm b = some t → ∀ a, a ∈ t.dependencies → SMap.find tm a ≠ none)
    (hacyc : ∀ c, c ∈ SMap.keys tm → ¬ Relation.TransGen (Edge adj) c c)
    (k : KahnState) (hk : scheduleLoop tm inDegree adj = some k) :
    k.emitted.Perm (tm.map Prod.snd) := by
  obtain ⟨hq, ht, _⟩ := scheduleLoop_tracked tm inDegree adj hwk hreg hcnt hcounts k hk
  have hnil : k.minHeap = [] := (scheduleLoop_queued tm inDegree adj hwk hreg k hk).2
  have hnd : k.emitted.Nodup := by
    have := hq.nodup
    rw [hnil, List.append_nil] at this
    exact this
  have hall : ∀ b t, SMap.find tm b = some t → t ∈ k.emitted := by
    by_contra hex
    push_neg at hex
    obtain ⟨b0, t0, hb0, hnot0⟩ := hex
    -- the registered names whose task is not emitted
    have hpred : ∀ b, b ∈ (SMap.keys tm).filter
          (fun b => decide (SMap.get tm b Task.blank ∉ k.emitted)) →
        ∃ a, a ∈ (SMap.keys tm).filter
          (fun b => decide (SMap.get tm b Task.blank ∉ k.emitted)) ∧ Edge adj a b := by
      intro b hb
      obtain ⟨hb1, hb2⟩ := List.mem_filter.mp hb
      have hb3 : SMap.get tm b Task.blank ∉ k.emitted := by simpa using hb2
      have hfind := (SMap.mem_keys_iff tm b).mp hb1
      cases hf : SMap.find tm b with
      | none => exact absurd hf hfind
      | some t =>
        have hget : SMap.get tm b Task.blank = t := by simp [SMap.get, hf]
        rw [hget] at hb3
        have hne : SMap.get k.inDegree b 0 ≠ 0 := by
          intro h0
          have := (ht.ready b t hf).mpr h0
          rw [hnil, List.append_nil] at this
          exact hb3 this
        have hpend : pending (k.emitted.map Task.name) t.dependencies ≠ 0 := by
          intro hp
          apply hne
          rw [ht.counts b t hf, hp]
          rfl
        have hex2 : ∃ a, a ∈ t.dependencies ∧ a ∉ k.emitted.map Task.name := by
          by_contra hall
          push_neg at hall
          exact hpend (pending_zero_of_subset _ _ hall)
        obtain ⟨a, ha1, ha2⟩ := hex2
        have hafind := hdeps b t hf a ha1
        cases hfa : SMap.find tm a with
        | none => exact absurd hfa hafind
        | some ta =>
          have hgeta : SMap.get tm a Task.blank = ta := by simp [SMap.get, hfa]
          refine ⟨a, List.mem_filter.mpr ⟨(SMap.mem_keys_iff tm a).mpr hafind, ?_⟩, ?_⟩
          · rw [hgeta]
            simp only [decide_eq_true_eq]
            intro hin
            apply ha2
            exact List.mem_map.mpr ⟨ta, hin, hwk.name_of_find hfa⟩
          · unfold Edge
            apply List.count_pos_iff.mp
            rw [hcnt a b t hf]
            exact List.count_pos_iff.mpr ha1
    have hb0mem : b0 ∈ (SMap.keys tm).filter
        (fun b => decide (SMap.get tm b Task.blank ∉ k.emitted)) := by
      refine List.mem_filter.mpr ⟨(SMap.mem_keys_iff tm b0).mpr (by rw [hb0]; simp), ?_⟩
      have hget : SMap.get tm b0 Task.blank = t0 := by simp [SMap.get, hb0]
      rw [hget]
      simpa using hnot0
    obtain ⟨c, hc1, hc2⟩ := exists_cycle_of_predecessors (Edge adj) _ b0 hb0mem hpred
    exact hacyc c (List.mem_filter.mp hc1).1 hc2
  rw [List.perm_ext_iff_of_nodup hnd hwk.nodup_values]
  intro t
  constructor
  · intro hin
    have hr := hq.registered t (List.mem_append_left _ hin)
    exact List.mem_map.mpr ⟨(t.name, t), SMap.find_some_mem tm _ _ hr, rfl⟩
  · intro hin
    obtain ⟨e, he, het⟩ := List.mem_map.mp hin
    have := hall e.2.name e.2 (hwk.find_entry he)
    rw [het] at this
    exact this

/-! ## Reachable registries are keyed by task name -/

theorem SMap.keys_replace {V : Type} (m : SMap V) (k : String) (v : V) :
    SMap.keys (SMap.replace m k v) = SMap.keys m := by
  induction m with
  | nil => rfl
  | cons e m ih =>
    obtain ⟨k1, v1⟩ := e
    simp only [SMap.replace]
    split
    · rename_i h
      simp [SMap.keys, h]
    · simp only [SMap.keys, List.map_cons] at ih ⊢
      rw [ih]

theorem SMap.keys_insertNew {V : Type} (m : SMap V) (k : String) (v : V) :
    (SMap.keys (SMap.insertNew m k v)).Perm (k :: SMap.keys m) := by
  induction m with
  | nil => exact List.Perm.refl _
  | cons e m ih =>
    obtain ⟨k1, v1⟩ := e
    simp only [SMap.insertNew]
    split
    · exact List.Perm.refl _
    · simp only [SMap.keys, List.map_cons] at ih ⊢
      exact (List.Perm.cons k1 ih).trans (List.Perm.swap k k1 _)

theorem SMap.mem_replace {V : Type} (m : SMap V) (k : String) (v : V) (e : String × V)
    (h : e ∈ SMap.replace m k v) : e = (k, v) ∨ e ∈ m := by
  induction m with
  | nil => simp [SMap.replace] at h
  | cons e1 m ih =>
    obtain ⟨k1, v1⟩ := e1
    simp only [SMap.replace] at h
    split at h
    · rcases List.mem_cons.mp h with h1 | h1
      · exact Or.inl h1
      · exact Or.inr (List.mem_cons_of_mem _ h1)
    · rcases List.mem_cons.mp h with h1 | h1
      · exact Or.inr (h1 ▸ List.mem_cons_self _ _)
      · rcases ih h1 with h2 | h2
        · exact Or.inl h2
        · exact Or.inr (List.mem_cons_of_mem _ h2)

theorem SMap.mem_insertNew {V : Type} (m : SMap V) (k : String) (v : V) (e : String × V)
    (h : e ∈ SMap.insertNew m k v) : e = (k, v) ∨ e ∈ m := by
  induction m with
  | nil =>
    simp only [SMap.insertNew, List.mem_singleton] at h
    exact Or.inl h
  | cons e1 m ih =>
    obtain ⟨k1, v1⟩ := e1
    simp only [SMap.insertNew] at h
    split at h
    · rcases List.mem_cons.mp h with h1 | h1
      · exact Or.inl h1
      · exact Or.inr h1
    · rcases List.mem_cons.mp h with h1 | h1
      · exact Or.inr (h1 ▸ List.mem_cons_self _ _)
      · rcases ih h1 with h2 | h2
        · exact Or.inl h2
        · exact Or.inr (List.mem_cons_of_mem _ h2)

theorem SMap.mem_assign {V : Type} (m : SMap V) (k : String) (v : V) (e : String × V)
    (h : e ∈ SMap.assign m k v) : e = (k, v) ∨ e ∈ m := by
  unfold SMap.assign at h
  split at h
  · exact SMap.mem_replace m k v e h
  · exact SMap.mem_insertNew m k v e h

theorem SMap.nodup_keys_assign {V : Type} (m : SMap V) (k : String) (v : V)
    (h : (SMap.keys m).Nodup) : (SMap.keys (SMap.assign m k v)).Nodup := by
  unfold SMap.assign
  cases hf : SMap.find m k with
  | some x =>
    simp only
    rw [SMap.keys_replace]
    exact h
  | none =>
    simp only
    rw [(SMap.keys_insertNew m k v).nodup_iff, List.nodup_cons]
    refine ⟨?_, h⟩
    intro hk
    exact (SMap.mem_keys_iff m k).mp hk hf

theorem wellKeyed_assign (tm : SMap Task) (t : Task) (h : WellKeyed tm) :
    WellKeyed (SMap.assign tm t.name t) := by
  refine ⟨SMap.nodup_keys_assign tm t.name t h.nodup, ?_⟩
  intro e he
  rcases SMap.mem_assign tm t.name t e he with h1 | h1
  · rw [h1]
  · exact h.named e h1

theorem wellKeyed_nil : WellKeyed [] :=
  ⟨List.nodup_nil, fun e he => absurd he (List.not_mem_nil e)⟩

theorem addTask_wellKeyed (s : State) (name : String) (priority deadline : Int)
    (deps : List String) (hs : WellKeyed s.taskMap) :
    WellKeyed (addTask s name priority deadline deps).1.taskMap := by
  cases hf : SMap.find s.taskMap name with
  | some t =>
    rw [addTask_duplicate s name priority deadline deps (by rw [hf]; exact Option.some_ne_none t)]
    exact hs
  | none =>
    obtain ⟨_, h2, _, _, _⟩ := addTask_new s name priority deadline deps hf
    rw [h2]
    exact wellKeyed_assign s.taskMap ⟨name, priority, deadline, retained s.taskMap deps⟩ hs

theorem loadRecord_taskMap (s : State) (t : Task) :
    (loadRecord s t).taskMap = SMap.assign s.taskMap t.name t := rfl

theorem loadRecord_foldl_wellKeyed (records : List Task) :
    ∀ s, WellKeyed s.taskMap → WellKeyed (records.foldl loadRecord s).taskMap := by
  induction records with
  | nil => intro s h; exact h
  | cons t records ih =>
    intro s h
    simp only [List.foldl_cons]
    apply ih
    rw [loadRecord_taskMap]
    exact wellKeyed_assign s.taskMap t h

/-- In every reachable state no key of the registry occurs twice and every task is stored
under its own name. -/
theorem reachable_wellKeyed (s : State) (h : Reachable s) : WellKeyed s.taskMap := by
  induction h with
  | start => exact wellKeyed_nil
  | add name priority deadline deps _ ih => exact addTask_wellKeyed _ name priority deadline deps ih
  | load jArray _ ih =>
    cases jArray with
    | none => exact ih
    | some records => exact loadRecord_foldl_wellKeyed records State.empty wellKeyed_nil
  | exec hr he ih =>
    obtain ⟨h1, _, _⟩ := executeTasks_frame _ (reachable_registered _ hr) _ he
    rw [h1]
    exact ih

theorem addAll_reachable (reqs : List AddRequest) : Reachable (addAll reqs) := by
  have key : ∀ (qs : List AddRequest) (s : State), Reachable s →
      Reachable (qs.foldl (fun s q => (addTask s q.name q.priority q.deadline q.deps).1) s) := by
    intro qs
    induction qs with
    | nil => intro s h; exact h
    | cons q qs ih =>
      intro s h
      exact ih _ (Reachable.add q.name q.priority q.deadline q.deps h)
  exact key reqs State.empty Reachable.start

/-! ## Registries built by `addTask` have consistent indices -/

theorem addTask_dependents_count (s : State) (name : String) (priority deadline : Int)
    (deps : List String) (hinv : AddInv s)
    (hs : (∀ a b t, SMap.find s.taskMap b = some t →
        (SMap.get s.adjList a []).count b = t.dependencies.count a) ∧ DepsRegistered s) :
    (∀ a b t, SMap.find (addTask s name priority deadline deps).1.taskMap b = some t →
      (SMap.get (addTask s name priority deadline deps).1.adjList a []).count b
        = t.dependencies.count a) ∧
    DepsRegistered (addTask s name priority deadline deps).1 := by
  cases hf : SMap.find s.taskMap name with
  | some t =>
    rw [addTask_duplicate s name priority deadline deps (by rw [hf]; exact Option.some_ne_none t)]
    exact hs
  | none =>
    obtain ⟨hc, hd⟩ := hs
    obtain ⟨_, h2, _, _, h5⟩ := addTask_new s name priority deadline deps hf
    have hold : ∀ k, SMap.find s.taskMap k ≠ none → k ≠ name := by
      intro k hk he
      rw [he] at hk
      exact hk hf
    have hret : ∀ a, a ∈ retained s.taskMap deps → SMap.find s.taskMap a ≠ none := by
      intro a ha
      have := (List.mem_filter.mp ha).2
      intro hn
      simp [hn] at this
    have hkeep : ∀ k, SMap.find s.taskMap k ≠ none →
        SMap.find (SMap.assign s.taskMap name
          ⟨name, priority, deadline, retained s.taskMap deps⟩) k ≠ none := by
      intro k hk
      rw [SMap.find_assign_ne _ _ _ _ (hold k hk)]
      exact hk
    refine ⟨?_, ?_⟩
    · intro a b t hbt
      rw [h5 a, List.count_append, List.count_replicate]
      rw [h2] at hbt
      by_cases hbn : b = name
      · subst hbn
        rw [SMap.find_assign_self] at hbt
        simp only [Option.some.injEq] at hbt
        have hnot : b ∉ SMap.get s.adjList a [] := by
          intro hin
          obtain ⟨t1, ht1, _⟩ := hinv.dependents a b hin
          rw [hf] at ht1
          exact Option.noConfusion ht1
        rw [List.count_eq_zero_of_not_mem hnot, ← hbt]
        simp
      · rw [SMap.find_assign_ne _ _ _ _ hbn] at hbt
        have hne : ¬ (name == b) = true := by
          simpa using fun h : name = b => hbn h.symm
        simp only [hne, if_false, Bool.false_eq_true, add_zero]
        exact hc a b t hbt
    · intro b t hbt a ha
      rw [h2] at hbt ⊢
      by_cases hbn : b = name
      · subst hbn
        rw [SMap.find_assign_self] at hbt
        simp only [Option.some.injEq] at hbt
        rw [← hbt] at ha
        exact hkeep a (hret a ha)
      · rw [SMap.find_assign_ne _ _ _ _ hbn] at hbt
        exact hkeep a (hd b t hbt a ha)

/-- A registry built by `addTask` calls has consistent indices, and every dependency of
its tasks is registered. -/
theorem addAll_indexed (reqs : List AddRequest) :
    Indexed (addAll reqs) ∧ DepsRegistered (addAll reqs) := by
  have key : ∀ (qs : List AddRequest) (s : State),
      (AddInv s ∧ (∀ a b t, SMap.find s.taskMap b = some t →
        (SMap.get s.adjList a []).count b = t.dependencies.count a) ∧ DepsRegistered s) →
      (AddInv (qs.foldl (fun s q => (addTask s q.name q.priority q.deadline q.deps).1) s) ∧
        (∀ a b t, SMap.find
            (qs.foldl (fun s q => (addTask s q.name q.priority q.deadline q.deps).1) s).taskMap b
              = some t →
          (SMap.get
            (qs.foldl (fun s q => (addTask s q.name q.priority q.deadline q.deps).1) s).adjList
              a []).count b = t.dependencies.count a) ∧
        DepsRegistered
          (qs.foldl (fun s q => (addTask s q.name q.priority q.deadline q.deps).1) s)) := by
    intro qs
    induction qs with
    | nil => intro s h; exact h
    | cons q qs ih =>
      intro s h
      exact ih _ ⟨addTask_addInv s q.name q.priority q.deadline q.deps h.1,
        addTask_dependents_count s q.name q.priority q.deadline q.deps h.1 h.2⟩
  obtain ⟨h1, h2, h3⟩ := key reqs State.empty
    ⟨addInv_empty, fun a b t h => by simp [State.empty, SMap.find] at h,
     fun b t h => by simp [State.empty, SMap.find] at h⟩
  unfold addAll
  refine ⟨⟨?_, h2, ?_⟩, h3⟩
  · intro a b hb
    obtain ⟨t, ht, _⟩ := h1.dependents a b hb
    rw [ht]
    exact Option.some_ne_none t
  · intro b t hbt
    have := h1.counts b
    rw [hbt] at this
    exact this

/-! ## `executeTasks` on consistent indices -/

theorem edge_congr (adj1 adj2 : SMap (List String))
    (h : ∀ k, SMap.get adj1 k [] = SMap.get adj2 k []) : Edge adj1 = Edge adj2 := by
  funext a b
  unfold Edge
  rw [h a]

/-- On consistent indices `executeTasks` returns, and the tasks it emits are those of a
run of the scheduling loop that ends in order. -/
theorem executeTasks_ordered (s : State) (hwk : WellKeyed s.taskMap) (hidx : Indexed s) :
    ∃ r k, executeTasks s = some r ∧ r.emitted = k.emitted ∧ Ordered s.taskMap k := by
  obtain ⟨b, d, hd⟩ := cycleCheck_total s
  cases b with
  | true =>
    refine ⟨⟨{ s with adjList := d.adjList }, some ExecError.circularDependency, []⟩,
      ⟨s.taskMap, (s.taskMap.foldl seedStep (s.inDegree, [])).1, s.adjList,
        (s.taskMap.foldl seedStep (s.inDegree, [])).2, []⟩, ?_, rfl,
      ordered_initial s.taskMap s.inDegree s.adjList⟩
    unfold executeTasks
    rw [hd]
  | false =>
    have hfr := cycleCheck_frame _ _ _ _ _ hd
    obtain ⟨k, hk⟩ := scheduleLoop_total s.taskMap s.inDegree d.adjList
    obtain ⟨_, _, ho⟩ := scheduleLoop_tracked s.taskMap s.inDegree d.adjList hwk
      (fun a b hb => hidx.dependents_registered a b (by rw [← hfr.1 a]; exact hb))
      (fun a b t hbt => by rw [hfr.1 a]; exact hidx.dependents_count a b t hbt)
      hidx.counts k hk
    exact ⟨_, k, executeTasks_of_scheduleLoop s d k hd hk, rfl, ho⟩

/-- On consistent indices every dependency of an emitted task is emitted before it. -/
theorem executeTasks_topological (s : State) (hwk : WellKeyed s.taskMap) (hidx : Indexed s) :
    ∃ r, executeTasks s = some r ∧
      ∀ pre x post, r.emitted = pre ++ x :: post →
        ∀ a, a ∈ x.dependencies → a ∈ pre.map Task.name := by
  obtain ⟨r, k, hr, he, ho⟩ := executeTasks_ordered s hwk hidx
  refine ⟨r, hr, ?_⟩
  intro pre x post hsplit a ha
  rw [he] at hsplit
  exact ho.topological pre x post hsplit a ha

/-- On consistent indices whose dependencies are registered, after a passed cycle check,
`executeTasks` emits a permutation of the registered tasks. -/
theorem executeTasks_complete (s : State) (hwk : WellKeyed s.taskMap) (hidx : Indexed s)
    (hdeps : DepsRegistered s) (hpass : cycleCheckPasses s = true) :
    ∃ r, executeTasks s = some r ∧ r.emitted.Perm (s.taskMap.map Prod.snd) ∧
      (s.taskMap ≠ [] → r.error = none) := by
  obtain ⟨d, hd⟩ := (cycleCheckPasses_iff s).mp hpass
  have hfr := cycleCheck_frame _ _ _ _ _ hd
  obtain ⟨k, hk⟩ := scheduleLoop_total s.taskMap s.inDegree d.adjList
  have hexec := executeTasks_of_scheduleLoop s d k hd hk
  have hedge : Edge d.adjList = Edge s.adjList := edge_congr _ _ hfr.1
  have hperm := scheduleLoop_complete s.taskMap s.inDegree d.adjList hwk
    (fun a b hb => hidx.dependents_registered a b (by rw [← hfr.1 a]; exact hb))
    (fun a b t hbt => by rw [hfr.1 a]; exact hidx.dependents_count a b t hbt)
    hidx.counts hdeps
    (fun c hc => by
      rw [hedge]
      exact cycleCheck_false_acyclic s _ d hd c hc)
    k hk
  refine ⟨_, hexec, hperm, ?_⟩
  intro hne
  by_cases he : (s.taskMap.foldl seedStep (s.inDegree, [])).2.isEmpty = true
  · exfalso
    have h2 : executeTasks s = some ⟨⟨s.taskMap, (s.taskMap.foldl seedStep (s.inDegree, [])).1,
        d.adjList⟩, some ExecError.noExecutableTasks, []⟩ := by
      unfold executeTasks
      rw [hd]
      simp [he]
    rw [hexec] at h2
    simp only [Option.some.injEq, ExecResult.mk.injEq] at h2
    have hnil : k.emitted = [] := h2.2.2
    rw [hnil] at hperm
    have := hperm.length_eq
    simp only [List.length_nil, List.length_map] at this
    exact hne (List.length_eq_zero.mp this.symm)
  · simp only [he, Bool.false_eq_true, if_false]

/-! ## Saving and loading -/

theorem getStrings_map_str (l : List String) : getStrings (l.map Json.str) = some l := by
  induction l with
  | nil => rfl
  | cons a l ih => simp [getStrings, Json.getString, ih]

theorem fromJson_toJson (t : Task) : Task.fromJson (Task.toJson t) = some t := by
  simp [Task.fromJson, Task.toJson, Json.atKey, Json.getString, Json.getInt,
    Json.getStringArray, getStrings_map_str]

theorem readRecords_map_toJson (ts : List Task) :
    readRecords (ts.map Task.toJson) = some ts := by
  induction ts with
  | nil => rfl
  | cons t ts ih => simp [readRecords, fromJson_toJson, ih]

theorem loadRecord_foldl_find (m : SMap Task) :
    ∀ (s : State), (SMap.keys m).Nodup → (∀ e, e ∈ m → e.2.name = e.1) →
      ∀ k, SMap.find ((m.map Prod.snd).foldl loadRecord s).taskMap k
        = if k ∈ SMap.keys m then SMap.find m k else SMap.find s.taskMap k := by
  induction m with
  | nil =>
    intro s _ _ k
    simp [SMap.keys]
  | cons e m ih =>
    obtain ⟨k1, t1⟩ := e
    intro s hnd hnamed k
    simp only [SMap.keys, List.map_cons, List.nodup_cons] at hnd
    have hn1 : t1.name = k1 := hnamed (k1, t1) (List.mem_cons_self _ _)
    simp only [List.map_cons, List.foldl_cons]
    rw [ih (loadRecord s t1) hnd.2 (fun e he => hnamed e (List.mem_cons_of_mem _ he)) k]
    rw [loadRecord_taskMap, SMap.find_assign, hn1]
    simp only [SMap.keys, List.map_cons, List.mem_cons, SMap.find]
    by_cases hk : k = k1
    · subst hk
      have hnot : k ∉ List.map Prod.fst m := hnd.1
      simp [hnot]
    · have hk2 : ¬ k1 = k := fun h => hk h.symm
      simp only [hk, hk2, if_false, false_or]

theorem SMap.nodup_of_keys {V : Type} (m : SMap V) (h : (SMap.keys m).Nodup) : m.Nodup :=
  List.Nodup.of_map Prod.fst h

theorem SMap.mem_iff_find {V : Type} (m : SMap V) (h : (SMap.keys m).Nodup) (e : String × V) :
    e ∈ m ↔ SMap.find m e.1 = some e.2 :=
  ⟨fun he => SMap.find_of_mem m h e.1 e.2 he, fun hf => SMap.find_some_mem m e.1 e.2 hf⟩

/-- Loading the tasks of a registry keyed by name gives the same registry back, up to the
order of the entries. -/
theorem load_values (tm : SMap Task) (hwk : WellKeyed tm) (s0 : State) :
    (∀ k, SMap.find (loadTasksFromJson s0 (some (tm.map Prod.snd))).1.taskMap k
      = SMap.find tm k) ∧
    (loadTasksFromJson s0 (some (tm.map Prod.snd))).1.taskMap.Perm tm := by
  have hfind : ∀ k, SMap.find (loadTasksFromJson s0 (some (tm.map Prod.snd))).1.taskMap k
      = SMap.find tm k := by
    intro k
    simp only [loadTasksFromJson]
    rw [loadRecord_foldl_find tm State.empty hwk.nodup hwk.named k]
    by_cases hk : k ∈ SMap.keys tm
    · simp [hk]
    · simp only [hk, if_false]
      have : SMap.find tm k = none := by
        by_contra hne
        exact hk ((SMap.mem_keys_iff tm k).mpr hne)
      rw [this]
      rfl
  refine ⟨hfind, ?_⟩
  have hwk2 : WellKeyed (loadTasksFromJson s0 (some (tm.map Prod.snd))).1.taskMap :=
    loadRecord_foldl_wellKeyed _ State.empty wellKeyed_nil
  rw [List.perm_ext_iff_of_nodup (SMap.nodup_of_keys _ hwk2.nodup)
    (SMap.nodup_of_keys _ hwk.nodup)]
  intro e
  rw [SMap.mem_iff_find _ hwk2.nodup, SMap.mem_iff_find _ hwk.nodup, hfind]

/-! ## The order of the keys -/

theorem lexLt_irrefl (l : List Nat) : lexLt l l = false := by
  induction l with
  | nil => rfl
  | cons x l ih => simp [lexLt, ih]

theorem lexLt_trans : ∀ (a b c : List Nat), lexLt a b = true → lexLt b c = true →
    lexLt a c = true := by
  intro a
  induction a with
  | nil =>
    intro b c h1 h2
    cases b with
    | nil => simp [lexLt] at h1
    | cons y b =>
      cases c with
      | nil => simp [lexLt] at h2
      | cons z c => rfl
  | cons x a ih =>
    intro b c h1 h2
    cases b with
    | nil => simp [lexLt] at h1
    | cons y b =>
      cases c with
      | nil => simp [lexLt] at h2
      | cons z c =>
        simp only [lexLt, Bool.or_eq_true, decide_eq_true_eq, Bool.and_eq_true] at h1 h2 ⊢
        rcases h1 with h1 | ⟨h1, h1'⟩
        · rcases h2 with h2 | ⟨h2, _⟩
          · exact Or.inl (lt_trans h1 h2)
          · exact Or.inl (h2 ▸ h1)
        · rcases h2 with h2 | ⟨h2, h2'⟩
          · exact Or.inl (h1 ▸ h2)
          · exact Or.inr ⟨h1.trans h2, ih b c h1' h2'⟩

theorem lexLt_total : ∀ (a b : List Nat), a ≠ b → lexLt a b = true ∨ lexLt b a = true := by
  intro a
  induction a with
  | nil =>
    intro b h
    cases b with
    | nil => exact absurd rfl h
    | cons y b => exact Or.inl rfl
  | cons x a ih =>
    intro b h
    cases b with
    | nil => exact Or.inr rfl
    | cons y b =>
      simp only [lexLt, Bool.or_eq_true, decide_eq_true_eq, Bool.and_eq_true]
      rcases lt_trichotomy x y with hxy | hxy | hxy
      · exact Or.inl (Or.inl hxy)
      · have hab : a ≠ b := by
          intro he
          exact h (by rw [hxy, he])
        rcases ih b hab with h1 | h1
        · exact Or.inl (Or.inr ⟨hxy, h1⟩)
        · exact Or.inr (Or.inr ⟨hxy.symm, h1⟩)
      · exact Or.inr (Or.inl hxy)

theorem codes_injective (a b : String)
    (h : a.data.map Char.toNat = b.data.map Char.toNat) : a = b := by
  apply String.ext
  have key : ∀ (l1 l2 : List Char), l1.map Char.toNat = l2.map Char.toNat → l1 = l2 := by
    intro l1
    induction l1 with
    | nil =>
      intro l2 h
      cases l2 with
      | nil => rfl
      | cons c l2 => simp at h
    | cons c l1 ih =>
      intro l2 h
      cases l2 with
      | nil => simp at h
      | cons c2 l2 =>
        simp only [List.map_cons, List.cons.injEq] at h
        have hc : c = c2 := by
          rw [← Char.ofNat_toNat c, ← Char.ofNat_toNat c2, h.1]
        rw [hc, ih l2 h.2]
  exact key _ _ h

theorem strLt_irrefl (a : String) : strLt a a = false := lexLt_irrefl _

theorem strLt_trans (a b c : String) (h1 : strLt a b = true) (h2 : strLt b c = true) :
    strLt a c = true := lexLt_trans _ _ _ h1 h2

theorem strLt_asymm (a b : String) (h : strLt a b = true) : strLt b a = false := by
  by_contra hn
  have h2 : strLt b a = true := by simpa using hn
  have := strLt_trans a b a h h2
  rw [strLt_irrefl] at this
  exact Bool.noConfusion this

theorem strLt_total (a b : String) (h : a ≠ b) : strLt a b = true ∨ strLt b a = true :=
  lexLt_total _ _ (fun he => h (codes_injective a b he))

/-! ## Reachable registries are in key order -/

theorem SMap.sorted_insertNew {V : Type} (m : SMap V) (k : String) (v : V)
    (hs : SMap.Sorted m) (hk : SMap.find m k = none) : SMap.Sorted (SMap.insertNew m k v) := by
  induction m with
  | nil => simp [SMap.Sorted, SMap.insertNew, SMap.keys]
  | cons e m ih =>
    obtain ⟨k1, v1⟩ := e
    have hne : k1 ≠ k := by
      intro he
      simp [SMap.find, he] at hk
    have hk2 : SMap.find m k = none := by
      simp only [SMap.find, hne, if_false] at hk
      exact hk
    unfold SMap.Sorted at hs ih ⊢
    simp only [SMap.keys, List.map_cons, List.pairwise_cons] at hs ih
    simp only [SMap.insertNew]
    by_cases hlt : strLt k k1 = true
    · simp only [hlt, if_true, SMap.keys, List.map_cons, List.pairwise_cons, List.mem_cons]
      refine ⟨?_, hs⟩
      intro x hx
      rcases hx with hx | hx
      · rw [hx]
        exact hlt
      · exact strLt_trans k k1 x hlt (hs.1 x hx)
    · simp only [hlt, Bool.false_eq_true, if_false, SMap.keys, List.map_cons,
        List.pairwise_cons]
      refine ⟨?_, ih hs.2 hk2⟩
      intro x hx
      have hx2 : x ∈ k :: SMap.keys m := (SMap.keys_insertNew m k v).mem_iff.mp hx
      rcases List.mem_cons.mp hx2 with hx3 | hx3
      · rw [hx3]
        rcases strLt_total k1 k hne with h | h
        · exact h
        · exact absurd h hlt
      · exact hs.1 x hx3

theorem SMap.sorted_assign {V : Type} (m : SMap V) (k : String) (v : V)
    (hs : SMap.Sorted m) : SMap.Sorted (SMap.assign m k v) := by
  unfold SMap.assign
  cases hf : SMap.find m k with
  | some x =>
    simp only
    unfold SMap.Sorted
    rw [SMap.keys_replace]
    exact hs
  | none => exact SMap.sorted_insertNew m k v hs hf

theorem loadRecord_foldl_sorted (records : List Task) :
    ∀ s, SMap.Sorted s.taskMap → SMap.Sorted (records.foldl loadRecord s).taskMap := by
  induction records with
  | nil => intro s h; exact h
  | cons t records ih =>
    intro s h
    simp only [List.foldl_cons]
    apply ih
    rw [loadRecord_taskMap]
    exact SMap.sorted_assign s.taskMap t.name t h

theorem addTask_sorted (s : State) (name : String) (priority deadline : Int)
    (deps : List String) (hs : SMap.Sorted s.taskMap) :
    SMap.Sorted (addTask s name priority deadline deps).1.taskMap := by
  cases hf : SMap.find s.taskMap name with
  | some t =>
    rw [addTask_duplicate s name priority deadline deps (by rw [hf]; exact Option.some_ne_none t)]
    exact hs
  | none =>
    obtain ⟨_, h2, _, _, _⟩ := addTask_new s name priority deadline deps hf
    rw [h2]
    exact SMap.sorted_assign _ _ _ hs

/-- In every reachable state the registry is in key order. -/
theorem reachable_sorted (s : State) (h : Reachable s) : SMap.Sorted s.taskMap := by
  induction h with
  | start => exact List.Pairwise.nil
  | add name priority deadline deps _ ih => exact addTask_sorted _ name priority deadline deps ih
  | load jArray _ ih =>
    cases jArray with
    | none => exact ih
    | some records => exact loadRecord_foldl_sorted records State.empty List.Pairwise.nil
  | exec hr he ih =>
    obtain ⟨h1, _, _⟩ := executeTasks_frame _ (reachable_registered _ hr) _ he
    rw [h1]
    exact ih

/-! ## Loading a registry in key order gives the same list back -/

theorem SMap.insertNew_append {V : Type} (p : SMap V) (k : String) (v : V)
    (h : ∀ x, x ∈ SMap.keys p → strLt x k = true) : SMap.insertNew p k v = p ++ [(k, v)] := by
  induction p with
  | nil => rfl
  | cons e p ih =>
    obtain ⟨k1, v1⟩ := e
    have h1 : strLt k1 k = true := h k1 (by simp [SMap.keys])
    have h2 : strLt k k1 = false := strLt_asymm k1 k h1
    simp only [SMap.insertNew, h2, Bool.false_eq_true, if_false, List.cons_append]
    rw [ih (fun x hx => h x (by
      simp only [SMap.keys, List.map_cons, List.mem_cons]
      exact Or.inr hx))]

theorem loadRecord_foldl_sorted_eq (q : SMap Task) :
    ∀ (s : State), SMap.Sorted (s.taskMap ++ q) → (∀ e, e ∈ q → e.2.name = e.1) →
      ((q.map Prod.snd).foldl loadRecord s).taskMap = s.taskMap ++ q := by
  induction q with
  | nil =>
    intro s _ _
    simp
  | cons e q ih =>
    obtain ⟨k1, t1⟩ := e
    intro s hs hnamed
    have hn1 : t1.name = k1 := hnamed (k1, t1) (List.mem_cons_self _ _)
    have hlt : ∀ x, x ∈ SMap.keys s.taskMap → strLt x k1 = true := by
      intro x hx
      unfold SMap.Sorted at hs
      simp only [SMap.keys, List.map_append, List.map_cons] at hs
      exact (List.pairwise_append.mp hs).2.2 x hx k1 (List.mem_cons_self _ _)
    have hfind : SMap.find s.taskMap k1 = none := by
      by_contra hne
      have hmem := (SMap.mem_keys_iff s.taskMap k1).mpr hne
      have := hlt k1 hmem
      rw [strLt_irrefl] at this
      exact Bool.noConfusion this
    have hstep : (loadRecord s t1).taskMap = s.taskMap ++ [(k1, t1)] := by
      rw [loadRecord_taskMap, hn1]
      unfold SMap.assign
      rw [hfind]
      exact SMap.insertNew_append s.taskMap k1 t1 hlt
    simp only [List.map_cons, List.foldl_cons]
    rw [ih (loadRecord s t1)
      (by rw [hstep]; simpa using hs)
      (fun e he => hnamed e (List.mem_cons_of_mem _ he)), hstep]
    simp

/-- Loading the tasks of a registry in key order and keyed by name gives the same registry
back. -/
theorem load_values_eq (tm : SMap Task) (hwk : WellKeyed tm) (hs : SMap.Sorted tm)
    (s0 : State) : (loadTasksFromJson s0 (some (tm.map Prod.snd))).1.taskMap = tm := by
  simp only [loadTasksFromJson]
  have := loadRecord_foldl_sorted_eq tm State.empty (by simpa [State.empty] using hs) hwk.named
  simpa [State.empty] using this

/-! ## The comparator with names -/

/-- The comparator of `tempCodeRunnerFile.cpp` orders two tasks with different names one
way and not the other. -/
theorem tempCodeRunner_compare_total (a b : Task) (h : a.name ≠ b.name) :
    (TempCodeRunner.Compare a b = true ∧ TempCodeRunner.Compare b a = false) ∨
    (TempCodeRunner.Compare a b = false ∧ TempCodeRunner.Compare b a = true) := by
  unfold TempCodeRunner.Compare
  by_cases hd : a.deadline = b.deadline
  · by_cases hp : a.priority = b.priority
    · simp only [hd, hp, if_true]
      rcases strLt_total a.name b.name h with hlt | hlt
      · exact Or.inr ⟨strLt_asymm _ _ hlt, hlt⟩
      · exact Or.inl ⟨hlt, strLt_asymm _ _ hlt⟩
    · have hp2 : ¬ b.priority = a.priority := fun he => hp he.symm
      simp only [hd, hp, hp2, if_true, if_false, decide_eq_true_eq, decide_eq_false_iff_not]
      omega
  · have hd2 : ¬ b.deadline = a.deadline := fun he => hd he.symm
    simp only [hd, hd2, if_false, decide_eq_true_eq, decide_eq_false_iff_not]
    omega

/-! ## The claims on the invariants, the comparator, the traversal and the loop -/

/-- Claim C11: the dependents and the dependencies are inverse to each other in the empty
state, every call of `addTask`, accepted or rejected, keeps them so, and so they are in
every registry built by `addTask` calls. -/
theorem mutual_inverse_under_addTask :
    MutualInverse State.empty ∧
    (∀ (s : State) (name : String) (priority deadline : Int) (deps : List String),
      MutualInverse s → MutualInverse (addTask s name priority deadline deps).1) ∧
    (∀ reqs : List AddRequest, MutualInverse (addAll reqs)) :=
  ⟨mutualInverse_empty, addTask_mutualInverse, addAll_mutualInverse⟩

/-- Claim C12, on the code: the comparator of `t.cpp` leaves two tasks with different names
unordered when their deadlines and priorities are equal, where the comparator of
`tempCodeRunnerFile.cpp` orders them by name. -/
theorem compare_leaves_ties_unordered :
    tiedPair.1.name ≠ tiedPair.2.name ∧
    Compare tiedPair.1 tiedPair.2 = false ∧ Compare tiedPair.2 tiedPair.1 = false ∧
    TempCodeRunner.Compare tiedPair.1 tiedPair.2 = false ∧
    TempCodeRunner.Compare tiedPair.2 tiedPair.1 = true := by
  decide

/-- Claim C13: when the cycle check passes and no registered task has a count that reads 0,
`executeTasks` reports that no task is executable, emits nothing, and leaves the registry
and every count as they were: the scheduling loop is not entered. -/
theorem no_executable_tasks (s : State) (hpass : cycleCheckPasses s = true)
    (hblocked : ∀ e, e ∈ s.taskMap → SMap.get s.inDegree e.1 0 ≠ 0) :
    ∃ r, executeTasks s = some r ∧ r.error = some ExecError.noExecutableTasks ∧
      r.emitted = [] ∧ r.executionOrder = [] ∧
      r.state.taskMap = s.taskMap ∧ r.state.inDegree = s.inDegree := by
  obtain ⟨d, hd⟩ := (cycleCheckPasses_iff s).mp hpass
  have hseed := seedStep_foldl_blocked s.taskMap (s.inDegree, [])
    hblocked
  refine ⟨⟨⟨s.taskMap, s.inDegree, d.adjList⟩, some ExecError.noExecutableTasks, []⟩,
    ?_, rfl, rfl, rfl, rfl, rfl⟩
  unfold executeTasks
  rw [hd]
  simp [hseed]

/-- Witness of C13: the registry whose only task `B` waits for the undefined name `Z`. -/
theorem no_executable_tasks_witness :
    blockedState.taskMap ≠ [] ∧ cycleCheckPasses blockedState = true ∧
    (∀ e, e ∈ blockedState.taskMap → SMap.get blockedState.inDegree e.1 0 ≠ 0) ∧
    ∃ r, executeTasks blockedState = some r ∧ r.error = some ExecError.noExecutableTasks ∧
      r.emitted = [] ∧ r.executionOrder = [] ∧
      r.state.taskMap = blockedState.taskMap ∧ r.state.inDegree = blockedState.inDegree :=
  ⟨by decide, by decide, by decide,
   no_executable_tasks blockedState (by decide) (by decide)⟩

/-- Claim C20: the comparator of `t.cpp` is a strict weak ordering: it is irreflexive,
asymmetric and transitive, two tasks are left unordered exactly when they agree in
deadline and priority, and being unordered is transitive. -/
theorem compare_strict_weak_order :
    (∀ a : Task, Compare a a = false) ∧
    (∀ a b : Task, Compare a b = true → Compare b a = false) ∧
    (∀ a b c : Task, Compare a b = true → Compare b c = true → Compare a c = true) ∧
    (∀ a b : Task, (Compare a b = false ∧ Compare b a = false) ↔
      (a.deadline = b.deadline ∧ a.priority = b.priority)) ∧
    (∀ a b c : Task, (Compare a b = false ∧ Compare b a = false) →
      (Compare b c = false ∧ Compare c b = false) →
      (Compare a c = false ∧ Compare c a = false)) := by
  refine ⟨?_, ?_, ?_, ?_, ?_⟩
  · intro a
    rw [Compare_eq_false_iff]
    exact before_refl a
  · intro a b h
    rw [Compare_iff] at h
    rw [Compare_eq_false_iff]
    unfold Before at *
    omega
  · intro a b c h1 h2
    rw [Compare_iff] at *
    unfold Before at *
    omega
  · intro a b
    simp only [Compare_eq_false_iff]
    unfold Before
    omega
  · intro a b c h1 h2
    simp only [Compare_eq_false_iff] at *
    unfold Before at *
    omega

/-- Claim C16: when the dependents adjacency has no directed cycle, the calls of `hasCycle`
that `executeTasks` makes on the registered tasks, one after the other on the shared
`visited` and `recStack`, all return `false`, and `executeTasks` does not report a
circular dependency. -/
theorem no_false_cycle_alarm (s : State)
    (hacyc : ∀ c, ¬ Relation.TransGen (Edge s.adjList) c c) :
    (∃ d, cycleCheck ((nodes s).length + 1) (SMap.keys s.taskMap) ⟨s.adjList, [], []⟩
      = some (false, d)) ∧
    ∃ r, executeTasks s = some r ∧ r.error ≠ some ExecError.circularDependency :=
  ⟨(cycleCheckPasses_iff s).mp (cycleCheckPasses_of_acyclic s hacyc),
   executeTasks_of_passes s (cycleCheckPasses_of_acyclic s hacyc)⟩

/-- Witness of C16: the diamond registry built by `addTask`, with a task apart. -/
theorem no_false_cycle_alarm_witness :
    (∀ c, ¬ Relation.TransGen (Edge (addAll diamondRequests).adjList) c c) ∧
    ((∃ d, cycleCheck ((nodes (addAll diamondRequests)).length + 1)
        (SMap.keys (addAll diamondRequests).taskMap)
        ⟨(addAll diamondRequests).adjList, [], []⟩ = some (false, d)) ∧
      ∃ r, executeTasks (addAll diamondRequests) = some r ∧
        r.error ≠ some ExecError.circularDependency) ∧
    (addAll diamondRequests).adjList = [("A", ["B", "C"]), ("B", ["D"]), ("C", ["D"])] :=
  ⟨fun c => (addAll_addOrder diamondRequests).elim fun r h =>
      h.elim fun N hN => addOrder_acyclic _ r N hN c,
   no_false_cycle_alarm (addAll diamondRequests)
     (fun c => (addAll_addOrder diamondRequests).elim fun r h =>
       h.elim fun N hN => addOrder_acyclic _ r N hN c),
   by decide⟩

/-- Claim C19: in a registry built by `addTask` calls from the empty state the dependents
adjacency has no directed cycle and no self-loop, the cycle check of `executeTasks` passes,
and no circular dependency is reported. -/
theorem acyclic_by_construction (reqs : List AddRequest) :
    (∀ c, ¬ Relation.TransGen (Edge (addAll reqs).adjList) c c) ∧
    (∀ a, ¬ Edge (addAll reqs).adjList a a) ∧
    cycleCheckPasses (addAll reqs) = true ∧
    ∃ r, executeTasks (addAll reqs) = some r ∧
      r.error ≠ some ExecError.circularDependency := by
  obtain ⟨r, N, hrN⟩ := addAll_addOrder reqs
  have hacyc := addOrder_acyclic (addAll reqs) r N hrN
  have hpass := cycleCheckPasses_of_acyclic (addAll reqs) hacyc
  exact ⟨hacyc, fun a h => hacyc a (Relation.TransGen.single h), hpass,
    executeTasks_of_passes (addAll reqs) hpass⟩

/-- Claim C15: on a state whose registry is keyed by task name and whose indices are
consistent (every dependency names a registered task, `adjList[a]` lists `b` once per
occurrence of `a` among the dependencies of `b`, and every count is the length of the
dependency list), a passed cycle check makes `executeTasks` emit every registered task
exactly once: the emitted tasks are a permutation of the registry, the emitted names a
permutation of its keys without repetition, as many as the registry holds, and no error is
reported unless the registry is empty. -/
theorem schedule_complete (s : State) (hwk : WellKeyed s.taskMap) (hidx : Indexed s)
    (hdeps : DepsRegistered s) (hpass : cycleCheckPasses s = true) :
    ∃ r, executeTasks s = some r ∧ r.emitted.Perm (s.taskMap.map Prod.snd) ∧
      r.executionOrder.Perm (SMap.keys s.taskMap) ∧ r.executionOrder.Nodup ∧
      r.executionOrder.length = s.taskMap.length ∧
      (s.taskMap ≠ [] → r.error = none) := by
  obtain ⟨r, hr, hperm, herr⟩ := executeTasks_complete s hwk hidx hdeps hpass
  have hkeys : List.map Task.name (List.map Prod.snd s.taskMap) = SMap.keys s.taskMap := by
    rw [List.map_map]
    unfold SMap.keys
    apply List.map_congr_left
    intro e he
    exact hwk.named e he
  have hp2 : r.executionOrder.Perm (SMap.keys s.taskMap) := by
    unfold ExecResult.executionOrder
    rw [← hkeys]
    exact hperm.map Task.name
  refine ⟨r, hr, hperm, hp2, hp2.nodup_iff.mpr hwk.nodup, ?_, herr⟩
  rw [hp2.length_eq]
  simp [SMap.keys]

/-- Witness of C15: the diamond registry built by `addTask`, whose five tasks come out as
`E, A, C, B, D`. -/
theorem schedule_complete_witness :
    WellKeyed (addAll diamondRequests).taskMap ∧ Indexed (addAll diamondRequests) ∧
    DepsRegistered (addAll diamondRequests) ∧ cycleCheckPasses (addAll diamondRequests) = true ∧
    (∃ r, executeTasks (addAll diamondRequests) = some r ∧
      r.emitted.Perm ((addAll diamondRequests).taskMap.map Prod.snd) ∧
      r.executionOrder.Perm (SMap.keys (addAll diamondRequests).taskMap) ∧
      r.executionOrder.Nodup ∧
      r.executionOrder.length = (addAll diamondRequests).taskMap.length ∧
      ((addAll diamondRequests).taskMap ≠ [] → r.error = none)) ∧
    (executeTasks (addAll diamondRequests)).map (fun r => (r.error, r.executionOrder))
      = some (none, ["E", "A", "C", "B", "D"]) :=
  ⟨reachable_wellKeyed _ (addAll_reachable diamondRequests),
   (addAll_indexed diamondRequests).1, (addAll_indexed diamondRequests).2, by decide,
   schedule_complete (addAll diamondRequests)
     (reachable_wellKeyed _ (addAll_reachable diamondRequests))
     (addAll_indexed diamondRequests).1 (addAll_indexed diamondRequests).2 (by decide),
   by decide⟩

/-- Claim C17: on a state whose registry is keyed by task name and whose indices are
consistent (`adjList[a]` lists `b` once per occurrence of `a` among the dependencies of
`b`, every count is the length of the dependency list), `executeTasks` returns, and
whenever a task `x` is emitted before a task `y` all of whose dependencies were emitted
before `x`, then `x` has the earlier deadline, or the same deadline and a priority at
least as high. -/
theorem frontier_rule (s : State) (hwk : WellKeyed s.taskMap) (hidx : Indexed s) :
    ∃ r, executeTasks s = some r ∧
      ∀ pre x mid y post, r.emitted = pre ++ x :: (mid ++ y :: post) →
        (∀ a, a ∈ y.dependencies → a ∈ pre.map Task.name) → Before x y := by
  obtain ⟨r, k, hr, he, ho⟩ := executeTasks_ordered s hwk hidx
  refine ⟨r, hr, ?_⟩
  intro pre x mid y post hsplit hdeps
  rw [he] at hsplit
  exact ho.frontier pre x (mid ++ y :: post) hsplit y
    (Or.inl (List.mem_append_right _ (List.mem_cons_self _ _))) hdeps

/-- Witness of C17: the diamond registry built by `addTask`. -/
theorem frontier_rule_witness :
    WellKeyed (addAll diamondRequests).taskMap ∧ Indexed (addAll diamondRequests) ∧
    ∃ r, executeTasks (addAll diamondRequests) = some r ∧
      ∀ pre x mid y post, r.emitted = pre ++ x :: (mid ++ y :: post) →
        (∀ a, a ∈ y.dependencies → a ∈ pre.map Task.name) → Before x y :=
  ⟨reachable_wellKeyed _ (addAll_reachable diamondRequests),
   (addAll_indexed diamondRequests).1,
   frontier_rule (addAll diamondRequests)
     (reachable_wellKeyed _ (addAll_reachable diamondRequests))
     (addAll_indexed diamondRequests).1⟩

/-- Counterexample to C18: on a state whose adjacency lists the unregistered names `P` and
`Q`, the loops emit `A` and then twice the task with the empty name that `taskMap[...]`
creates: a name that is not registered, emitted twice, three tasks from a registry of
one. `executeTasks` itself passes the cycle check on this state and does the same. -/
theorem stray_dependents_are_emitted :
    SMap.keys strayState.taskMap = ["A"] ∧
    (scheduleLoop strayState.taskMap strayState.inDegree strayState.adjList).map
        (fun k => k.emitted.map Task.name) = some ["A", "", ""] ∧
    (executeTasks strayState).map (fun r => (r.error, r.executionOrder))
      = some (none, ["A", "", ""]) := by
  decide

/-- Claim C18, amended: on every state whatsoever the seeding loop and the scheduling loop
end, with an empty queue; and when the registry is keyed by task name and every listed
dependent is a registered task, whatever the counts and whether or not the graph has
cycles, every emitted task is a registered task, no name is emitted twice, and at most as
many tasks are emitted as the registry holds. -/
theorem schedule_loop_terminates (s : State) :
    ∃ k, scheduleLoop s.taskMap s.inDegree s.adjList = some k ∧ k.minHeap = [] ∧
      (WellKeyed s.taskMap →
        (∀ a b, b ∈ SMap.get s.adjList a [] → b ∈ SMap.keys s.taskMap) →
        (∀ t, t ∈ k.emitted → (t.name, t) ∈ s.taskMap) ∧
        (k.emitted.map Task.name).Nodup ∧
        k.emitted.length ≤ s.taskMap.length) := by
  obtain ⟨k, hk⟩ := scheduleLoop_total s.taskMap s.inDegree s.adjList
  refine ⟨k, hk, kahnLoop_heap_empty _ _ _ hk, ?_⟩
  intro hwk hreg
  obtain ⟨hq, hnil⟩ := scheduleLoop_queued s.taskMap s.inDegree s.adjList hwk
    (fun a b hb => (SMap.mem_keys_iff _ _).mp (hreg a b hb)) k hk
  have hnd : k.emitted.Nodup := by
    have := hq.nodup
    rw [hnil, List.append_nil] at this
    exact this
  have hmem : ∀ t, t ∈ k.emitted → (t.name, t) ∈ s.taskMap := fun t ht =>
    SMap.find_some_mem _ _ _ (hq.registered t (List.mem_append_left _ ht))
  have hnames : (k.emitted.map Task.name).Nodup := by
    apply List.Nodup.map_on _ hnd
    intro x hx y hy hxy
    have r1 := hq.registered x (List.mem_append_left _ hx)
    have r2 := hq.registered y (List.mem_append_left _ hy)
    rw [hxy, r2] at r1
    simp only [Option.some.injEq] at r1
    exact r1.symm
  refine ⟨hmem, hnames, ?_⟩
  have hsub : k.emitted.map Task.name ⊆ SMap.keys s.taskMap := by
    intro n hn
    obtain ⟨t, ht, htn⟩ := List.mem_map.mp hn
    rw [← htn]
    exact List.mem_map.mpr ⟨(t.name, t), hmem t ht, rfl⟩
  have := (List.subperm_of_subset hnames hsub).length_le
  simpa [SMap.keys] using this

/-- Witness of C18, amended: two tasks that depend on each other, with the cycle check
left out: the loops end at once and emit nothing. -/
theorem schedule_loop_terminates_witness :
    WellKeyed mutualState.taskMap ∧
    (∀ a b, b ∈ SMap.get mutualState.adjList a [] → b ∈ SMap.keys mutualState.taskMap) ∧
    (∃ k, scheduleLoop mutualState.taskMap mutualState.inDegree mutualState.adjList = some k ∧
      k.minHeap = [] ∧
      (WellKeyed mutualState.taskMap →
        (∀ a b, b ∈ SMap.get mutualState.adjList a [] →
          b ∈ SMap.keys mutualState.taskMap) →
        (∀ t, t ∈ k.emitted → (t.name, t) ∈ mutualState.taskMap) ∧
        (k.emitted.map Task.name).Nodup ∧
        k.emitted.length ≤ mutualState.taskMap.length)) ∧
    (scheduleLoop mutualState.taskMap mutualState.inDegree mutualState.adjList).map
        (fun k => (k.emitted, k.inDegree)) = some ([], [("X", 1), ("Y", 1)]) :=
  ⟨reachable_wellKeyed _ (Reachable.load (some mutualBatch) Reachable.start),
   (reachable_registered _ (Reachable.load (some mutualBatch) Reachable.start)).dependents,
   schedule_loop_terminates mutualState, by decide⟩

/-- Counterexample to C14: for the empty registry `saveTasksToJson` produces no array (it
reports that there is nothing to save), so there is no record list to load. -/
theorem empty_registry_is_not_saved :
    saveTasksToJson State.empty.taskMap = none ∧
    ¬ ∃ js, saveTasksToJson State.empty.taskMap = some js :=
  ⟨rfl, fun h => h.elim fun _ hjs => Option.noConfusion hjs⟩

/-- Claim C14, amended: for every reachable state with a registry that is not empty, the
registry is in the order of the task names, `saveTasksToJson` produces the array of the
records of its tasks in that order, `Task::fromJson` reads the tasks back from it, and
`loadTasksFromJson` on these, over any prior state, gives the same registry: the same
entries in the same order, each with its name, priority, deadline and dependency list as
they were. -/
theorem save_load_round_trip (s : State) (hs : Reachable s) (hne : s.taskMap ≠ [])
    (s0 : State) :
    SMap.Sorted s.taskMap ∧
    saveTasksToJson s.taskMap = some (s.taskMap.map (fun entry => entry.2.toJson)) ∧
    readRecords (s.taskMap.map (fun entry => entry.2.toJson))
      = some (s.taskMap.map Prod.snd) ∧
    (loadTasksFromJson s0 (some (s.taskMap.map Prod.snd))).2 = LoadOutcome.loaded ∧
    (loadTasksFromJson s0 (some (s.taskMap.map Prod.snd))).1.taskMap = s.taskMap := by
  have hwk := reachable_wellKeyed s hs
  have hsorted := reachable_sorted s hs
  refine ⟨hsorted, ?_, ?_, rfl, load_values_eq s.taskMap hwk hsorted s0⟩
  · unfold saveTasksToJson
    have : s.taskMap.isEmpty = false := by
      cases hm : s.taskMap with
      | nil => exact absurd hm hne
      | cons e m => rfl
    simp [this]
  · have : s.taskMap.map (fun entry => entry.2.toJson)
        = (s.taskMap.map Prod.snd).map Task.toJson := by
      rw [List.map_map]
      rfl
    rw [this]
    exact readRecords_map_toJson _

/-- Witness of C14, amended: the registry of `A` and `B`, saved and loaded over the
registry with the repeated name. -/
theorem save_load_round_trip_witness :
    Reachable chainState ∧ chainState.taskMap ≠ [] ∧
    (SMap.Sorted chainState.taskMap ∧
      saveTasksToJson chainState.taskMap
        = some (chainState.taskMap.map (fun entry => entry.2.toJson)) ∧
      readRecords (chainState.taskMap.map (fun entry => entry.2.toJson))
        = some (chainState.taskMap.map Prod.snd) ∧
      (loadTasksFromJson repeatedState (some (chainState.taskMap.map Prod.snd))).2
        = LoadOutcome.loaded ∧
      (loadTasksFromJson repeatedState (some (chainState.taskMap.map Prod.snd))).1.taskMap
        = chainState.taskMap) ∧
    SMap.keys chainState.taskMap = ["A", "B"] :=
  ⟨Reachable.add "B" 1 1 ["A"] (Reachable.add "A" 1 5 [] Reachable.start), by decide,
   save_load_round_trip chainState
     (Reachable.add "B" 1 1 ["A"] (Reachable.add "A" 1 5 [] Reachable.start)) (by decide)
     repeatedState,
   by decide⟩

end TaskManager
